import Mathlib

/-!
Verification of the on-disk B-tree index implemented in `src/project3.py`.

The embedding models the program state explicitly:
  * the backing file as a list of 512-byte blocks (each a `List Nat` of bytes),
  * the page cache as an association list from block index to decoded `Node`
    together with an LRU order list,
  * the in-memory header (root block index, next free block index).

Python's fallible operations (short reads, `int.to_bytes` overflow,
`dict.pop` on a missing key) are modelled with `Option`: `none` is an
uncaught exception.  Recursive descent over block indices uses explicit
fuel; the theorems either instantiate the fuel concretely or quantify
over it.

Python mutates node objects in place while the cache holds references to
the same objects.  The model represents a held reference by the node's
block index and reads/writes the cache entry (`peek`/`poke`); on every
path the program actually executes the referenced object is resident, so
this coincides with the source's aliasing behaviour.
-/

set_option maxRecDepth 100000

namespace Project3

def BLOCK_SIZE : Nat := 512
def T : Nat := 10
def MAX_KEYS : Nat := 2 * T - 1
def MAX_CHILDREN : Nat := 2 * T

/-- One decoded node page, mirroring `class Node` in `src/project3.py`. -/
structure Node where
  block_id : Nat
  parent_id : Nat
  num_keys : Nat
  keys : List Nat
  values : List Nat
  children : List Nat
  dirty : Bool
deriving Repr, DecidableEq

/-- `Node.__init__(block_id, parent_id)`: freshly zeroed page, marked dirty. -/
def Node.fresh (block_id parent_id : Nat) : Node :=
  { block_id := block_id
    parent_id := parent_id
    num_keys := 0
    keys := List.replicate MAX_KEYS 0
    values := List.replicate MAX_KEYS 0
    children := List.replicate MAX_CHILDREN 0
    dirty := true }

/-- `Node.is_leaf`: true iff `children[0..=num_keys]` are all zero. -/
def Node.isLeaf (nd : Node) : Bool :=
  (List.range (nd.num_keys + 1)).all fun i => nd.children.getD i 0 == 0

/-! ### Big-endian byte codec (`int.to_bytes` / `int.from_bytes`) -/

/-- `x.to_bytes(k, "big")`: the `k` big-endian base-256 digits of `x`
(low digits appended last). -/
def beBytes : Nat → Nat → List Nat
  | 0, _ => []
  | k + 1, x => beBytes k (x / 256) ++ [x % 256]

/-- `int.from_bytes(data, "big")`. -/
def fromBE (l : List Nat) : Nat :=
  l.foldl (fun a b => a * 256 + b) 0

/-- The magic identifier `b"4348PRJ3"` as raw bytes. -/
def MAGIC : List Nat := [0x34, 0x33, 0x34, 0x38, 0x50, 0x52, 0x4A, 0x33]

/-- Read the 8-byte big-endian field starting at byte `off` of a block. -/
def readU64 (data : List Nat) (off : Nat) : Nat :=
  fromBE ((data.drop off).take 8)

/-- `Node.read` body after the 512-byte block has been fetched: parse the
stored block id, parent id, key count and the three arrays.  The node is
keyed by its *stored* block id (as in the source) and marked clean. -/
def readNode (data : List Nat) : Node :=
  { block_id := readU64 data 0
    parent_id := readU64 data 8
    num_keys := readU64 data 16
    keys := (List.range MAX_KEYS).map fun i => readU64 data (24 + 8 * i)
    values := (List.range MAX_KEYS).map fun i => readU64 data (24 + 8 * MAX_KEYS + 8 * i)
    children := (List.range MAX_CHILDREN).map fun i =>
      readU64 data (24 + 16 * MAX_KEYS + 8 * i)
    dirty := false }

/-- All integer fields of a node fit `int.to_bytes(8, ...)` and the three
arrays have their full on-disk lengths (Python would raise otherwise). -/
def Node.wf64 (nd : Node) : Prop :=
  nd.block_id < 2 ^ 64 ∧ nd.parent_id < 2 ^ 64 ∧ nd.num_keys < 2 ^ 64 ∧
  nd.keys.length = MAX_KEYS ∧ nd.values.length = MAX_KEYS ∧
  nd.children.length = MAX_CHILDREN ∧
  (∀ x ∈ nd.keys, x < 2 ^ 64) ∧ (∀ x ∈ nd.values, x < 2 ^ 64) ∧
  (∀ x ∈ nd.children, x < 2 ^ 64)

instance (nd : Node) : Decidable nd.wf64 := by
  unfold Node.wf64; infer_instance

/-- The 512-byte image `Node.to_bytes` produces: three 8-byte header
fields, the three arrays, and the reserved zero tail. -/
def nodeBytes (nd : Node) : List Nat :=
  beBytes 8 nd.block_id ++ beBytes 8 nd.parent_id ++ beBytes 8 nd.num_keys ++
  (nd.keys.map (beBytes 8)).flatten ++ (nd.values.map (beBytes 8)).flatten ++
  (nd.children.map (beBytes 8)).flatten ++
  List.replicate (BLOCK_SIZE - 24 - 24 * MAX_KEYS - 8) 0

/-- `Node.to_bytes`: 512-byte image of the node, or `none` when a field
does not fit an unsigned 64-bit big-endian slot (Python raises
`OverflowError`). -/
def Node.toBytes (nd : Node) : Option (List Nat) :=
  if nd.wf64 then some (nodeBytes nd) else none

/-- `Header.to_bytes` with the magic already fixed. -/
def headerBytes (root next : Nat) : List Nat :=
  MAGIC ++ beBytes 8 root ++ beBytes 8 next ++ List.replicate (BLOCK_SIZE - 24) 0

/-! ### The program state -/

/-- The whole mutable state of one `BTree` object: the backing file (a
dense list of 512-byte blocks), the `NodeCache` contents and LRU order,
and the in-memory header fields. -/
structure St where
  file : List (List Nat)
  cache : List (Nat × Node)
  order : List Nat
  root : Nat
  next : Nat
deriving Repr, DecidableEq

/-- Write a 512-byte block at block index `b`, extending the file with
zero blocks if the seek is past the end (POSIX gap semantics). -/
def writeBlock (file : List (List Nat)) (b : Nat) (data : List Nat) : List (List Nat) :=
  if b < file.length then file.set b data
  else file ++ List.replicate (b - file.length) (List.replicate BLOCK_SIZE 0) ++ [data]

/-- `Node.write`: encode and write at `self.block_id`; fails on overflow. -/
def nodeWrite (file : List (List Nat)) (nd : Node) : Option (List (List Nat)) :=
  (nd.toBytes).map fun data => writeBlock file nd.block_id data

def lookupCache (c : List (Nat × Node)) (b : Nat) : Option Node :=
  (c.find? fun e => e.1 == b).map Prod.snd

def eraseCache (c : List (Nat × Node)) (b : Nat) : List (Nat × Node) :=
  c.filter fun e => e.1 ≠ b

def replaceCache (c : List (Nat × Node)) (b : Nat) (nd : Node) : List (Nat × Node) :=
  c.map fun e => if e.1 = b then (b, nd) else e

/-- `NodeCache._touch`. -/
def touch (st : St) (b : Nat) : St :=
  { st with order := b :: st.order.erase b }

/-- One iteration of `NodeCache._evict_if_needed`'s `while` loop, fuelled
by the length of the LRU list (each iteration pops one entry, so this is
the exact iteration count; fewer means `order` ran empty, which in Python
is an uncaught `IndexError`). -/
def evictGo : Nat → St → Option St
  | 0, st => if 3 < st.cache.length then none else some st
  | f + 1, st =>
    if 3 < st.cache.length then
      (st.order.getLast?).bind fun victim =>
      (lookupCache st.cache victim).bind fun nd =>
      if nd.dirty then
        (nodeWrite st.file nd).bind fun fl =>
          evictGo f { st with order := st.order.dropLast,
                              cache := eraseCache st.cache victim, file := fl }
      else evictGo f { st with order := st.order.dropLast,
                               cache := eraseCache st.cache victim }
    else some st

def evictIfNeeded (st : St) : Option St := evictGo st.order.length st

/-- `NodeCache.get`. -/
def cacheGet (st : St) (b : Nat) : Option (Node × St) :=
  match lookupCache st.cache b with
  | some nd => some (nd, touch st b)
  | none =>
    (if 3 ≤ st.cache.length then evictIfNeeded st else some st).bind fun st1 =>
    (st1.file.get? b).bind fun data =>
    if data.length = BLOCK_SIZE then
      let nd := readNode data
      some (nd, touch { st1 with cache := st1.cache ++ [(b, nd)] } b)
    else none

/-- `NodeCache.new_node`. -/
def newNode (st : St) (b parent : Nat) : Option (Node × St) :=
  (if 3 ≤ st.cache.length then evictIfNeeded st else some st).map fun st1 =>
  let nd := Node.fresh b parent
  (nd, touch { st1 with cache := st1.cache ++ [(b, nd)] } b)

/-- `NodeCache.flush_all`: write every dirty resident page (which clears
its dirty flag in place). -/
def flushGo : List (Nat × Node) → St → Option St
  | [], st => some st
  | (b, nd) :: t, st =>
    if nd.dirty then
      (nodeWrite st.file nd).bind fun fl =>
        flushGo t { st with file := fl,
                            cache := replaceCache st.cache b { nd with dirty := false } }
    else flushGo t st

def flushAll (st : St) : Option St := flushGo st.cache st

/-- Attribute read on a node reference held by the B-tree code. -/
def peek (st : St) (b : Nat) : Option Node := lookupCache st.cache b

/-- Attribute writes on a node reference held by the B-tree code
(visible through the cache since the object is resident). -/
def poke (st : St) (b : Nat) (nd : Node) : Option St :=
  match lookupCache st.cache b with
  | some _ => some { st with cache := replaceCache st.cache b nd }
  | none => none

/-! ### B-tree operations -/

/-- The `while i < node.num_keys and key > node.keys[i]` scan of
`BTree._search_node`, fuelled by the remaining iteration count. -/
def lscanAux (keys : List Nat) (k : Nat) : Nat → Nat → Nat
  | 0, i => i
  | c + 1, i => if k > keys.getD i 0 then lscanAux keys k c (i + 1) else i

/-- Least `i < num_keys` with `key ≤ keys[i]`, else `num_keys`. -/
def lscan (nd : Node) (k : Nat) : Nat := lscanAux nd.keys k nd.num_keys 0

/-- The descent scan of `BTree._insert_nonfull`'s internal branch:
`i = num_keys - 1; while i >= 0 and key < keys[i]: i -= 1; i += 1`.
The argument is `i + 1`, so `0` encodes Python's `i = -1`. -/
def rscan (nd : Node) (k : Nat) : Nat → Nat
  | 0 => 0
  | j + 1 => if k < nd.keys.getD j 0 then rscan nd k j else j + 1

/-- `BTree._search_node`, fuelled by the descent depth. -/
def searchNode : Nat → St → Nat → Nat → Option (Option Nat × St)
  | 0, _, _, _ => none
  | f + 1, st, b, k =>
    (cacheGet st b).bind fun (nd, st1) =>
    let i := lscan nd k
    if i < nd.num_keys ∧ k = nd.keys.getD i 0 then
      some (some (nd.values.getD i 0), st1)
    else if nd.isLeaf then some (none, st1)
    else
      let childId := nd.children.getD i 0
      if childId = 0 then some (none, st1)
      else searchNode f st1 childId k

/-- `BTree.search`. -/
def search (fuel : Nat) (st : St) (k : Nat) : Option (Option Nat × St) :=
  if st.root = 0 then some (none, st) else searchNode fuel st st.root k

/-- The leaf-insert shift loop of `BTree._insert_nonfull`:
`while i >= 0 and key < keys[i]`, shifting `keys[i] → keys[i+1]` and
`values[i] → values[i+1]`.  Returns the shifted arrays and the slot
`i + 1` where the new pair is placed.  The recursion argument is `i + 1`
(so `0` is Python's `i = -1`). -/
def leafLoop (k : Nat) : List Nat → List Nat → Nat → (List Nat × List Nat × Nat)
  | ks, vs, 0 => (ks, vs, 0)
  | ks, vs, i + 1 =>
    if k < ks.getD i 0 then
      leafLoop k (ks.set (i + 1) (ks.getD i 0)) (vs.set (i + 1) (vs.getD i 0)) i
    else (ks, vs, i + 1)

/-- The whole leaf-insert array update: run the shift loop from
`i = num_keys - 1`, then place the new pair at the returned slot. -/
def leafPlace (k v : Nat) (ks vs : List Nat) (n : Nat) : List Nat × List Nat :=
  let r := leafLoop k ks vs n
  (r.1.set r.2.2 k, r.2.1.set r.2.2 v)

/-- `BTree._split_child(parent, i)`.  `pb` is the block index of the
parent reference the caller holds. -/
def splitChild (st : St) (pb i : Nat) : Option St :=
  (peek st pb).bind fun parent =>
  let oldId := parent.children.getD i 0
  (cacheGet st oldId).bind fun (oldC, st1) =>
  let newId := st1.next
  let st2 : St := { st1 with next := st1.next + 1 }
  (newNode st2 newId pb).bind fun (newC0, st3) =>
  let mid := T - 1
  -- new_child.num_keys = MAX_KEYS - T; copy keys/values at old indices T..2T-2
  let newC1 : Node :=
    { newC0 with
      num_keys := MAX_KEYS - T
      keys := (List.range (MAX_KEYS - T)).foldl
        (fun ks j => ks.set j (oldC.keys.getD (j + T) 0)) newC0.keys
      values := (List.range (MAX_KEYS - T)).foldl
        (fun vs j => vs.set j (oldC.values.getD (j + T) 0)) newC0.values }
  -- if the old child is internal, copy children at old indices T..2T-1
  let newC2 : Node :=
    if oldC.isLeaf then newC1
    else { newC1 with
      children := (List.range (MAX_KEYS - T + 1)).foldl
        (fun cs j => cs.set j (oldC.children.getD (j + T) 0)) newC1.children }
  -- zero the old child's keys/values at mid..MAX_KEYS-1
  let oldC1 : Node :=
    { oldC with
      keys := (List.range (MAX_KEYS - mid)).foldl
        (fun ks j => ks.set (mid + j) 0) oldC.keys
      values := (List.range (MAX_KEYS - mid)).foldl
        (fun vs j => vs.set (mid + j) 0) oldC.values }
  -- if internal, zero the old child's children at T..MAX_CHILDREN-1
  let oldC2 : Node :=
    if oldC1.isLeaf then oldC1
    else { oldC1 with
      children := (List.range (MAX_CHILDREN - T)).foldl
        (fun cs j => cs.set (T + j) 0) oldC1.children }
  let oldC3 : Node := { oldC2 with num_keys := mid }
  -- shift the parent's children at i+1..num_keys one slot right
  let par1 : Node :=
    { parent with
      children := (List.range (parent.num_keys - i)).foldl
        (fun cs s =>
          let j := parent.num_keys - s
          cs.set (j + 1) (cs.getD j 0)) parent.children }
  let par2 : Node := { par1 with children := par1.children.set (i + 1) newId }
  -- shift the parent's keys/values at i..num_keys-1 one slot right
  let par3 : Node :=
    { par2 with
      keys := (List.range (parent.num_keys - i)).foldl
        (fun ks s =>
          let j := parent.num_keys - 1 - s
          ks.set (j + 1) (ks.getD j 0)) par2.keys
      values := (List.range (parent.num_keys - i)).foldl
        (fun vs s =>
          let j := parent.num_keys - 1 - s
          vs.set (j + 1) (vs.getD j 0)) par2.values }
  -- promote: parent.keys[i] = old_child.keys[mid] (read AFTER the zeroing
  -- above, exactly as the source does at lines 267-268)
  let par4 : Node :=
    { par3 with keys := par3.keys.set i (oldC3.keys.getD mid 0),
                values := par3.values.set i (oldC3.values.getD mid 0) }
  let oldC4 : Node :=
    { oldC3 with keys := oldC3.keys.set mid 0, values := oldC3.values.set mid 0 }
  let par5 : Node := { par4 with num_keys := par4.num_keys + 1, dirty := true }
  let oldC5 : Node := { oldC4 with dirty := true }
  let newC3 : Node := { newC2 with dirty := true }
  (poke st3 oldId oldC5).bind fun st4 =>
  (poke st4 pb par5).bind fun st5 =>
  poke st5 newId newC3

/-- The old child after `_split_child`'s zeroing loops and the count
cut, before the promoted slot itself is cleared (`old_child` as of
line 266 of the source). -/
def splitOldMid (oldC : Node) : Node :=
  let mid := T - 1
  let oldC1 : Node :=
    { oldC with
      keys := (List.range (MAX_KEYS - mid)).foldl
        (fun ks j => ks.set (mid + j) 0) oldC.keys
      values := (List.range (MAX_KEYS - mid)).foldl
        (fun vs j => vs.set (mid + j) 0) oldC.values }
  let oldC2 : Node :=
    if oldC1.isLeaf then oldC1
    else { oldC1 with
      children := (List.range (MAX_CHILDREN - T)).foldl
        (fun cs j => cs.set (T + j) 0) oldC1.children }
  { oldC2 with num_keys := mid }

/-- The old child as finally stored by `_split_child`. -/
def splitOld (oldC : Node) : Node :=
  let oldC3 := splitOldMid oldC
  let mid := T - 1
  { oldC3 with keys := oldC3.keys.set mid 0, values := oldC3.values.set mid 0,
               dirty := true }

/-- The new sibling as finally stored by `_split_child`. -/
def splitNew (oldC newC0 : Node) : Node :=
  let newC1 : Node :=
    { newC0 with
      num_keys := MAX_KEYS - T
      keys := (List.range (MAX_KEYS - T)).foldl
        (fun ks j => ks.set j (oldC.keys.getD (j + T) 0)) newC0.keys
      values := (List.range (MAX_KEYS - T)).foldl
        (fun vs j => vs.set j (oldC.values.getD (j + T) 0)) newC0.values }
  let newC2 : Node :=
    if oldC.isLeaf then newC1
    else { newC1 with
      children := (List.range (MAX_KEYS - T + 1)).foldl
        (fun cs j => cs.set j (oldC.children.getD (j + T) 0)) newC1.children }
  { newC2 with dirty := true }

/-- The parent as finally stored by `_split_child`. -/
def splitPar (parent : Node) (i newId : Nat) (oldC3 : Node) : Node :=
  let mid := T - 1
  let par1 : Node :=
    { parent with
      children := (List.range (parent.num_keys - i)).foldl
        (fun cs s =>
          let j := parent.num_keys - s
          cs.set (j + 1) (cs.getD j 0)) parent.children }
  let par2 : Node := { par1 with children := par1.children.set (i + 1) newId }
  let par3 : Node :=
    { par2 with
      keys := (List.range (parent.num_keys - i)).foldl
        (fun ks s =>
          let j := parent.num_keys - 1 - s
          ks.set (j + 1) (ks.getD j 0)) par2.keys
      values := (List.range (parent.num_keys - i)).foldl
        (fun vs s =>
          let j := parent.num_keys - 1 - s
          vs.set (j + 1) (vs.getD j 0)) par2.values }
  let par4 : Node :=
    { par3 with keys := par3.keys.set i (oldC3.keys.getD mid 0),
                values := par3.values.set i (oldC3.values.getD mid 0) }
  { par4 with num_keys := par4.num_keys + 1, dirty := true }

/-- `BTree._insert_nonfull`, fuelled by the descent depth.  `b` is the
block index of the node reference passed in. -/
def insertNonfull : Nat → St → Nat → Nat → Nat → Option St
  | 0, _, _, _, _ => none
  | f + 1, st, b, k, v =>
    (peek st b).bind fun nd =>
    if nd.isLeaf then
      let r := leafPlace k v nd.keys nd.values nd.num_keys
      poke st b { nd with keys := r.1, values := r.2,
                          num_keys := nd.num_keys + 1, dirty := true }
    else
      let i := rscan nd k nd.num_keys
      let childId := nd.children.getD i 0
      (cacheGet st childId).bind fun (child, st1) =>
      if child.num_keys = MAX_KEYS then
        (splitChild st1 b i).bind fun st2 =>
        (peek st2 b).bind fun nd2 =>
        let i2 := if k > nd2.keys.getD i 0 then i + 1 else i
        let childId2 := nd2.children.getD i2 0
        (cacheGet st2 childId2).bind fun (_, st3) =>
        insertNonfull f st3 childId2 k v
      else insertNonfull f st1 childId k v

/-- `BTree.insert`. -/
def insert (fuel : Nat) (st : St) (k v : Nat) : Option St :=
  if st.root = 0 then
    let rootId := st.next
    let st1 : St := { st with next := st.next + 1, root := rootId }
    (newNode st1 rootId 0).bind fun (root, st2) =>
    poke st2 rootId
      { root with num_keys := 1, keys := root.keys.set 0 k,
                  values := root.values.set 0 v, dirty := true }
  else
    (cacheGet st st.root).bind fun (root, st1) =>
    if root.num_keys = MAX_KEYS then
      let newRootId := st1.next
      let st2 : St := { st1 with next := st1.next + 1 }
      (newNode st2 newRootId 0).bind fun (newRoot, st3) =>
      (poke st3 newRootId
        { newRoot with num_keys := 0,
                       children := newRoot.children.set 0 root.block_id }).bind fun st4 =>
      (poke st4 st.root { root with parent_id := newRootId, dirty := true }).bind fun st5 =>
      let st6 : St := { st5 with root := newRootId }
      (splitChild st6 newRootId 0).bind fun st7 =>
      insertNonfull fuel st7 newRootId k v
    else insertNonfull fuel st1 st.root k v

/-- The body of `BTree._traverse_node`'s `for i in range(num_keys)` loop
followed by the final-child visit, with the recursive call abstracted as
`recur`.  The countdown `c` is the remaining iteration count and `i` the
current index; reads go to the captured node value, as the source reads
the held object reference. -/
def travKids (recur : St → Nat → Option (List (Nat × Nat) × St)) (nd : Node) :
    Nat → Nat → St → Option (List (Nat × Nat) × St)
  | 0, i, st =>
    if nd.children.getD i 0 ≠ 0 then recur st (nd.children.getD i 0)
    else some ([], st)
  | c + 1, i, st =>
    (if nd.children.getD i 0 ≠ 0 then recur st (nd.children.getD i 0)
     else some ([], st)).bind fun (out1, st1) =>
    (travKids recur nd c (i + 1) st1).map fun (out2, st2) =>
      (out1 ++ (nd.keys.getD i 0, nd.values.getD i 0) :: out2, st2)

/-- `BTree._traverse_node`, returning the list of `(key, value)` pairs
passed to the visitor, in order. -/
def travNode : Nat → St → Nat → Option (List (Nat × Nat) × St)
  | 0, _, _ => none
  | f + 1, st, b =>
    (cacheGet st b).bind fun (nd, st1) =>
    travKids (travNode f) nd nd.num_keys 0 st1

/-- `BTree.traverse`. -/
def traverse (fuel : Nat) (st : St) : Option (List (Nat × Nat) × St) :=
  if st.root = 0 then some ([], st) else travNode fuel st st.root

/-! ### Lifecycle: create, close, reopen -/

/-- State of a `BTree` object right after `BTree(filename, must_exist=False)`:
fresh header written to block 0, empty cache. -/
def createSt : St :=
  { file := [headerBytes 0 1], cache := [], order := [], root := 0, next := 1 }

/-- `Header.write` (fails if a field does not fit 8 bytes). -/
def headerWrite (st : St) : Option St :=
  if st.root < 2 ^ 64 ∧ st.next < 2 ^ 64 then
    some { st with file := writeBlock st.file 0 (headerBytes st.root st.next) }
  else none

/-- `BTree.close`: flush the cache, then write the header.  The result
is the final file contents (the in-memory fields are gone with the
process). -/
def close (st : St) : Option St :=
  (flushAll st).bind headerWrite

/-- `BTree(filename, must_exist=True)` over an existing file: parse the
header (checking magic), start with an empty cache. -/
def reopen (file : List (List Nat)) : Option St :=
  match file.get? 0 with
  | none => none
  | some data =>
    if data.length = BLOCK_SIZE ∧ data.take 8 = MAGIC then
      some { file := file, cache := [], order := [],
             root := readU64 data 8, next := readU64 data 16 }
    else none

/-- Run a list of `(key, value)` inserts starting from a fresh index,
each insert with fuel `st.next` (always at least the tree height plus
one on states the program reaches). -/
def stateAfter (ins : List (Nat × Nat)) : Option St :=
  ins.foldlM (fun st (p : Nat × Nat) => insert st.next st p.1 p.2) createSt

/-! ### Command layer -/

/-- `cmd_search` after the key has parsed: run the lookup, print one
line, close.  Returns the printed lines and the process exit status
(`none` = uncaught exception). -/
def cmdSearch (fuel : Nat) (st : St) (k : Nat) : Option (List String × Nat) :=
  (search fuel st k).bind fun (res, st1) =>
  (close st1).map fun _ =>
    match res with
    | none => (["Error: key not found"], 0)
    | some v => ([toString k ++ " " ++ toString v], 0)

def isDigit (c : Char) : Bool := '0' ≤ c && c ≤ '9'

/-- ASCII whitespace as stripped by `str.strip()` / tolerated by `int()`. -/
def isSpaceChar (c : Char) : Bool :=
  c = ' ' || c = '\t' || c = '\n' || c = '\r' || c = '\x0b' || c = '\x0c'

/-- `str.strip()` at the character-list level. -/
def pyStrip (l : List Char) : List Char :=
  ((l.dropWhile isSpaceChar).reverse.dropWhile isSpaceChar).reverse

/-- Digit string tail for Python's integer literal grammar: digits with
single underscores allowed only between digits. -/
def digitsTail : List Char → Bool
  | [] => true
  | '_' :: [] => false
  | '_' :: c :: rest => isDigit c && digitsTail rest
  | c :: rest => isDigit c && digitsTail rest

/-- `digit (digit | "_" digit)*`. -/
def digitsCore : List Char → Bool
  | [] => false
  | c :: rest => isDigit c && digitsTail rest

def digitsVal (l : List Char) : Nat :=
  (l.filter fun c => c ≠ '_').foldl (fun a c => a * 10 + (c.toNat - '0'.toNat)) 0

/-- Python's `int(s)` on a decimal string: optional surrounding
whitespace, optional sign, digits with single interior underscores.
`none` is a `ValueError`. -/
def pyInt (s : String) : Option Int :=
  match pyStrip s.toList with
  | '+' :: rest => if digitsCore rest then some (Int.ofNat (digitsVal rest)) else none
  | '-' :: rest => if digitsCore rest then some (-(Int.ofNat (digitsVal rest))) else none
  | l => if digitsCore l then some (Int.ofNat (digitsVal l)) else none

/-- The row loop of `cmd_load`: the `(key, value)` arguments of the
`tree.insert` calls, in file order.  A row is skipped (`continue`) when
it has fewer than two fields or when either `int(...)` raises. -/
def loadCalls : List (List String) → List (Int × Int)
  | [] => []
  | row :: rest =>
    if row.length < 2 then loadCalls rest
    else
      match pyInt (row.getD 0 ""), pyInt (row.getD 1 "") with
      | some k, some v => (k, v) :: loadCalls rest
      | _, _ => loadCalls rest

/-- The row-acceptance rule exactly as claim C9 states it: at least two
fields, both valid signed decimals, and both values within the unsigned
64-bit range (non-negative and below `2^64`). -/
def claimAccept (row : List String) : Option (Int × Int) :=
  if row.length < 2 then none
  else
    match pyInt (row.getD 0 ""), pyInt (row.getD 1 "") with
    | some k, some v =>
      if 0 ≤ k ∧ k < 2 ^ 64 ∧ 0 ≤ v ∧ v < 2 ^ 64 then some (k, v) else none
    | _, _ => none

/-- The row-acceptance rule the code actually implements: at least two
fields and both fields parse as Python integers — no range check. -/
def codeAccept (row : List String) : Option (Int × Int) :=
  if row.length < 2 then none
  else
    match pyInt (row.getD 0 ""), pyInt (row.getD 1 "") with
    | some k, some v => some (k, v)
    | _, _ => none

/-! ### Pure list-level companions used to state and prove C1 -/

/-- Insertion of a pair into a key-sorted pair list at the exact slot the
leaf shift loop produces: before the first strictly greater key, after
any equal keys. -/
def insPair (p : Nat × Nat) : List (Nat × Nat) → List (Nat × Nat)
  | [] => [p]
  | q :: t => if p.1 < q.1 then p :: q :: t else q :: insPair p t

/-- What `_search_node` computes on a leaf: scan while `k > key`, then
report the value iff the key under the cursor equals `k`. -/
def firstLookup (k : Nat) : List (Nat × Nat) → Option Nat
  | [] => none
  | (a, b) :: t => if k > a then firstLookup k t else if k = a then some b else none

/-- The pair list a single-leaf tree holds after the given inserts. -/
def sortedInserts (ins : List (Nat × Nat)) : List (Nat × Nat) :=
  ins.foldl (fun l p => insPair p l) []

/-- The value of the first (earliest) insert whose key is `k`. -/
def firstAssoc (k : Nat) (ins : List (Nat × Nat)) : Option Nat :=
  (ins.find? fun p => p.1 == k).map Prod.snd

/-- Keys of a pair list are nondecreasing (duplicates allowed). -/
def sortedKeys (l : List (Nat × Nat)) : Prop :=
  l.Pairwise fun p q => p.1 ≤ q.1

/-- Adjacent elements strictly increase. -/
def strictlyAscending : List Nat → Bool
  | [] => true
  | [_] => true
  | a :: b :: t => a < b && strictlyAscending (b :: t)

/-- Pad a list with zeros to the on-disk key-array length. -/
def pad19 (l : List Nat) : List Nat := l ++ List.replicate (MAX_KEYS - l.length) 0

/-- The root leaf node of a tree holding exactly `pairs`. -/
def leafNode (pairs : List (Nat × Nat)) : Node :=
  { block_id := 1, parent_id := 0, num_keys := pairs.length,
    keys := pad19 (pairs.map Prod.fst), values := pad19 (pairs.map Prod.snd),
    children := List.replicate MAX_CHILDREN 0, dirty := true }

/-- The whole program state while the tree is a single leaf. -/
def leafState (pairs : List (Nat × Nat)) : St :=
  { file := [headerBytes 0 1], cache := [(1, leafNode pairs)], order := [1],
    root := 1, next := 2 }

/-! ### Cache-operation sequences (for C3) -/

/-- One `NodeCache` entry point, as invoked by the B-tree layer. -/
inductive CacheOp where
  | get (b : Nat)
  | new (b parent : Nat)
  | flush
deriving Repr, DecidableEq

def runCacheOp (st : St) : CacheOp → Option St
  | .get b => (cacheGet st b).map Prod.snd
  | .new b parent => (newNode st b parent).map Prod.snd
  | .flush => flushAll st

def runCacheOps (st : St) (ops : List CacheOp) : Option St :=
  ops.foldlM runCacheOp st

/-! ### The merged view and the consistency invariant (for C6/C7) -/

/-- The logical content of block `b`: the resident cached page if there
is one (dirty flag normalized away), else the decoded on-disk block. -/
def view (st : St) (b : Nat) : Option Node :=
  (lookupCache st.cache b).elim ((st.file.get? b).map readNode)
    (fun nd => some { nd with dirty := false })

/-- Block index and field sanity for a node stored under block `b`. -/
def goodNode (b next : Nat) (nd : Node) : Prop :=
  nd.block_id = b ∧ 1 ≤ b ∧ b < next ∧ nd.wf64

instance (b next : Nat) (nd : Node) : Decidable (goodNode b next nd) := by
  unfold goodNode; infer_instance

/-- The on-disk block `b` holds a full block that decodes to the clean
image of `nd`. -/
def fileDecodes (st : St) (b : Nat) (nd : Node) : Prop :=
  match st.file.get? b with
  | none => False
  | some data => data.length = BLOCK_SIZE ∧ readNode data = { nd with dirty := false }

instance (st : St) (b : Nat) (nd : Node) : Decidable (fileDecodes st b nd) :=
  match h : st.file.get? b with
  | none => isFalse (by unfold fileDecodes; rw [h]; exact id)
  | some data =>
    decidable_of_iff
      (data.length = BLOCK_SIZE ∧ readNode data = { nd with dirty := false })
      (by unfold fileDecodes; rw [h])

/-- The on-disk block `b` holds a full block decoding to a sane node. -/
def fileNodeOK (st : St) (b : Nat) : Prop :=
  match st.file.get? b with
  | none => False
  | some data => data.length = BLOCK_SIZE ∧ goodNode b st.next (readNode data)

instance (st : St) (b : Nat) : Decidable (fileNodeOK st b) :=
  match h : st.file.get? b with
  | none => isFalse (by unfold fileNodeOK; rw [h]; exact id)
  | some data =>
    decidable_of_iff
      (data.length = BLOCK_SIZE ∧ goodNode b st.next (readNode data))
      (by unfold fileNodeOK; rw [h])

/-- Consistency of a `BTree` state: sane header fields, cache keyed by
stored block ids with no duplicates, LRU order in sync with residency,
clean pages matching the disk, every allocated uncached block present
and sane on disk, and the file no longer than the allocation horizon. -/
def Inv (st : St) : Prop :=
  1 ≤ st.next ∧ st.root < 2 ^ 64 ∧ st.next < 2 ^ 64 ∧
  (st.root = 0 ∨ (1 ≤ st.root ∧ st.root < st.next)) ∧
  (st.cache.map Prod.fst).Nodup ∧
  st.order.Nodup ∧
  (∀ b ∈ st.order, b ∈ st.cache.map Prod.fst) ∧
  (∀ b ∈ st.cache.map Prod.fst, b ∈ st.order) ∧
  (∀ e ∈ st.cache,
    goodNode e.1 st.next e.2 ∧ (e.2.dirty = false → fileDecodes st e.1 e.2)) ∧
  (∀ b, b < st.next → 1 ≤ b → lookupCache st.cache b = none → fileNodeOK st b) ∧
  st.file.length ≤ st.next

instance (st : St) : Decidable (Inv st) := by
  unfold Inv
  infer_instance

/-- A cache-layer step that keeps the state consistent and does not
change the logical tree: header fields intact, every nonzero block's
merged view unchanged, and no cache entries invented. -/
def StepOK (st st' : St) : Prop :=
  Inv st' ∧ st'.root = st.root ∧ st'.next = st.next ∧
  (∀ b, 1 ≤ b → view st' b = view st b)

/-- `_search_node` as a pure function of the merged view (`none` is an
uncaught error or exhausted fuel). -/
def pureSearch : Nat → (Nat → Option Node) → Nat → Nat → Option (Option Nat)
  | 0, _, _, _ => none
  | f + 1, vw, b, k =>
    (vw b).bind fun nd =>
    let i := lscan nd k
    if i < nd.num_keys ∧ k = nd.keys.getD i 0 then some (some (nd.values.getD i 0))
    else if nd.isLeaf then some none
    else if nd.children.getD i 0 = 0 then some none
    else pureSearch f vw (nd.children.getD i 0) k

/-- The loop of `_traverse_node` as a pure function of the view. -/
def pureTravKids (recur : Nat → Option (List (Nat × Nat))) (nd : Node) :
    Nat → Nat → Option (List (Nat × Nat))
  | 0, i =>
    if nd.children.getD i 0 ≠ 0 then recur (nd.children.getD i 0) else some []
  | c + 1, i =>
    (if nd.children.getD i 0 ≠ 0 then recur (nd.children.getD i 0)
     else some []).bind fun out1 =>
    (pureTravKids recur nd c (i + 1)).map fun out2 =>
      out1 ++ (nd.keys.getD i 0, nd.values.getD i 0) :: out2

/-- `_traverse_node` as a pure function of the merged view. -/
def pureTrav : Nat → (Nat → Option Node) → Nat → Option (List (Nat × Nat))
  | 0, _, _ => none
  | f + 1, vw, b =>
    (vw b).bind fun nd => pureTravKids (pureTrav f vw) nd nd.num_keys 0

/-- The structurally meaningful child slots of a node: indices
`0..num_keys` of its children array, exactly the slots the source's
descent, split and traversal loops read. -/
def childSlots (nd : Node) : List Nat :=
  (List.range (nd.num_keys + 1)).map fun i => nd.children.getD i 0

/-- Block `c` is reachable from the root via child pointers of the
merged view. -/
inductive Reach (vw : Nat → Option Node) (root : Nat) : Nat → Prop
  | base : root ≠ 0 → Reach vw root root
  | step (b c : Nat) (nd : Node) : Reach vw root b → vw b = some nd →
      c ∈ childSlots nd → c ≠ 0 → Reach vw root c

/-- Structural soundness of a node as built by the program: either all
of its child pointers are zero (a leaf) or every slot up to `num_keys`
is a live pointer (an internal node). -/
def properNode (nd : Node) : Prop :=
  (∀ x ∈ nd.children, x = 0) ∨ (∀ i, i ≤ nd.num_keys → nd.children.getD i 0 ≠ 0)

/-- Allocation tightness: every allocated block (index in `[1, next)`)
is reachable from the root; every child-pointer entry of a viewed node
stays below the allocation frontier; every viewed node is proper; and
the pointer graph is levelled by a depth function rooted at the root.
Together with `Inv` this pins `next_block` to one plus the maximum
reachable block index. -/
def RInv (st : St) : Prop :=
  (∀ b, 1 ≤ b → b < st.next → Reach (view st) st.root b)
  ∧ (∀ b nd, 1 ≤ b → view st b = some nd → ∀ x ∈ nd.children, x < st.next)
  ∧ (∀ b nd, 1 ≤ b → view st b = some nd → properNode nd)
  ∧ (∀ b nd, 1 ≤ b → view st b = some nd → nd.num_keys ≤ MAX_KEYS)
  ∧ ∃ depth : Nat → Nat, depth st.root = 0
      ∧ ∀ b nd, 1 ≤ b → view st b = some nd →
          ∀ c, c ∈ childSlots nd → c ≠ 0 → depth c = depth b + 1

/-! ### Concrete scenarios referenced by the theorems -/

/-- Keys 1..20 with value `100 * key`, in ascending order (scenario S4). -/
def ins20 : List (Nat × Nat) := (List.range 20).map fun i => (i + 1, 100 * (i + 1))

/-- What `traverse` actually emits after the twenty inserts of `ins20`:
key 10 is gone and a spurious `(0, 0)` pair appears out of order. -/
def travOut20 : List (Nat × Nat) :=
  [(1, 100), (2, 200), (3, 300), (4, 400), (5, 500), (6, 600), (7, 700), (8, 800),
   (9, 900), (0, 0), (11, 1100), (12, 1200), (13, 1300), (14, 1400), (15, 1500),
   (16, 1600), (17, 1700), (18, 1800), (19, 1900), (20, 2000)]

/-- Keys 1..30 with value `100 * key`: the 30th insert splits a full
leaf below the root and leaves four pages resident. -/
def ins30 : List (Nat × Nat) := (List.range 30).map fun i => (i + 1, 100 * (i + 1))

/-- A parent with no keys and one child, as `insert` builds just before
the root split. -/
def c4Parent : Node :=
  { block_id := 2, parent_id := 0, num_keys := 0,
    keys := List.replicate MAX_KEYS 0, values := List.replicate MAX_KEYS 0,
    children := (List.replicate MAX_CHILDREN 0).set 0 1, dirty := true }

/-- A full leaf child: 19 keys `1..19` with values `100 * key`. -/
def c4Child : Node :=
  { block_id := 1, parent_id := 2, num_keys := MAX_KEYS,
    keys := (List.range MAX_KEYS).map (· + 1),
    values := (List.range MAX_KEYS).map fun i => 100 * (i + 1),
    children := List.replicate MAX_CHILDREN 0, dirty := true }

/-- State holding `c4Parent` and `c4Child`, ready for `split_child`. -/
def c4St : St :=
  { file := [headerBytes 0 1], cache := [(2, c4Parent), (1, c4Child)],
    order := [2, 1], root := 2, next := 3 }

/-- The state reached by a single `new_node` on a fresh cache
(used to instantiate the C3 capacity bound). -/
def c3WitnessSt : St :=
  { file := [headerBytes 0 1], cache := [(1, Node.fresh 1 0)], order := [1],
    root := 0, next := 1 }

/-- A structurally invalid node: it is internal (`children[0] ≠ 0`) but
the child slot selected when descending for key 9 is zero. -/
def c10Node : Node :=
  { block_id := 3, parent_id := 0, num_keys := 1,
    keys := pad19 [5], values := pad19 [500],
    children := (List.replicate MAX_CHILDREN 0).set 0 4, dirty := false }

/-- A state whose cache holds only `c10Node` at block 3. -/
def c10St : St :=
  { file := [headerBytes 3 5], cache := [(3, c10Node)], order := [3],
    root := 3, next := 5 }

/-- The state a search-miss leaves behind on a one-pair tree (only the
LRU order is touched). -/
def c8MissSt : St := touch (leafState [(5, 50)]) 1

/-- The one-pair tree used to exercise the close/reopen round trip. -/
def c7St : St := leafState [(5, 50)]

/-- Its state after `close` (which succeeds on this input). -/
def c7Closed : St :=
  match close c7St with
  | some s => s
  | none => c7St

/-- The tree reopened from the closed file. -/
def c7Reopened : St :=
  match reopen c7Closed.file with
  | some s => s
  | none => c7St

/-- The root leaf produced by the first ever insert `(k, v)` on a fresh
index (as built by `insert`'s `root == 0` branch). -/
def firstInsertNode (k v : Nat) : Node :=
  { block_id := 1, parent_id := 0, num_keys := 1,
    keys := (List.replicate MAX_KEYS 0).set 0 k,
    values := (List.replicate MAX_KEYS 0).set 0 v,
    children := List.replicate MAX_CHILDREN 0, dirty := true }

/-- The whole state after the first ever insert `(k, v)` on an index
whose backing file is `F`: block 1 is allocated for the root leaf. -/
def firstInsertSt (F : List (List Nat)) (k v : Nat) : St :=
  { file := F, cache := [(1, firstInsertNode k v)], order := [1],
    root := 1, next := 2 }

/-- The page `insert`'s root-split branch prepares for the new root: a
fresh node (block `newId`) whose child slot 0 names the old root. -/
def newRootNode (newId oldRootBid : Nat) : Node :=
  { Node.fresh newId 0 with
    num_keys := 0
    children := (Node.fresh newId 0).children.set 0 oldRootBid }

/-- The old root as rewritten by `insert`'s root-split branch: the same
page, reparented under the new root. -/
def rehungRoot (rootC : Node) (newId : Nat) : Node :=
  { rootC with parent_id := newId, dirty := true }

/-! ## Theorems -/

/-! ### Cache capacity (C3) -/

theorem flushGo_cache_length (l : List (Nat × Node)) :
    ∀ st st', flushGo l st = some st' → st'.cache.length = st.cache.length := by
  induction l with
  | nil => intro st st' h; cases h; rfl
  | cons e t ih =>
    intro st st' h
    obtain ⟨b, nd⟩ := e
    unfold flushGo at h
    by_cases hd : nd.dirty
    · rw [if_pos hd] at h
      cases hw : nodeWrite st.file nd with
      | none => rw [hw] at h; simp at h
      | some fl =>
        rw [hw] at h
        simp only [Option.some_bind] at h
        have := ih _ _ h
        simpa [replaceCache] using this
    · rw [if_neg hd] at h; exact ih _ _ h

theorem evictGo_length_le (f : Nat) :
    ∀ st st', evictGo f st = some st' → st'.cache.length ≤ 3 := by
  induction f with
  | zero =>
    intro st st' h
    unfold evictGo at h
    split at h
    · simp at h
    · cases h; omega
  | succ f ih =>
    intro st st' h
    unfold evictGo at h
    split at h
    · rw [Option.bind_eq_some] at h
      obtain ⟨v, _, h⟩ := h
      rw [Option.bind_eq_some] at h
      obtain ⟨nd, _, h⟩ := h
      split at h
      · rw [Option.bind_eq_some] at h
        obtain ⟨fl, _, h⟩ := h
        exact ih _ _ h
      · exact ih _ _ h
    · cases h; omega

theorem cacheGet_length_le (st : St) (b : Nat) (nd : Node) (st' : St)
    (h : cacheGet st b = some (nd, st')) (h0 : st.cache.length ≤ 4) :
    st'.cache.length ≤ 4 := by
  unfold cacheGet at h
  split at h
  · cases h
    simpa [touch] using h0
  · rw [Option.bind_eq_some] at h
    obtain ⟨st1, h1, h⟩ := h
    have hlen : st1.cache.length ≤ 3 := by
      by_cases hc : 3 ≤ st.cache.length
      · rw [if_pos hc] at h1
        exact evictGo_length_le _ _ _ h1
      · rw [if_neg hc] at h1
        cases h1; omega
    rw [Option.bind_eq_some] at h
    obtain ⟨data, hdata, h⟩ := h
    split at h
    · simp only at h
      cases h
      simp only [touch, List.length_append, List.length_singleton]
      omega
    · simp at h

theorem newNode_length_le (st : St) (b p : Nat) (nd : Node) (st' : St)
    (h : newNode st b p = some (nd, st')) :
    st'.cache.length ≤ 4 := by
  unfold newNode at h
  rw [Option.map_eq_some'] at h
  obtain ⟨st1, h1, h⟩ := h
  have hlen : st1.cache.length ≤ 3 := by
    by_cases hc : 3 ≤ st.cache.length
    · rw [if_pos hc] at h1
      exact evictGo_length_le _ _ _ h1
    · rw [if_neg hc] at h1
      cases h1; omega
  cases h
  simp only [touch, List.length_append, List.length_singleton]
  omega

theorem runCacheOp_length_le (st : St) (op : CacheOp) (st' : St)
    (h : runCacheOp st op = some st') (h0 : st.cache.length ≤ 4) :
    st'.cache.length ≤ 4 := by
  cases op with
  | get b =>
    simp only [runCacheOp, Option.map_eq_some'] at h
    obtain ⟨pr, hg, h⟩ := h
    cases h
    exact cacheGet_length_le st b pr.1 pr.2 (by rw [hg]) h0
  | new b p =>
    simp only [runCacheOp, Option.map_eq_some'] at h
    obtain ⟨pr, hg, h⟩ := h
    cases h
    exact newNode_length_le st b p pr.1 pr.2 (by rw [hg])
  | flush =>
    simp only [runCacheOp, flushAll] at h
    rw [flushGo_cache_length st.cache st st' h]
    exact h0

/-- Claim C2 (code bug): after inserting the twenty distinct keys 1..20,
`traverse` does NOT visit the inserted pairs in ascending key order and
does not visit exactly the inserted pairs: it emits the spurious pair
`(0, 0)` between keys 9 and 11 and never visits the stored pair
`(10, 1000)` — `split_child` zeroes the promoted key before copying it
into the parent, so the pair at the split point is destroyed. -/
theorem C2_traverse_wrong_after_split :
    ((stateAfter ins20).bind fun st => (traverse 5 st).map Prod.fst) = some travOut20
    ∧ strictlyAscending (travOut20.map Prod.fst) = false
    ∧ strictlyAscending (ins20.map Prod.fst) = true
    ∧ (10, 1000) ∈ ins20 ∧ (10, 1000) ∉ travOut20
    ∧ (0, 0) ∈ travOut20 ∧ (0, 0) ∉ ins20 := by decide

/-- Claim C4 (code bug): splitting a full child (19 keys 1..19, values
`100 * key`) does move keys 11..19 into the sibling (9 keys), leaves the
old child with 9 keys, links the sibling at `parent.children[i+1]` and
bumps the parent's key count — but the pair promoted into the parent at
position `i` is `(0, 0)`, not `(keys[9], values[9]) = (10, 1000)`:
lines 253-256 zero `old_child.keys[mid]` before line 267 reads it. -/
theorem C4_split_promotes_zero :
    c4Child.keys.getD (T - 1) 0 = 10 ∧ c4Child.values.getD (T - 1) 0 = 1000
    ∧ ((splitChild c4St 2 0).bind fun st => (peek st 2).map fun nd =>
        (nd.num_keys, nd.keys.getD 0 0, nd.values.getD 0 0, nd.children.getD 1 0))
      = some (1, 0, 0, 3)
    ∧ ((splitChild c4St 2 0).bind fun st => (peek st 1).map Node.num_keys) = some 9
    ∧ ((splitChild c4St 2 0).bind fun st => (peek st 3).map fun nd =>
        (nd.num_keys, nd.keys.getD 0 0)) = some (9, 11) := by decide

/-- Claim C5 (code bug): inserting keys 1..20 in order does trigger
exactly one root split (blocks 2 and 3 are the only new allocations and
the root becomes block 2 with a single key), but the root's only key is
0 — not the promoted 10, which is lost — and the two children hold 9 and
10 keys, not 9 and 9 (the 20th key lands in the right child). -/
theorem C5_twentieth_insert_root :
    ((stateAfter ins20).bind fun st => (peek st st.root).map fun nd =>
        (st.root, st.next, nd.num_keys, nd.keys.getD 0 0,
         nd.children.getD 0 0, nd.children.getD 1 0))
      = some (2, 4, 1, 0, 1, 3)
    ∧ ((stateAfter ins20).bind fun st => (peek st 1).map Node.num_keys) = some 9
    ∧ ((stateAfter ins20).bind fun st => (peek st 3).map Node.num_keys) = some 10 := by
  decide

/-! ### Codec lemmas: `Node.to_bytes` / `Node.read` round-trip -/

theorem beBytes_length (k x : Nat) : (beBytes k x).length = k := by
  induction k generalizing x with
  | zero => rfl
  | succ k ih => simp [beBytes, ih]

theorem fromBE_append_one (l : List Nat) (a : Nat) :
    fromBE (l ++ [a]) = fromBE l * 256 + a := by
  simp [fromBE, List.foldl_append]

theorem fromBE_beBytes (k : Nat) : ∀ x, x < 256 ^ k → fromBE (beBytes k x) = x := by
  induction k with
  | zero =>
    intro x hx
    interval_cases x
    rfl
  | succ k ih =>
    intro x hx
    rw [beBytes, fromBE_append_one, ih (x / 256) (by
      rw [Nat.div_lt_iff_lt_mul (by omega : 0 < 256)]
      calc x < 256 ^ (k + 1) := hx
        _ = 256 ^ k * 256 := by ring)]
    omega

theorem drop_append_off (l m : List Nat) (i : Nat) :
    (l ++ m).drop (l.length + i) = m.drop i := by
  induction l with
  | nil => simp
  | cons c t ih =>
    have : (c :: t).length + i = (t.length + i) + 1 := by
      simp [List.length_cons]; omega
    rw [List.cons_append, this, List.drop_succ_cons, ih]

theorem take8_beBytes (x : Nat) (rest : List Nat) :
    (beBytes 8 x ++ rest).take 8 = beBytes 8 x := by
  have h := List.take_left (beBytes 8 x) rest
  rwa [beBytes_length] at h

theorem readU64_head (x : Nat) (rest : List Nat) (hx : x < 2 ^ 64) :
    readU64 (beBytes 8 x ++ rest) 0 = x := by
  unfold readU64
  rw [List.drop_zero, take8_beBytes]
  exact fromBE_beBytes 8 x (by norm_num at hx ⊢; omega)

theorem readU64_skip8 (x : Nat) (rest : List Nat) (j : Nat) :
    readU64 (beBytes 8 x ++ rest) (8 + j) = readU64 rest j := by
  unfold readU64
  have h8 : (8 : Nat) + j = (beBytes 8 x).length + j := by rw [beBytes_length]
  rw [h8, drop_append_off]

theorem flattenMap_length (l : List Nat) :
    ((l.map (beBytes 8)).flatten).length = 8 * l.length := by
  induction l with
  | nil => rfl
  | cons x t ih =>
    simp only [List.map_cons, List.flatten_cons, List.length_append, ih,
      beBytes_length, List.length_cons]
    ring

theorem readU64_flat (l : List Nat) (hb : ∀ x ∈ l, x < 2 ^ 64) (rest : List Nat) :
    ∀ i, i < l.length →
      readU64 ((l.map (beBytes 8)).flatten ++ rest) (8 * i) = l.getD i 0 := by
  induction l generalizing rest with
  | nil => intro i hi; exact absurd hi (by simp)
  | cons x t ih =>
    intro i hi
    rw [List.map_cons, List.flatten_cons, List.append_assoc]
    cases i with
    | zero =>
      rw [Nat.mul_zero, readU64_head x _ (hb x (by simp))]
      rfl
    | succ i =>
      have : 8 * (i + 1) = 8 + 8 * i := by ring
      rw [this, readU64_skip8]
      have := ih (fun y hy => hb y (List.mem_cons_of_mem x hy)) rest i
        (by simp at hi; omega)
      rw [this]
      rfl

theorem readU64_skipFlat (l : List Nat) (rest : List Nat) (j : Nat) :
    readU64 ((l.map (beBytes 8)).flatten ++ rest) (8 * l.length + j)
      = readU64 rest j := by
  unfold readU64
  have h : 8 * l.length + j = ((l.map (beBytes 8)).flatten).length + j := by
    rw [flattenMap_length]
  rw [h, drop_append_off]

theorem getD_range_map (l : List Nat) :
    (List.range l.length).map (fun i => l.getD i 0) = l := by
  induction l with
  | nil => rfl
  | cons x t ih =>
    rw [List.length_cons, List.range_succ_eq_map, List.map_cons, List.map_map]
    have h1 : ((fun i => (x :: t).getD i 0) ∘ Nat.succ) = fun i => t.getD i 0 := by
      funext i
      rfl
    rw [h1, ih]
    rfl

theorem nodeBytes_length (nd : Node) (h : nd.wf64) :
    (nodeBytes nd).length = BLOCK_SIZE := by
  obtain ⟨_, _, _, hk, hv, hc, _, _, _⟩ := h
  unfold nodeBytes
  rw [List.length_append, List.length_append, List.length_append, List.length_append,
    List.length_append, List.length_append, beBytes_length, beBytes_length,
    beBytes_length, flattenMap_length, flattenMap_length, flattenMap_length,
    List.length_replicate, hk, hv, hc,
    show MAX_KEYS = 19 from rfl, show MAX_CHILDREN = 20 from rfl,
    show BLOCK_SIZE = 512 from rfl]

theorem readNode_nodeBytes (nd : Node) (h : nd.wf64) :
    readNode (nodeBytes nd) = { nd with dirty := false } := by
  obtain ⟨hb, hp, hn, hk, hv, hc, hkb, hvb, hcb⟩ := h
  have skip3 : ∀ j, readU64 (nodeBytes nd) (8 + (8 + (8 + j)))
      = readU64 ((nd.keys.map (beBytes 8)).flatten ++
          ((nd.values.map (beBytes 8)).flatten ++
            ((nd.children.map (beBytes 8)).flatten ++
              List.replicate (BLOCK_SIZE - 24 - 24 * MAX_KEYS - 8) 0))) j := by
    intro j
    unfold nodeBytes
    simp only [List.append_assoc]
    rw [readU64_skip8, readU64_skip8, readU64_skip8]
  have hkeys : ∀ i, i < MAX_KEYS →
      readU64 (nodeBytes nd) (24 + 8 * i) = nd.keys.getD i 0 := by
    intro i hi
    have h24 : 24 + 8 * i = 8 + (8 + (8 + 8 * i)) := by omega
    rw [h24, skip3, readU64_flat nd.keys hkb _ i (by omega)]
  have hvalues : ∀ i, i < MAX_KEYS →
      readU64 (nodeBytes nd) (24 + 8 * MAX_KEYS + 8 * i) = nd.values.getD i 0 := by
    intro i hi
    have h24 : 24 + 8 * MAX_KEYS + 8 * i = 8 + (8 + (8 + (8 * nd.keys.length + 8 * i))) := by
      rw [hk]; omega
    rw [h24, skip3, readU64_skipFlat, readU64_flat nd.values hvb _ i (by omega)]
  have hchildren : ∀ i, i < MAX_CHILDREN →
      readU64 (nodeBytes nd) (24 + 16 * MAX_KEYS + 8 * i) = nd.children.getD i 0 := by
    intro i hi
    have h24 : 24 + 16 * MAX_KEYS + 8 * i
        = 8 + (8 + (8 + (8 * nd.keys.length + (8 * nd.values.length + 8 * i)))) := by
      rw [hk, hv]; omega
    rw [h24, skip3, readU64_skipFlat, readU64_skipFlat,
      readU64_flat nd.children hcb _ i (by omega)]
  have hid : readU64 (nodeBytes nd) 0 = nd.block_id := by
    unfold nodeBytes
    simp only [List.append_assoc]
    exact readU64_head _ _ hb
  have hpar : readU64 (nodeBytes nd) 8 = nd.parent_id := by
    unfold nodeBytes
    simp only [List.append_assoc]
    rw [show (8 : Nat) = 8 + 0 from rfl, readU64_skip8]
    exact readU64_head _ _ hp
  have hnum : readU64 (nodeBytes nd) 16 = nd.num_keys := by
    unfold nodeBytes
    simp only [List.append_assoc]
    rw [show (16 : Nat) = 8 + (8 + 0) from rfl, readU64_skip8, readU64_skip8]
    exact readU64_head _ _ hn
  unfold readNode
  rw [hid, hpar, hnum]
  have hkl : (List.range MAX_KEYS).map (fun i => readU64 (nodeBytes nd) (24 + 8 * i))
      = nd.keys := by
    have : ∀ i ∈ List.range MAX_KEYS,
        readU64 (nodeBytes nd) (24 + 8 * i) = nd.keys.getD i 0 := by
      intro i hi
      rw [List.mem_range] at hi
      exact hkeys i hi
    rw [List.map_congr_left this, ← hk, getD_range_map]
  have hvl : (List.range MAX_KEYS).map
        (fun i => readU64 (nodeBytes nd) (24 + 8 * MAX_KEYS + 8 * i))
      = nd.values := by
    have : ∀ i ∈ List.range MAX_KEYS,
        readU64 (nodeBytes nd) (24 + 8 * MAX_KEYS + 8 * i) = nd.values.getD i 0 := by
      intro i hi
      rw [List.mem_range] at hi
      exact hvalues i hi
    rw [List.map_congr_left this, ← hv, getD_range_map]
  have hcl : (List.range MAX_CHILDREN).map
        (fun i => readU64 (nodeBytes nd) (24 + 16 * MAX_KEYS + 8 * i))
      = nd.children := by
    have : ∀ i ∈ List.range MAX_CHILDREN,
        readU64 (nodeBytes nd) (24 + 16 * MAX_KEYS + 8 * i) = nd.children.getD i 0 := by
      intro i hi
      rw [List.mem_range] at hi
      exact hchildren i hi
    rw [List.map_congr_left this, ← hc, getD_range_map]
  rw [hkl, hvl, hcl]

/-- The complete round-trip: encoding a well-formed node and decoding
the block yields the same node, marked clean. -/
theorem toBytes_readNode (nd : Node) (h : nd.wf64) :
    nd.toBytes = some (nodeBytes nd)
    ∧ (nodeBytes nd).length = BLOCK_SIZE
    ∧ readNode (nodeBytes nd) = { nd with dirty := false } :=
  ⟨by unfold Node.toBytes; rw [if_pos h], nodeBytes_length nd h, readNode_nodeBytes nd h⟩

/-! ### Cache and file primitive lemmas -/

theorem node_strip_of_clean (nd : Node) (h : nd.dirty = false) :
    { nd with dirty := false } = nd := by
  cases nd
  simp only at h
  simp [h]

theorem wf64_strip (nd : Node) : ({ nd with dirty := false } : Node).wf64 ↔ nd.wf64 := by
  cases nd
  exact Iff.rfl

theorem find?_cons_pos {α : Type} (p : α → Bool) (a : α) (l : List α)
    (h : p a = true) : (a :: l).find? p = some a :=
  List.find?_cons_of_pos l h

theorem find?_cons_neg {α : Type} (p : α → Bool) (a : α) (l : List α)
    (h : p a = false) : (a :: l).find? p = l.find? p :=
  List.find?_cons_of_neg l (by rw [h]; exact Bool.false_ne_true)

theorem lookupCache_eq_none (c : List (Nat × Node)) (b : Nat) :
    lookupCache c b = none ↔ b ∉ c.map Prod.fst := by
  unfold lookupCache
  rw [Option.map_eq_none', List.find?_eq_none]
  constructor
  · intro h hb
    rw [List.mem_map] at hb
    obtain ⟨e, he, hfst⟩ := hb
    have h2 := h e he
    rw [beq_iff_eq] at h2
    exact h2 hfst
  · intro h e he hbeq
    rw [beq_iff_eq] at hbeq
    exact h (List.mem_map.mpr ⟨e, he, hbeq⟩)

theorem lookupCache_mem (c : List (Nat × Node)) (b : Nat) (nd : Node)
    (h : lookupCache c b = some nd) : (b, nd) ∈ c := by
  unfold lookupCache at h
  rw [Option.map_eq_some'] at h
  obtain ⟨e, he, hsnd⟩ := h
  have h1 := List.find?_some he
  have h2 := List.mem_of_find?_eq_some he
  rw [beq_iff_eq] at h1
  have : e = (b, nd) := by
    obtain ⟨e1, e2⟩ := e
    simp only at h1 hsnd
    rw [h1, hsnd]
  rwa [this] at h2

theorem mem_eraseCache (c : List (Nat × Node)) (v : Nat) (e : Nat × Node) :
    e ∈ eraseCache c v ↔ e ∈ c ∧ e.1 ≠ v := by
  unfold eraseCache
  rw [List.mem_filter]
  simp

theorem lookupCache_erase_ne (c : List (Nat × Node)) (v b : Nat) (h : b ≠ v) :
    lookupCache (eraseCache c v) b = lookupCache c b := by
  induction c with
  | nil => rfl
  | cons e t ih =>
    unfold eraseCache at ih ⊢
    unfold lookupCache at ih ⊢
    by_cases he : e.1 = v
    · rw [List.filter_cons_of_neg (by simpa using he)]
      rw [find?_cons_neg _ e t (by rw [beq_eq_false_iff_ne]; omega)]
      exact ih
    · rw [List.filter_cons_of_pos (by simpa using he)]
      by_cases hb : e.1 = b
      · rw [find?_cons_pos (fun x => x.1 == b) e _ (by simpa using hb),
          find?_cons_pos (fun x => x.1 == b) e t (by simpa using hb)]
      · rw [find?_cons_neg (fun x => x.1 == b) e _ (by rw [beq_eq_false_iff_ne]; exact hb),
          find?_cons_neg (fun x => x.1 == b) e t (by rw [beq_eq_false_iff_ne]; exact hb)]
        exact ih

theorem mapfst_eraseCache (c : List (Nat × Node)) (v b : Nat) :
    b ∈ (eraseCache c v).map Prod.fst ↔ b ∈ c.map Prod.fst ∧ b ≠ v := by
  constructor
  · intro h
    rw [List.mem_map] at h
    obtain ⟨e, he, hfst⟩ := h
    rw [mem_eraseCache] at he
    exact ⟨List.mem_map.mpr ⟨e, he.1, hfst⟩, by rw [← hfst]; exact he.2⟩
  · intro ⟨h, hne⟩
    rw [List.mem_map] at h
    obtain ⟨e, he, hfst⟩ := h
    exact List.mem_map.mpr ⟨e, (mem_eraseCache c v e).mpr ⟨he, by rw [hfst]; exact hne⟩, hfst⟩

theorem eraseCache_sublist (c : List (Nat × Node)) (v : Nat) :
    (eraseCache c v).Sublist c := List.filter_sublist c

theorem lookupCache_append_ne (c : List (Nat × Node)) (b : Nat) (nd : Node)
    (b' : Nat) (h : b' ≠ b) :
    lookupCache (c ++ [(b, nd)]) b' = lookupCache c b' := by
  induction c with
  | nil =>
    unfold lookupCache
    rw [List.nil_append,
      find?_cons_neg (fun x => x.1 == b') (b, nd) []
        (by rw [beq_eq_false_iff_ne]; simpa using Ne.symm h)]
  | cons e t ih =>
    unfold lookupCache at ih ⊢
    by_cases hb : e.1 = b'
    · rw [List.cons_append, find?_cons_pos (fun x => x.1 == b') e _ (by simpa using hb),
        find?_cons_pos (fun x => x.1 == b') e t (by simpa using hb)]
    · rw [List.cons_append,
        find?_cons_neg (fun x => x.1 == b') e _ (by rw [beq_eq_false_iff_ne]; exact hb),
        find?_cons_neg (fun x => x.1 == b') e t (by rw [beq_eq_false_iff_ne]; exact hb)]
      exact ih

theorem lookupCache_append_self (c : List (Nat × Node)) (b : Nat) (nd : Node)
    (h : lookupCache c b = none) :
    lookupCache (c ++ [(b, nd)]) b = some nd := by
  induction c with
  | nil =>
    unfold lookupCache
    rw [List.nil_append, find?_cons_pos (fun x => x.1 == b) (b, nd) [] (by simp)]
    rfl
  | cons e t ih =>
    unfold lookupCache at h ih ⊢
    by_cases hb : e.1 = b
    · rw [find?_cons_pos (fun x => x.1 == b) e t (by simpa using hb)] at h
      simp at h
    · rw [find?_cons_neg (fun x => x.1 == b) e t
        (by rw [beq_eq_false_iff_ne]; exact hb)] at h
      rw [List.cons_append,
        find?_cons_neg (fun x => x.1 == b) e _ (by rw [beq_eq_false_iff_ne]; exact hb)]
      exact ih h

theorem lookupCache_replace_self (c : List (Nat × Node)) (b : Nat) (nd nd' : Node)
    (h : lookupCache c b = some nd') :
    lookupCache (replaceCache c b nd) b = some nd := by
  induction c with
  | nil => simp [lookupCache] at h
  | cons e t ih =>
    unfold lookupCache at h ih
    unfold lookupCache replaceCache
    by_cases hb : e.1 = b
    · rw [List.map_cons, if_pos hb, find?_cons_pos (fun x => x.1 == b) (b, nd) _ (by simp)]
      rfl
    · rw [find?_cons_neg (fun x => x.1 == b) e t
        (by rw [beq_eq_false_iff_ne]; exact hb)] at h
      rw [List.map_cons, if_neg hb,
        find?_cons_neg (fun x => x.1 == b) e _ (by rw [beq_eq_false_iff_ne]; exact hb)]
      exact ih h

theorem lookupCache_replace_ne (c : List (Nat × Node)) (b : Nat) (nd : Node)
    (b' : Nat) (h : b' ≠ b) :
    lookupCache (replaceCache c b nd) b' = lookupCache c b' := by
  induction c with
  | nil => rfl
  | cons e t ih =>
    unfold lookupCache at ih
    unfold lookupCache replaceCache
    by_cases hb : e.1 = b
    · rw [List.map_cons, if_pos hb,
        find?_cons_neg (fun x => x.1 == b') (b, nd) _
          (by rw [beq_eq_false_iff_ne]; simpa using Ne.symm h),
        find?_cons_neg (fun x => x.1 == b') e t
          (by rw [beq_eq_false_iff_ne]; rw [hb]; simpa using Ne.symm h)]
      exact ih
    · rw [List.map_cons, if_neg hb]
      by_cases hb' : e.1 = b'
      · rw [find?_cons_pos (fun x => x.1 == b') e _ (by simpa using hb'),
          find?_cons_pos (fun x => x.1 == b') e t (by simpa using hb')]
      · rw [find?_cons_neg (fun x => x.1 == b') e _
            (by rw [beq_eq_false_iff_ne]; exact hb'),
          find?_cons_neg (fun x => x.1 == b') e t
            (by rw [beq_eq_false_iff_ne]; exact hb')]
        exact ih

theorem mem_replaceCache (c : List (Nat × Node)) (b : Nat) (nd : Node) (e : Nat × Node)
    (h : e ∈ replaceCache c b nd) : e = (b, nd) ∨ (e ∈ c ∧ e.1 ≠ b) := by
  unfold replaceCache at h
  rw [List.mem_map] at h
  obtain ⟨e0, he0, heq⟩ := h
  by_cases hb : e0.1 = b
  · rw [if_pos hb] at heq
    exact Or.inl heq.symm
  · rw [if_neg hb] at heq
    rw [← heq]
    exact Or.inr ⟨he0, hb⟩

theorem mapfst_replaceCache (c : List (Nat × Node)) (b : Nat) (nd : Node) :
    (replaceCache c b nd).map Prod.fst = c.map Prod.fst := by
  unfold replaceCache
  rw [List.map_map]
  apply List.map_congr_left
  intro e _
  by_cases hb : e.1 = b
  · simp [hb]
  · simp [hb]

theorem mapfst_append_one (c : List (Nat × Node)) (b : Nat) (nd : Node) :
    (c ++ [(b, nd)]).map Prod.fst = c.map Prod.fst ++ [b] := by
  simp

theorem get?_append_off {α : Type} (l m : List α) (i : Nat) :
    (l ++ m).get? (l.length + i) = m.get? i := by
  induction l with
  | nil => simp
  | cons c t ih =>
    have : (c :: t).length + i = (t.length + i) + 1 := by
      simp [List.length_cons]; omega
    rw [List.cons_append, this]
    exact ih

theorem get?_set_self {α : Type} (l : List α) (i : Nat) (a : α) (h : i < l.length) :
    (l.set i a).get? i = some a := by
  induction l generalizing i with
  | nil => simp at h
  | cons c t ih =>
    cases i with
    | zero => rfl
    | succ i =>
      rw [List.set_cons_succ]
      exact ih i (by simpa using h)

theorem get?_set_ne {α : Type} (l : List α) (i : Nat) (a : α) (j : Nat) (h : j ≠ i) :
    (l.set i a).get? j = l.get? j := by
  induction l generalizing i j with
  | nil => rfl
  | cons c t ih =>
    cases i with
    | zero =>
      cases j with
      | zero => omega
      | succ j => rfl
    | succ i =>
      cases j with
      | zero => rfl
      | succ j =>
        rw [List.set_cons_succ]
        exact ih i j (by omega)

theorem writeBlock_length (f : List (List Nat)) (b : Nat) (d : List Nat) :
    (writeBlock f b d).length = max f.length (b + 1) := by
  unfold writeBlock
  by_cases h : b < f.length
  · rw [if_pos h, List.length_set]
    omega
  · rw [if_neg h]
    simp only [List.length_append, List.length_replicate, List.length_singleton]
    omega

theorem writeBlock_get_self (f : List (List Nat)) (b : Nat) (d : List Nat) :
    (writeBlock f b d).get? b = some d := by
  unfold writeBlock
  by_cases h : b < f.length
  · rw [if_pos h]
    exact get?_set_self f b d h
  · rw [if_neg h]
    have hgen : ∀ X : List (List Nat), X.length = b → (X ++ [d]).get? b = some d := by
      intro X hXl
      rw [← hXl]
      exact get?_append_off X [d] 0
    exact hgen _ (by
      simp only [List.length_append, List.length_replicate]
      omega)

theorem writeBlock_get_ne (f : List (List Nat)) (b : Nat) (d : List Nat)
    (b' : Nat) (hne : b' ≠ b) (hlt : b' < f.length) :
    (writeBlock f b d).get? b' = f.get? b' := by
  unfold writeBlock
  by_cases h : b < f.length
  · rw [if_pos h]
    exact get?_set_ne f b d b' hne
  · rw [if_neg h]
    rw [List.get?_append (by
        simp only [List.length_append, List.length_replicate]
        omega),
      List.get?_append hlt]

theorem get?_eq_none_of_ge {α : Type} (l : List α) (i : Nat) (h : l.length ≤ i) :
    l.get? i = none := by
  rw [List.get?_eq_none]
  exact h

/-! ### Step lemmas: cache operations preserve consistency and the view -/

theorem fileDecodes_congr (st st' : St) (b : Nat) (nd : Node)
    (h : st'.file.get? b = st.file.get? b) :
    fileDecodes st b nd → fileDecodes st' b nd := by
  unfold fileDecodes
  rw [h]
  exact id

theorem fileNodeOK_congr (st st' : St) (b : Nat)
    (h : st'.file.get? b = st.file.get? b) (hn : st'.next = st.next) :
    fileNodeOK st b → fileNodeOK st' b := by
  unfold fileNodeOK
  rw [h, hn]
  exact id

theorem fileDecodes_lt (st : St) (b : Nat) (nd : Node) (h : fileDecodes st b nd) :
    b < st.file.length := by
  unfold fileDecodes at h
  by_contra hge
  rw [get?_eq_none_of_ge st.file b (by omega)] at h
  exact h

theorem fileNodeOK_lt (st : St) (b : Nat) (h : fileNodeOK st b) :
    b < st.file.length := by
  unfold fileNodeOK at h
  by_contra hge
  rw [get?_eq_none_of_ge st.file b (by omega)] at h
  exact h

theorem view_of_lookup_some (st : St) (b : Nat) (nd : Node)
    (h : lookupCache st.cache b = some nd) :
    view st b = some { nd with dirty := false } := by
  unfold view
  rw [h]
  rfl

theorem view_of_lookup_none (st : St) (b : Nat)
    (h : lookupCache st.cache b = none) :
    view st b = (st.file.get? b).map readNode := by
  unfold view
  rw [h]
  rfl

theorem StepOK_refl (st : St) (h : Inv st) : StepOK st st :=
  ⟨h, rfl, rfl, fun _ _ => rfl⟩

theorem StepOK_trans (s1 s2 s3 : St) (h1 : StepOK s1 s2) (h2 : StepOK s2 s3) :
    StepOK s1 s3 :=
  ⟨h2.1, h2.2.1.trans h1.2.1, h2.2.2.1.trans h1.2.2.1,
   fun b hb => (h2.2.2.2 b hb).trans (h1.2.2.2 b hb)⟩

theorem dropLast_mem_iff (l : List Nat) (v : Nat) (hnd : l.Nodup)
    (hv : l.getLast? = some v) (b : Nat) : b ∈ l.dropLast ↔ (b ∈ l ∧ b ≠ v) := by
  have hne : l ≠ [] := by
    intro h
    rw [h] at hv
    simp at hv
  have hdecomp : l.dropLast ++ [l.getLast hne] = l := List.dropLast_append_getLast hne
  have hgl : l.getLast hne = v := by
    have h1 := List.getLast?_eq_getLast l hne
    rw [h1] at hv
    exact Option.some_injective _ hv
  rw [hgl] at hdecomp
  have hnd2 : (l.dropLast ++ [v]).Nodup := by rw [hdecomp]; exact hnd
  rw [List.nodup_append] at hnd2
  constructor
  · intro hb
    refine ⟨by rw [← hdecomp]; exact List.mem_append_left _ hb, ?_⟩
    intro hbv
    rw [hbv] at hb
    exact hnd2.2.2 hb (by simp)
  · intro ⟨hb, hbv⟩
    rw [← hdecomp] at hb
    rcases List.mem_append.mp hb with h | h
    · exact h
    · rw [List.mem_singleton] at h
      exact absurd h hbv

/-- One iteration of the eviction loop: dropping the LRU victim (and
writing it back when dirty) is a `StepOK` transition. -/
theorem evict_one_StepOK (st : St) (v : Nat) (nd : Node)
    (hInv : Inv st) (hv : st.order.getLast? = some v)
    (hnd : lookupCache st.cache v = some nd) (f' : List (List Nat))
    (hf' : f' = if nd.dirty then writeBlock st.file v (nodeBytes nd) else st.file) :
    StepOK st { st with order := st.order.dropLast, cache := eraseCache st.cache v, file := f' } := by
  obtain ⟨h1, h2, h3, h4, h5, h6, h7, h8, h9, h10, h11⟩ := hInv
  have hmem : (v, nd) ∈ st.cache := lookupCache_mem _ _ _ hnd
  obtain ⟨⟨hbid, hv1, hvn, hwf⟩, hclean⟩ := h9 (v, nd) hmem
  have hflen : f'.length ≤ st.next := by
    rw [hf']
    by_cases hd : nd.dirty
    · rw [if_pos hd, writeBlock_length]
      omega
    · rw [if_neg hd]
      exact h11
  have hfget_ne : ∀ b, b ≠ v → b < st.file.length → f'.get? b = st.file.get? b := by
    intro b hb hlt
    rw [hf']
    by_cases hd : nd.dirty
    · rw [if_pos hd, writeBlock_get_ne st.file v _ b hb hlt]
    · rw [if_neg hd]
  have hfget_v : (f'.get? v).map readNode = some { nd with dirty := false } := by
    rw [hf']
    by_cases hd : nd.dirty
    · rw [if_pos hd, writeBlock_get_self]
      show some (readNode (nodeBytes nd)) = some { nd with dirty := false }
      rw [readNode_nodeBytes nd hwf]
    · rw [if_neg hd]
      have hfd := hclean (by simpa using hd)
      unfold fileDecodes at hfd
      cases hg : st.file.get? v with
      | none => rw [hg] at hfd; exact absurd hfd id
      | some data =>
        rw [hg] at hfd
        show some (readNode data) = some { nd with dirty := false }
        rw [hfd.2]
  have hfgood_v : fileNodeOK { st with order := st.order.dropLast, cache := eraseCache st.cache v, file := f' } v := by
    unfold fileNodeOK
    rw [hf']
    by_cases hd : nd.dirty
    · rw [if_pos hd]
      show (match (writeBlock st.file v (nodeBytes nd)).get? v with
        | none => False
        | some data => data.length = BLOCK_SIZE ∧ goodNode v st.next (readNode data))
      rw [writeBlock_get_self]
      refine ⟨nodeBytes_length nd hwf, ?_⟩
      rw [readNode_nodeBytes nd hwf]
      exact ⟨hbid, hv1, hvn, (wf64_strip nd).mpr hwf⟩
    · rw [if_neg hd]
      have hfd := hclean (by simpa using hd)
      unfold fileDecodes at hfd
      show (match st.file.get? v with
        | none => False
        | some data => data.length = BLOCK_SIZE ∧ goodNode v st.next (readNode data))
      cases hg : st.file.get? v with
      | none => rw [hg] at hfd; exact absurd hfd id
      | some data =>
        rw [hg] at hfd
        refine ⟨hfd.1, ?_⟩
        rw [hfd.2]
        exact ⟨hbid, hv1, hvn, (wf64_strip nd).mpr hwf⟩
  refine ⟨?_, rfl, rfl, ?_⟩
  · refine ⟨h1, h2, h3, h4, ?_, ?_, ?_, ?_, ?_, ?_, hflen⟩
    · exact h5.sublist ((eraseCache_sublist st.cache v).map Prod.fst)
    · exact h6.sublist (List.dropLast_sublist st.order)
    · intro b hb
      rw [dropLast_mem_iff st.order v h6 hv b] at hb
      exact (mapfst_eraseCache st.cache v b).mpr ⟨h7 b hb.1, hb.2⟩
    · intro b hb
      rw [mapfst_eraseCache] at hb
      rw [dropLast_mem_iff st.order v h6 hv b]
      exact ⟨h8 b hb.1, hb.2⟩
    · intro e he
      rw [mem_eraseCache] at he
      obtain ⟨hgood, hcl⟩ := h9 e he.1
      refine ⟨hgood, fun hdf => ?_⟩
      have hlt : e.1 < st.file.length := fileDecodes_lt st e.1 e.2 (hcl hdf)
      exact fileDecodes_congr st _ e.1 e.2 (hfget_ne e.1 he.2 hlt) (hcl hdf)
    · intro b hb hb1 hlk
      by_cases hbv : b = v
      · rw [hbv]
        exact hfgood_v
      · replace hlk : lookupCache (eraseCache st.cache v) b = none := hlk
        rw [lookupCache_erase_ne st.cache v b hbv] at hlk
        have hok := h10 b hb hb1 hlk
        exact fileNodeOK_congr st _ b
          (hfget_ne b hbv (fileNodeOK_lt st b hok)) rfl hok
  · intro b hb
    by_cases hbv : b = v
    · rw [hbv]
      have hlke : lookupCache (eraseCache st.cache v) v = none := by
        rw [lookupCache_eq_none]
        intro hmem2
        exact ((mapfst_eraseCache st.cache v v).mp hmem2).2 rfl
      rw [view_of_lookup_some st v nd hnd,
        view_of_lookup_none { st with order := st.order.dropLast, cache := eraseCache st.cache v, file := f' } v hlke]
      exact hfget_v
    · have hlke : lookupCache (eraseCache st.cache v) b = lookupCache st.cache b :=
        lookupCache_erase_ne st.cache v b hbv
      cases hlk : lookupCache st.cache b with
      | some m =>
        rw [view_of_lookup_some st b m hlk,
          view_of_lookup_some { st with order := st.order.dropLast, cache := eraseCache st.cache v, file := f' } b m (hlke.trans hlk)]
      | none =>
        rw [view_of_lookup_none st b hlk,
          view_of_lookup_none { st with order := st.order.dropLast, cache := eraseCache st.cache v, file := f' } b (hlke.trans hlk)]
        show (f'.get? b).map readNode = (st.file.get? b).map readNode
        by_cases hbn : b < st.next
        · have hok := h10 b hbn hb hlk
          rw [hfget_ne b hbv (fileNodeOK_lt st b hok)]
        · rw [get?_eq_none_of_ge st.file b (by omega),
            get?_eq_none_of_ge f' b (by omega)]

/-- The whole eviction loop is a `StepOK` transition that only removes
cache entries. -/
theorem evictGo_StepOK (f : Nat) :
    ∀ st st', Inv st → evictGo f st = some st' →
      StepOK st st' ∧ ∀ e ∈ st'.cache, e ∈ st.cache := by
  induction f with
  | zero =>
    intro st st' hInv h
    unfold evictGo at h
    split at h
    · simp at h
    · cases h
      exact ⟨StepOK_refl st hInv, fun e he => he⟩
  | succ f ih =>
    intro st st' hInv h
    unfold evictGo at h
    split at h
    · rw [Option.bind_eq_some] at h
      obtain ⟨v, hv, h⟩ := h
      rw [Option.bind_eq_some] at h
      obtain ⟨nd, hnd, h⟩ := h
      have hbid : nd.block_id = v := by
        obtain ⟨_, _, _, _, _, _, _, _, h9, _, _⟩ := hInv
        exact (h9 (v, nd) (lookupCache_mem _ _ _ hnd)).1.1
      have hwf : nd.wf64 := by
        obtain ⟨_, _, _, _, _, _, _, _, h9, _, _⟩ := hInv
        exact (h9 (v, nd) (lookupCache_mem _ _ _ hnd)).1.2.2.2
      by_cases hd : nd.dirty
      · rw [if_pos hd] at h
        rw [Option.bind_eq_some] at h
        obtain ⟨fl, hfl, h⟩ := h
        unfold nodeWrite at hfl
        rw [(toBytes_readNode nd hwf).1] at hfl
        replace hfl : writeBlock st.file nd.block_id (nodeBytes nd) = fl :=
          Option.some_injective _ hfl
        rw [← hfl, hbid] at h
        have hone := evict_one_StepOK st v nd hInv hv hnd
          (writeBlock st.file v (nodeBytes nd)) (if_pos hd).symm
        obtain ⟨hstep2, hsub2⟩ := ih _ _ hone.1 h
        refine ⟨StepOK_trans _ _ _ hone hstep2, fun e he => ?_⟩
        exact ((mem_eraseCache st.cache v e).mp (hsub2 e he)).1
      · rw [if_neg hd] at h
        have hone := evict_one_StepOK st v nd hInv hv hnd st.file (if_neg hd).symm
        obtain ⟨hstep2, hsub2⟩ := ih _ _ hone.1 h
        refine ⟨StepOK_trans _ _ _ hone hstep2, fun e he => ?_⟩
        exact ((mem_eraseCache st.cache v e).mp (hsub2 e he)).1
    · cases h
      exact ⟨StepOK_refl st hInv, fun e he => he⟩

/-- Touching the LRU order is invisible to the logical state. -/
theorem touch_StepOK (st : St) (b : Nat) (hInv : Inv st)
    (hmem : b ∈ st.cache.map Prod.fst) : StepOK st (touch st b) := by
  obtain ⟨h1, h2, h3, h4, h5, h6, h7, h8, h9, h10, h11⟩ := hInv
  refine ⟨⟨h1, h2, h3, h4, h5, ?_, ?_, ?_, h9, h10, h11⟩, rfl, rfl, fun _ _ => rfl⟩
  · show (b :: st.order.erase b).Nodup
    rw [List.nodup_cons]
    exact ⟨fun hx => (h6.mem_erase_iff.mp hx).1 rfl, h6.erase b⟩
  · intro x hx
    rw [show (touch st b).order = b :: st.order.erase b from rfl, List.mem_cons] at hx
    rcases hx with hx | hx
    · rw [hx]; exact hmem
    · exact h7 x (List.mem_of_mem_erase hx)
  · intro x hx
    rw [show (touch st b).order = b :: st.order.erase b from rfl, List.mem_cons]
    by_cases hxb : x = b
    · exact Or.inl hxb
    · exact Or.inr (h6.mem_erase_iff.mpr ⟨hxb, h8 x hx⟩)

/-- `NodeCache.get` succeeds on consistent states with a sane block
index, returns exactly the viewed node, and is a `StepOK` transition. -/
theorem cacheGet_StepOK (st : St) (b : Nat) (nd : Node) (st' : St)
    (hInv : Inv st) (hb : 1 ≤ b)
    (h : cacheGet st b = some (nd, st')) :
    StepOK st st' ∧ view st b = some { nd with dirty := false } := by
  unfold cacheGet at h
  split at h
  · rename_i m heq
    cases h
    have hmem : b ∈ st.cache.map Prod.fst :=
      List.mem_map.mpr ⟨(b, nd), lookupCache_mem _ _ _ heq, rfl⟩
    refine ⟨touch_StepOK st b hInv hmem, ?_⟩
    exact view_of_lookup_some st b nd heq
  · rename_i heq
    rw [Option.bind_eq_some] at h
    obtain ⟨st1, h1, h⟩ := h
    have hstep1 : StepOK st st1 ∧ ∀ e ∈ st1.cache, e ∈ st.cache := by
      by_cases hc : 3 ≤ st.cache.length
      · rw [if_pos hc] at h1
        exact evictGo_StepOK _ _ _ hInv h1
      · rw [if_neg hc] at h1
        cases h1
        exact ⟨StepOK_refl st hInv, fun e he => he⟩
    rw [Option.bind_eq_some] at h
    obtain ⟨data, hdata, h⟩ := h
    split at h
    · rename_i hlen512
      simp only at h
      cases h
      obtain ⟨⟨hInv1, hroot1, hnext1, hview1⟩, hsub⟩ := hstep1
      have hlk1 : lookupCache st1.cache b = none := by
        cases hlk : lookupCache st1.cache b with
        | none => rfl
        | some m =>
          have hmem1 := hsub (b, m) (lookupCache_mem _ _ _ hlk)
          have : b ∈ st.cache.map Prod.fst := List.mem_map.mpr ⟨(b, m), hmem1, rfl⟩
          rw [lookupCache_eq_none] at heq
          exact absurd this heq
      have hview1b : view st1 b = some (readNode data) := by
        unfold view
        rw [hlk1, hdata]
        rfl
      have hbn : b < st.next := by
        by_contra hge
        obtain ⟨_, _, _, _, _, _, _, _, _, _, h11'⟩ := hInv1
        rw [get?_eq_none_of_ge st1.file b (by omega)] at hdata
        exact Option.noConfusion hdata
      have hfOK : fileNodeOK st1 b := by
        obtain ⟨_, _, _, _, _, _, _, _, _, h10', _⟩ := hInv1
        exact h10' b (by omega) hb hlk1
      have hgood : goodNode b st1.next (readNode data) := by
        unfold fileNodeOK at hfOK
        rw [hdata] at hfOK
        exact hfOK.2
      have hstrip : ({ readNode data with dirty := false } : Node) = readNode data :=
        node_strip_of_clean _ rfl
      obtain ⟨h1', h2', h3', h4', h5', h6', h7', h8', h9', h10', h11'⟩ := hInv1
      have hbnot1 : b ∉ st1.cache.map Prod.fst := by
        rw [← lookupCache_eq_none]
        exact hlk1
      have hbnotord : b ∉ st1.order := fun hx => hbnot1 (h7' b hx)
      have hInv2 : Inv { st1 with
          cache := st1.cache ++ [(b, readNode data)],
          order := b :: st1.order.erase b } := by
        refine ⟨h1', h2', h3', h4', ?_, ?_, ?_, ?_, ?_, ?_, h11'⟩
        · show ((st1.cache ++ [(b, readNode data)]).map Prod.fst).Nodup
          rw [mapfst_append_one, List.nodup_append]
          exact ⟨h5', List.nodup_singleton b,
            fun x hx hx2 => hbnot1 (by rw [List.mem_singleton] at hx2; rw [← hx2]; exact hx)⟩
        · show (b :: st1.order.erase b).Nodup
          rw [List.nodup_cons]
          exact ⟨fun hx => (h6'.mem_erase_iff.mp hx).1 rfl, h6'.erase b⟩
        · intro x hx
          rw [List.mem_cons] at hx
          rw [mapfst_append_one, List.mem_append]
          rcases hx with hx | hx
          · exact Or.inr (by rw [hx]; simp)
          · exact Or.inl (h7' x (List.mem_of_mem_erase hx))
        · intro x hx
          rw [mapfst_append_one, List.mem_append] at hx
          rw [List.mem_cons]
          rcases hx with hx | hx
          · refine Or.inr (h6'.mem_erase_iff.mpr ⟨?_, h8' x hx⟩)
            intro hxb
            rw [hxb] at hx
            exact hbnot1 hx
          · rw [List.mem_singleton] at hx
            exact Or.inl hx
        · intro e he
          rw [List.mem_append] at he
          rcases he with he | he
          · obtain ⟨hg, hcl⟩ := h9' e he
            exact ⟨hg, fun hdf => hcl hdf⟩
          · rw [List.mem_singleton] at he
            rw [he]
            refine ⟨by rw [hnext1] at hgood ⊢; exact hgood, fun _ => ?_⟩
            show fileDecodes _ b (readNode data)
            unfold fileDecodes
            show (match st1.file.get? b with
              | none => False
              | some d => d.length = BLOCK_SIZE
                  ∧ readNode d = { readNode data with dirty := false })
            rw [hdata, hstrip]
            exact ⟨hlen512, rfl⟩
        · intro b' hb' hb1' hlk'
          by_cases hbb : b' = b
          · rw [hbb] at hlk'
            rw [lookupCache_append_self st1.cache b (readNode data) hlk1] at hlk'
            exact Option.noConfusion hlk'
          · replace hlk' : lookupCache (st1.cache ++ [(b, readNode data)]) b' = none := hlk'
            rw [lookupCache_append_ne st1.cache b (readNode data) b' hbb] at hlk'
            exact h10' b' hb' hb1' hlk'
      refine ⟨⟨hInv2, hroot1, hnext1, ?_⟩, ?_⟩
      · intro b' hb'
        show view { st1 with cache := st1.cache ++ [(b, readNode data)], order := b :: st1.order.erase b } b' = view st b'
        by_cases hbb : b' = b
        · rw [hbb]
          rw [view_of_lookup_some { st1 with cache := st1.cache ++ [(b, readNode data)], order := b :: st1.order.erase b } b (readNode data) (lookupCache_append_self st1.cache b (readNode data) hlk1)]
          rw [← hview1 b hb, hview1b, hstrip]
        · have hlkap : lookupCache (st1.cache ++ [(b, readNode data)]) b' = lookupCache st1.cache b' :=
            lookupCache_append_ne st1.cache b (readNode data) b' hbb
          rw [← hview1 b' hb']
          cases hlkc : lookupCache st1.cache b' with
          | some m =>
            rw [view_of_lookup_some { st1 with cache := st1.cache ++ [(b, readNode data)], order := b :: st1.order.erase b } b' m (hlkap.trans hlkc),
              view_of_lookup_some st1 b' m hlkc]
          | none =>
            rw [view_of_lookup_none { st1 with cache := st1.cache ++ [(b, readNode data)], order := b :: st1.order.erase b } b' (hlkap.trans hlkc),
              view_of_lookup_none st1 b' hlkc]
      · rw [hview1 b hb] at hview1b
        rw [hview1b, hstrip]
    · simp at h

theorem getLast?_mem_self (l : List Nat) (a : Nat) (h : l.getLast? = some a) :
    a ∈ l := by
  obtain ⟨hne, heq⟩ := @List.mem_getLast?_eq_getLast _ l a (by rw [h]; rfl)
  rw [heq]
  exact List.getLast_mem hne

theorem lookupCache_of_mem (c : List (Nat × Node)) (e : Nat × Node)
    (hn : (c.map Prod.fst).Nodup) (he : e ∈ c) : lookupCache c e.1 = some e.2 := by
  induction c with
  | nil => exact absurd he (List.not_mem_nil e)
  | cons f t ih =>
    rw [List.map_cons, List.nodup_cons] at hn
    rcases List.mem_cons.mp he with he | he
    · unfold lookupCache
      rw [find?_cons_pos (fun x => x.1 == e.1) f t (by rw [he]; exact beq_self_eq_true f.1)]
      rw [he]
      rfl
    · have hne : f.1 ≠ e.1 := by
        intro hfe
        exact hn.1 (hfe ▸ List.mem_map.mpr ⟨e, he, rfl⟩)
      unfold lookupCache
      rw [find?_cons_neg (fun x => x.1 == e.1) f t (by simp [hne])]
      exact ih hn.2 he

theorem lookupCache_isSome (c : List (Nat × Node)) (b : Nat)
    (h : b ∈ c.map Prod.fst) : ∃ nd, lookupCache c b = some nd := by
  refine Option.ne_none_iff_exists'.mp ?_
  intro hnone
  exact (lookupCache_eq_none c b).mp hnone h

/-- Under the consistency invariant the eviction loop never raises: the
LRU list is long enough to shrink the cache below the bound. -/
theorem evictGo_total : ∀ f st, Inv st → st.order.length ≤ f →
    ∃ st', evictGo f st = some st' := by
  intro f
  induction f with
  | zero =>
    intro st hInv hlen
    refine ⟨st, ?_⟩
    unfold evictGo
    rw [if_neg ?_]
    intro hgt
    obtain ⟨-, -, -, -, -, -, -, h8, -, -, -⟩ := hInv
    have horder : st.order = [] := List.eq_nil_of_length_eq_zero (Nat.le_zero.mp hlen)
    cases hcc : st.cache with
    | nil => rw [hcc] at hgt; exact absurd hgt (by decide)
    | cons e t =>
      have hm := h8 e.1 (by rw [hcc]; exact List.mem_map.mpr ⟨e, List.mem_cons_self e t, rfl⟩)
      rw [horder] at hm
      exact (List.not_mem_nil _) hm
  | succ f ih =>
    intro st hInv hlen
    unfold evictGo
    by_cases hc : 3 < st.cache.length
    · rw [if_pos hc]
      have hone : st.order ≠ [] := by
        intro hnil
        obtain ⟨-, -, -, -, -, -, -, h8, -, -, -⟩ := hInv
        cases hcc : st.cache with
        | nil => rw [hcc] at hc; exact absurd hc (by decide)
        | cons e t =>
          have hm := h8 e.1 (by rw [hcc]; exact List.mem_map.mpr ⟨e, List.mem_cons_self e t, rfl⟩)
          rw [hnil] at hm
          exact (List.not_mem_nil _) hm
      obtain ⟨v, hv⟩ : ∃ v, st.order.getLast? = some v :=
        ⟨_, List.getLast?_eq_getLast_of_ne_nil hone⟩
      have hvmem : v ∈ st.order := getLast?_mem_self st.order v hv
      obtain ⟨nd, hnd⟩ := lookupCache_isSome st.cache v (hInv.2.2.2.2.2.2.1 v hvmem)
      obtain ⟨⟨hbid, hv1, hvn, hwf⟩, -⟩ :=
        hInv.2.2.2.2.2.2.2.2.1 (v, nd) (lookupCache_mem _ _ _ hnd)
      have hlen2 : st.order.dropLast.length ≤ f := by
        rw [List.length_dropLast]
        omega
      rw [hv]
      simp only [Option.some_bind]
      rw [hnd]
      simp only [Option.some_bind]
      by_cases hd : nd.dirty
      · rw [if_pos hd]
        have hfl : nodeWrite st.file nd = some (writeBlock st.file v (nodeBytes nd)) := by
          unfold nodeWrite
          rw [(toBytes_readNode nd hwf).1, hbid]
          rfl
        rw [hfl]
        simp only [Option.some_bind]
        have hInv2 := (evict_one_StepOK st v nd hInv hv hnd
          (writeBlock st.file v (nodeBytes nd)) (by rw [if_pos hd])).1
        exact ih _ hInv2 hlen2
      · rw [if_neg hd]
        have hInv2 := (evict_one_StepOK st v nd hInv hv hnd st.file (by rw [if_neg hd])).1
        exact ih _ hInv2 hlen2
    · rw [if_neg hc]
      exact ⟨st, rfl⟩

/-- On a consistent state, `NodeCache.get` succeeds exactly on the blocks
the merged view defines, and returns the viewed node. -/
theorem cacheGet_view (st : St) (b : Nat) (m : Node)
    (hInv : Inv st) (hb : 1 ≤ b) (hm : view st b = some m) :
    ∃ nd st', cacheGet st b = some (nd, st') ∧ StepOK st st'
      ∧ ({ nd with dirty := false } : Node) = m := by
  have htot : ∃ p, cacheGet st b = some p := by
    unfold cacheGet
    cases hlk : lookupCache st.cache b with
    | some nd0 => exact ⟨(nd0, touch st b), rfl⟩
    | none =>
      have hst1 : ∃ st1, (if 3 ≤ st.cache.length then evictIfNeeded st else some st) = some st1
          ∧ StepOK st st1 ∧ ∀ e ∈ st1.cache, e ∈ st.cache := by
        by_cases hcl : 3 ≤ st.cache.length
        · rw [if_pos hcl]
          obtain ⟨st1, h1⟩ := evictGo_total st.order.length st hInv (le_refl _)
          have h2 := evictGo_StepOK st.order.length st st1 hInv h1
          exact ⟨st1, h1, h2.1, h2.2⟩
        · rw [if_neg hcl]
          exact ⟨st, rfl, StepOK_refl st hInv, fun e he => he⟩
      obtain ⟨st1, h1, ⟨hInv1, hroot1, hnext1, hview1⟩, hsub⟩ := hst1
      rw [h1]
      simp only [Option.some_bind]
      have hlk1 : lookupCache st1.cache b = none := by
        cases hlk2 : lookupCache st1.cache b with
        | none => rfl
        | some m2 =>
          have hmem1 := hsub (b, m2) (lookupCache_mem _ _ _ hlk2)
          have hmem2 : b ∈ st.cache.map Prod.fst := List.mem_map.mpr ⟨(b, m2), hmem1, rfl⟩
          rw [lookupCache_eq_none] at hlk
          exact absurd hmem2 hlk
      have hv1 : view st1 b = some m := (hview1 b hb).trans hm
      rw [view_of_lookup_none st1 b hlk1, Option.map_eq_some'] at hv1
      obtain ⟨data, hdata, hread⟩ := hv1
      rw [hdata]
      simp only [Option.some_bind]
      obtain ⟨-, -, -, -, -, -, -, -, -, h10', h11'⟩ := hInv1
      have hltf : b < st1.file.length := by
        by_contra hge
        rw [get?_eq_none_of_ge st1.file b (by omega)] at hdata
        exact Option.noConfusion hdata
      have hfOK : fileNodeOK st1 b := h10' b (by omega) hb hlk1
      have hlen : data.length = BLOCK_SIZE := by
        unfold fileNodeOK at hfOK
        rw [hdata] at hfOK
        exact hfOK.1
      rw [if_pos hlen]
      exact ⟨_, rfl⟩
  obtain ⟨⟨nd, st'⟩, hp⟩ := htot
  obtain ⟨hstep, hv⟩ := cacheGet_StepOK st b nd st' hInv hb hp
  rw [hm] at hv
  exact ⟨nd, st', hp, hstep, (Option.some.inj hv).symm⟩

/-- On a consistent state, `NodeCache.get` fails exactly on the blocks
the merged view does not define. -/
theorem cacheGet_undef (st : St) (b : Nat)
    (hInv : Inv st) (hb : 1 ≤ b) (hm : view st b = none) :
    cacheGet st b = none := by
  unfold cacheGet
  cases hlk : lookupCache st.cache b with
  | some nd0 =>
    rw [view_of_lookup_some st b nd0 hlk] at hm
    exact Option.noConfusion hm
  | none =>
    cases h1 : (if 3 ≤ st.cache.length then evictIfNeeded st else some st) with
    | none => rfl
    | some st1 =>
      have hstep : StepOK st st1 ∧ ∀ e ∈ st1.cache, e ∈ st.cache := by
        by_cases hcl : 3 ≤ st.cache.length
        · rw [if_pos hcl] at h1
          exact evictGo_StepOK _ _ _ hInv h1
        · rw [if_neg hcl] at h1
          cases h1
          exact ⟨StepOK_refl st hInv, fun e he => he⟩
      obtain ⟨⟨hInv1, -, -, hview1⟩, hsub⟩ := hstep
      simp only [Option.some_bind]
      have hlk1 : lookupCache st1.cache b = none := by
        cases hlk2 : lookupCache st1.cache b with
        | none => rfl
        | some m2 =>
          have hmem1 := hsub (b, m2) (lookupCache_mem _ _ _ hlk2)
          have hmem2 : b ∈ st.cache.map Prod.fst := List.mem_map.mpr ⟨(b, m2), hmem1, rfl⟩
          rw [lookupCache_eq_none] at hlk
          exact absurd hmem2 hlk
      have hv1 : view st1 b = none := (hview1 b hb).trans hm
      rw [view_of_lookup_none st1 b hlk1, Option.map_eq_none'] at hv1
      rw [hv1]
      rfl

/-- `pureSearch` only consults the view at nonzero blocks, so views that
agree there are interchangeable. -/
theorem pureSearch_congr : ∀ f (vw1 vw2 : Nat → Option Node) b k,
    (∀ b', 1 ≤ b' → vw1 b' = vw2 b') → 1 ≤ b →
    pureSearch f vw1 b k = pureSearch f vw2 b k := by
  intro f
  induction f with
  | zero => intro vw1 vw2 b k h hb; rfl
  | succ f ih =>
    intro vw1 vw2 b k h hb
    unfold pureSearch
    rw [h b hb]
    cases vw2 b with
    | none => rfl
    | some nd =>
      simp only [Option.some_bind]
      by_cases hA : lscan nd k < nd.num_keys ∧ k = nd.keys.getD (lscan nd k) 0
      · rw [if_pos hA, if_pos hA]
      · rw [if_neg hA, if_neg hA]
        by_cases hL : nd.isLeaf = true
        · rw [if_pos hL, if_pos hL]
        · rw [if_neg hL, if_neg hL]
          by_cases hC : nd.children.getD (lscan nd k) 0 = 0
          · rw [if_pos hC, if_pos hC]
          · rw [if_neg hC, if_neg hC]
            exact ih vw1 vw2 _ k h (Nat.one_le_iff_ne_zero.mpr hC)

/-- `_search_node` computes `pureSearch` of the merged view and only
makes cache-neutral state transitions. -/
theorem searchNode_pure : ∀ f st b k, Inv st → 1 ≤ b →
    ((searchNode f st b k).map Prod.fst = pureSearch f (view st) b k)
    ∧ ∀ p, searchNode f st b k = some p → StepOK st p.2 := by
  intro f
  induction f with
  | zero =>
    intro st b k hInv hb
    exact ⟨rfl, fun p hp => Option.noConfusion hp⟩
  | succ f ih =>
    intro st b k hInv hb
    cases hm : view st b with
    | none =>
      have hg := cacheGet_undef st b hInv hb hm
      constructor
      · unfold searchNode pureSearch
        rw [hg, hm]
        rfl
      · intro p hp
        unfold searchNode at hp
        rw [hg] at hp
        exact Option.noConfusion hp
    | some m =>
      obtain ⟨nd, st1, hget, hstep1, hndm⟩ := cacheGet_view st b m hInv hb hm
      have hkeys : nd.keys = m.keys := by rw [← hndm]
      have hvals : nd.values = m.values := by rw [← hndm]
      have hnum : nd.num_keys = m.num_keys := by rw [← hndm]
      have hch : nd.children = m.children := by rw [← hndm]
      have hleaf : nd.isLeaf = m.isLeaf := by
        unfold Node.isLeaf
        rw [hnum, hch]
      have hls : lscan nd k = lscan m k := by
        unfold lscan
        rw [hkeys, hnum]
      constructor
      · unfold searchNode pureSearch
        rw [hget, hm]
        simp only [Option.some_bind]
        rw [hls, hnum, hkeys, hvals, hch, hleaf]
        by_cases hA : lscan m k < m.num_keys ∧ k = m.keys.getD (lscan m k) 0
        · rw [if_pos hA, if_pos hA]
          rfl
        · rw [if_neg hA, if_neg hA]
          by_cases hL : m.isLeaf = true
          · rw [if_pos hL, if_pos hL]
            rfl
          · rw [if_neg hL, if_neg hL]
            by_cases hC : m.children.getD (lscan m k) 0 = 0
            · rw [if_pos hC, if_pos hC]
              rfl
            · rw [if_neg hC, if_neg hC]
              have hc1 : 1 ≤ m.children.getD (lscan m k) 0 := Nat.one_le_iff_ne_zero.mpr hC
              rw [(ih st1 _ k hstep1.1 hc1).1]
              exact pureSearch_congr f (view st1) (view st) _ k hstep1.2.2.2 hc1
      · intro p hp
        unfold searchNode at hp
        rw [hget] at hp
        simp only [Option.some_bind] at hp
        rw [hls, hnum, hkeys, hvals, hch, hleaf] at hp
        by_cases hA : lscan m k < m.num_keys ∧ k = m.keys.getD (lscan m k) 0
        · rw [if_pos hA] at hp
          cases hp
          exact hstep1
        · rw [if_neg hA] at hp
          by_cases hL : m.isLeaf = true
          · rw [if_pos hL] at hp
            cases hp
            exact hstep1
          · rw [if_neg hL] at hp
            by_cases hC : m.children.getD (lscan m k) 0 = 0
            · rw [if_pos hC] at hp
              cases hp
              exact hstep1
            · rw [if_neg hC] at hp
              have hc1 : 1 ≤ m.children.getD (lscan m k) 0 := Nat.one_le_iff_ne_zero.mpr hC
              exact StepOK_trans st st1 p.2 hstep1 ((ih st1 _ k hstep1.1 hc1).2 p hp)

/-- `pureTravKids` only calls `recur` on nonzero child slots. -/
theorem pureTravKids_congr (r1 r2 : Nat → Option (List (Nat × Nat)))
    (h : ∀ b, 1 ≤ b → r1 b = r2 b) (nd : Node) :
    ∀ c i, pureTravKids r1 nd c i = pureTravKids r2 nd c i := by
  intro c
  induction c with
  | zero =>
    intro i
    unfold pureTravKids
    by_cases hC : nd.children.getD i 0 ≠ 0
    · rw [if_pos hC, if_pos hC, h _ (Nat.one_le_iff_ne_zero.mpr hC)]
    · rw [if_neg hC, if_neg hC]
  | succ c ihc =>
    intro i
    unfold pureTravKids
    rw [ihc (i + 1)]
    by_cases hC : nd.children.getD i 0 ≠ 0
    · rw [if_pos hC, if_pos hC, h _ (Nat.one_le_iff_ne_zero.mpr hC)]
    · rw [if_neg hC, if_neg hC]

/-- `pureTrav` only consults the view at nonzero blocks. -/
theorem pureTrav_congr : ∀ f (vw1 vw2 : Nat → Option Node),
    (∀ b, 1 ≤ b → vw1 b = vw2 b) → ∀ b, 1 ≤ b →
    pureTrav f vw1 b = pureTrav f vw2 b := by
  intro f
  induction f with
  | zero => intro vw1 vw2 h b hb; rfl
  | succ f ih =>
    intro vw1 vw2 h b hb
    unfold pureTrav
    rw [h b hb]
    cases vw2 b with
    | none => rfl
    | some nd =>
      simp only [Option.some_bind]
      exact pureTravKids_congr (pureTrav f vw1) (pureTrav f vw2) (ih vw1 vw2 h) nd nd.num_keys 0

/-- `pureTravKids` reads only the key/value/child arrays of its node. -/
theorem pureTravKids_node_congr (r : Nat → Option (List (Nat × Nat))) (nd m : Node)
    (hk : nd.keys = m.keys) (hv : nd.values = m.values) (hc : nd.children = m.children) :
    ∀ c i, pureTravKids r nd c i = pureTravKids r m c i := by
  intro c
  induction c with
  | zero =>
    intro i
    unfold pureTravKids
    rw [hc]
  | succ c ihc =>
    intro i
    unfold pureTravKids
    rw [hc, hk, hv, ihc (i + 1)]

/-- `_traverse_node` computes `pureTrav` of the merged view and only
makes cache-neutral state transitions. -/
theorem travNode_pure : ∀ f st b, Inv st → 1 ≤ b →
    ((travNode f st b).map Prod.fst = pureTrav f (view st) b)
    ∧ ∀ p, travNode f st b = some p → StepOK st p.2 := by
  intro f
  induction f with
  | zero =>
    intro st b hInv hb
    exact ⟨rfl, fun p hp => Option.noConfusion hp⟩
  | succ f ih =>
    intro st b hInv hb
    cases hm : view st b with
    | none =>
      have hg := cacheGet_undef st b hInv hb hm
      constructor
      · unfold travNode pureTrav
        rw [hg, hm]
        rfl
      · intro p hp
        unfold travNode at hp
        rw [hg] at hp
        exact Option.noConfusion hp
    | some m =>
      obtain ⟨nd, st1, hget, hstep1, hndm⟩ := cacheGet_view st b m hInv hb hm
      have hkeys : nd.keys = m.keys := by rw [← hndm]
      have hvals : nd.values = m.values := by rw [← hndm]
      have hnum : nd.num_keys = m.num_keys := by rw [← hndm]
      have hch : nd.children = m.children := by rw [← hndm]
      have inner : ∀ c i st', StepOK st st' →
          ((travKids (travNode f) nd c i st').map Prod.fst
            = pureTravKids (pureTrav f (view st)) nd c i)
          ∧ ∀ p, travKids (travNode f) nd c i st' = some p → StepOK st p.2 := by
        intro c
        induction c with
        | zero =>
          intro i st' hstep
          unfold travKids pureTravKids
          by_cases hC : nd.children.getD i 0 ≠ 0
          · rw [if_pos hC, if_pos hC]
            have hc1 : 1 ≤ nd.children.getD i 0 := Nat.one_le_iff_ne_zero.mpr hC
            have hih := ih st' (nd.children.getD i 0) hstep.1 hc1
            constructor
            · rw [hih.1]
              exact pureTrav_congr f (view st') (view st) hstep.2.2.2 _ hc1
            · intro p hp
              exact StepOK_trans st st' p.2 hstep (hih.2 p hp)
          · rw [if_neg hC, if_neg hC]
            refine ⟨rfl, fun p hp => ?_⟩
            cases hp
            exact hstep
        | succ c ihc =>
          intro i st' hstep
          unfold travKids pureTravKids
          by_cases hC : nd.children.getD i 0 ≠ 0
          · rw [if_pos hC, if_pos hC]
            have hc1 : 1 ≤ nd.children.getD i 0 := Nat.one_le_iff_ne_zero.mpr hC
            have hih := ih st' (nd.children.getD i 0) hstep.1 hc1
            cases hA : travNode f st' (nd.children.getD i 0) with
            | none =>
              have hpn : pureTrav f (view st) (nd.children.getD i 0) = none := by
                rw [← pureTrav_congr f (view st') (view st) hstep.2.2.2 _ hc1, ← hih.1, hA]
                rfl
              rw [hpn]
              refine ⟨rfl, fun p hp => ?_⟩
              exact Option.noConfusion hp
            | some q =>
              obtain ⟨out1, stA⟩ := q
              have hstepA : StepOK st stA :=
                StepOK_trans st st' stA hstep (hih.2 (out1, stA) hA)
              have hp1 : pureTrav f (view st) (nd.children.getD i 0) = some out1 := by
                rw [← pureTrav_congr f (view st') (view st) hstep.2.2.2 _ hc1, ← hih.1, hA]
                rfl
              rw [hp1]
              simp only [Option.some_bind]
              have hKid := ihc (i + 1) stA hstepA
              constructor
              · cases hK : travKids (travNode f) nd c (i + 1) stA with
                | none =>
                  have hpk : pureTravKids (pureTrav f (view st)) nd c (i + 1) = none := by
                    rw [← hKid.1, hK]
                    rfl
                  rw [hpk]
                  rfl
                | some q2 =>
                  obtain ⟨out2, stB⟩ := q2
                  have hpk : pureTravKids (pureTrav f (view st)) nd c (i + 1) = some out2 := by
                    rw [← hKid.1, hK]
                    rfl
                  rw [hpk]
                  rfl
              · intro p hp
                rw [Option.map_eq_some'] at hp
                obtain ⟨⟨out2, stB⟩, hK, hpe⟩ := hp
                cases hpe
                exact hKid.2 (out2, stB) hK
          · rw [if_neg hC, if_neg hC]
            simp only [Option.some_bind]
            have hKid := ihc (i + 1) st' hstep
            constructor
            · cases hK : travKids (travNode f) nd c (i + 1) st' with
              | none =>
                have hpk : pureTravKids (pureTrav f (view st)) nd c (i + 1) = none := by
                  rw [← hKid.1, hK]
                  rfl
                rw [hpk]
                rfl
              | some q2 =>
                obtain ⟨out2, stB⟩ := q2
                have hpk : pureTravKids (pureTrav f (view st)) nd c (i + 1) = some out2 := by
                  rw [← hKid.1, hK]
                  rfl
                rw [hpk]
                rfl
            · intro p hp
              rw [Option.map_eq_some'] at hp
              obtain ⟨⟨out2, stB⟩, hK, hpe⟩ := hp
              cases hpe
              exact hKid.2 (out2, stB) hK
      constructor
      · unfold travNode pureTrav
        rw [hget, hm]
        simp only [Option.some_bind]
        rw [(inner nd.num_keys 0 st1 hstep1).1]
        rw [pureTravKids_node_congr (pureTrav f (view st)) nd m hkeys hvals hch]
        rw [hnum]
      · intro p hp
        unfold travNode at hp
        rw [hget] at hp
        simp only [Option.some_bind] at hp
        exact (inner nd.num_keys 0 st1 hstep1).2 p hp

/-- One `flush_all` write-back: writing a cached page to disk and
clearing its dirty flag in place is a `StepOK` transition. -/
theorem flush_one_StepOK (st : St) (b : Nat) (nd : Node)
    (hInv : Inv st) (hnd : lookupCache st.cache b = some nd)
    (fl : List (List Nat)) (hfl : fl = writeBlock st.file b (nodeBytes nd)) :
    StepOK st { st with file := fl, cache := replaceCache st.cache b { nd with dirty := false } } := by
  obtain ⟨h1, h2, h3, h4, h5, h6, h7, h8, h9, h10, h11⟩ := hInv
  have hmem : (b, nd) ∈ st.cache := lookupCache_mem _ _ _ hnd
  obtain ⟨⟨hbid, hb1, hbn, hwf⟩, hclean⟩ := h9 (b, nd) hmem
  have hflen : fl.length ≤ st.next := by
    rw [hfl, writeBlock_length]
    omega
  have hfget_ne : ∀ b', b' ≠ b → b' < st.file.length → fl.get? b' = st.file.get? b' := by
    intro b' hne hlt
    rw [hfl]
    exact writeBlock_get_ne st.file b _ b' hne hlt
  have hfget_b : fl.get? b = some (nodeBytes nd) := by
    rw [hfl]
    exact writeBlock_get_self st.file b _
  refine ⟨?_, rfl, rfl, ?_⟩
  · refine ⟨h1, h2, h3, h4, ?_, h6, ?_, ?_, ?_, ?_, hflen⟩
    · rw [mapfst_replaceCache]
      exact h5
    · intro x hx
      rw [mapfst_replaceCache]
      exact h7 x hx
    · intro x hx
      rw [mapfst_replaceCache] at hx
      exact h8 x hx
    · intro e he
      rcases mem_replaceCache st.cache b _ e he with he | ⟨he, hne⟩

      · rw [he]
        refine ⟨⟨hbid, hb1, hbn, (wf64_strip nd).mpr hwf⟩, fun _ => ?_⟩
        show fileDecodes _ b ({ nd with dirty := false } : Node)
        unfold fileDecodes
        show (match fl.get? b with
          | none => False
          | some d => d.length = BLOCK_SIZE
              ∧ readNode d = { ({ nd with dirty := false } : Node) with dirty := false })
        rw [hfget_b]
        refine ⟨nodeBytes_length nd hwf, ?_⟩
        rw [readNode_nodeBytes nd hwf]
      · obtain ⟨hg, hcl⟩ := h9 e he
        refine ⟨hg, fun hdf => ?_⟩
        have hlt : e.1 < st.file.length := fileDecodes_lt st e.1 e.2 (hcl hdf)
        exact fileDecodes_congr st _ e.1 e.2 (hfget_ne e.1 hne hlt) (hcl hdf)
    · intro b' hb' hb1' hlk
      by_cases hbb : b' = b
      · rw [hbb] at hlk
        replace hlk : lookupCache (replaceCache st.cache b { nd with dirty := false }) b = none := hlk
        rw [lookupCache_replace_self st.cache b _ nd hnd] at hlk
        exact Option.noConfusion hlk
      · replace hlk : lookupCache (replaceCache st.cache b { nd with dirty := false }) b' = none := hlk
        rw [lookupCache_replace_ne st.cache b _ b' hbb] at hlk
        have hok := h10 b' hb' hb1' hlk
        exact fileNodeOK_congr st _ b'
          (hfget_ne b' hbb (fileNodeOK_lt st b' hok)) rfl hok
  · intro b' hb'
    by_cases hbb : b' = b
    · rw [hbb]
      rw [view_of_lookup_some st b nd hnd,
        view_of_lookup_some { st with file := fl, cache := replaceCache st.cache b { nd with dirty := false } } b _ (lookupCache_replace_self st.cache b _ nd hnd)]
    · have hlke : lookupCache (replaceCache st.cache b { nd with dirty := false }) b' = lookupCache st.cache b' :=
        lookupCache_replace_ne st.cache b _ b' hbb
      cases hlk : lookupCache st.cache b' with
      | some m =>
        rw [view_of_lookup_some st b' m hlk,
          view_of_lookup_some { st with file := fl, cache := replaceCache st.cache b { nd with dirty := false } } b' m (hlke.trans hlk)]
      | none =>
        rw [view_of_lookup_none st b' hlk,
          view_of_lookup_none { st with file := fl, cache := replaceCache st.cache b { nd with dirty := false } } b' (hlke.trans hlk)]
        show (fl.get? b').map readNode = (st.file.get? b').map readNode
        by_cases hbn' : b' < st.file.length
        · rw [hfget_ne b' hbb hbn']
        · have hge : st.next ≤ b' := by
            by_contra hlt
            have hok := h10 b' (by omega) hb' hlk
            exact hbn' (fileNodeOK_lt st b' hok)
          rw [get?_eq_none_of_ge st.file b' (by omega),
            get?_eq_none_of_ge fl b' (by omega)]

/-- The `flush_all` loop over a snapshot of distinct cached entries:
it succeeds, is a `StepOK` transition, and leaves every entry whose key
was covered clean; with the full cache as snapshot, everything is clean. -/
theorem flushGo_spec : ∀ c st, Inv st →
    (c.map Prod.fst).Nodup →
    (∀ e ∈ c, lookupCache st.cache e.1 = some e.2) →
    (∀ e ∈ st.cache, (∀ e' ∈ c, e'.1 ≠ e.1) → e.2.dirty = false) →
    ∃ st', flushGo c st = some st' ∧ StepOK st st'
      ∧ ∀ e ∈ st'.cache, e.2.dirty = false := by
  intro c
  induction c with
  | nil =>
    intro st hInv hndp hc hrest
    refine ⟨st, rfl, StepOK_refl st hInv, ?_⟩
    intro e he
    exact hrest e he (fun e' he' => absurd he' (List.not_mem_nil e'))
  | cons p t ih =>
    obtain ⟨b, nd⟩ := p
    intro st hInv hndp hc hrest
    rw [List.map_cons, List.nodup_cons] at hndp
    have hlk : lookupCache st.cache b = some nd := hc (b, nd) (List.mem_cons_self _ _)
    obtain ⟨hg, -⟩ := hInv.2.2.2.2.2.2.2.2.1 (b, nd) (lookupCache_mem _ _ _ hlk)
    have hbid : nd.block_id = b := hg.1
    have hwf : nd.wf64 := hg.2.2.2
    unfold flushGo
    by_cases hd : nd.dirty = true
    · rw [if_pos hd]
      have hfl : nodeWrite st.file nd = some (writeBlock st.file b (nodeBytes nd)) := by
        unfold nodeWrite
        rw [(toBytes_readNode nd hwf).1, hbid]
        rfl
      rw [hfl]
      simp only [Option.some_bind]
      have hstep2 : StepOK st { st with file := writeBlock st.file b (nodeBytes nd), cache := replaceCache st.cache b { nd with dirty := false } } :=
        flush_one_StepOK st b nd hInv hlk _ rfl
      have hc' : ∀ e ∈ t, lookupCache (replaceCache st.cache b { nd with dirty := false }) e.1 = some e.2 := by
        intro e he
        have hne : e.1 ≠ b := by
          intro heq
          exact hndp.1 (heq ▸ List.mem_map.mpr ⟨e, he, rfl⟩)
        rw [lookupCache_replace_ne st.cache b _ e.1 hne]
        exact hc e (List.mem_cons_of_mem _ he)
      have hrest' : ∀ e ∈ replaceCache st.cache b { nd with dirty := false },
          (∀ e' ∈ t, e'.1 ≠ e.1) → e.2.dirty = false := by
        intro e he hnot
        rcases mem_replaceCache st.cache b _ e he with he2 | ⟨he2, hne⟩
        · rw [he2]
        · refine hrest e he2 ?_
          intro e' he'
          rcases List.mem_cons.mp he' with he' | he'
          · rw [he']
            exact fun h => hne h.symm
          · exact hnot e' he'
      obtain ⟨st', hst', hstep', hclean'⟩ := ih _ hstep2.1 hndp.2 hc' hrest'
      exact ⟨st', hst', StepOK_trans _ _ _ hstep2 hstep', hclean'⟩
    · rw [if_neg hd]
      have hrest' : ∀ e ∈ st.cache, (∀ e' ∈ t, e'.1 ≠ e.1) → e.2.dirty = false := by
        intro e he hnot
        by_cases heb : e.1 = b
        · have h5 := hInv.2.2.2.2.1
          have := lookupCache_of_mem st.cache e h5 he
          rw [heb, hlk] at this
          have hnde : e.2 = nd := (Option.some.inj this).symm
          rw [hnde]
          exact Bool.not_eq_true nd.dirty ▸ hd
        · refine hrest e he ?_
          intro e' he'
          rcases List.mem_cons.mp he' with he' | he'
          · rw [he']
            exact fun h => heb h.symm
          · exact hnot e' he'
      have hc' : ∀ e ∈ t, lookupCache st.cache e.1 = some e.2 :=
        fun e he => hc e (List.mem_cons_of_mem _ he)
      exact ih st hInv hndp.2 hc' hrest'

/-- `NodeCache.flush_all` on a consistent state: succeeds, preserves the
merged view and header fields, and leaves no dirty page. -/
theorem flushAll_spec (st : St) (hInv : Inv st) :
    ∃ st', flushAll st = some st' ∧ StepOK st st'
      ∧ ∀ e ∈ st'.cache, e.2.dirty = false := by
  unfold flushAll
  refine flushGo_spec st.cache st hInv hInv.2.2.2.2.1 ?_ ?_
  · intro e he
    exact lookupCache_of_mem st.cache e hInv.2.2.2.2.1 he
  · intro e he hnot
    exact absurd rfl (hnot e he)

theorem readU64_skip_len (l rest : List Nat) (j : Nat) :
    readU64 (l ++ rest) (l.length + j) = readU64 rest j := by
  unfold readU64
  rw [drop_append_off]

theorem headerBytes_length (r n : Nat) : (headerBytes r n).length = BLOCK_SIZE := by
  unfold headerBytes
  simp only [List.length_append, beBytes_length, List.length_replicate]
  decide

theorem headerBytes_take8 (r n : Nat) : (headerBytes r n).take 8 = MAGIC := by
  unfold headerBytes
  rw [List.append_assoc, List.append_assoc]
  exact List.take_left MAGIC _

theorem headerBytes_root (r n : Nat) (hr : r < 2 ^ 64) :
    readU64 (headerBytes r n) 8 = r := by
  unfold headerBytes
  rw [List.append_assoc, List.append_assoc]
  exact (readU64_skip_len MAGIC _ 0).trans (readU64_head r _ hr)

theorem headerBytes_next (r n : Nat) (hn : n < 2 ^ 64) :
    readU64 (headerBytes r n) 16 = n := by
  unfold headerBytes
  rw [List.append_assoc, List.append_assoc]
  exact (readU64_skip_len MAGIC _ 8).trans
    ((readU64_skip8 r _ 0).trans (readU64_head n _ hn))

theorem writeBlock_zero_get (f : List (List Nat)) (d : List Nat) (b : Nat) (hb : 1 ≤ b) :
    (writeBlock f 0 d).get? b = f.get? b := by
  unfold writeBlock
  by_cases h : 0 < f.length
  · rw [if_pos h]
    exact get?_set_ne f 0 d b (by omega)
  · rw [if_neg h]
    have hf : f = [] := List.eq_nil_of_length_eq_zero (by omega)
    rw [hf]
    rw [get?_eq_none_of_ge ([] ++ List.replicate (0 - List.length ([] : List (List Nat))) (List.replicate BLOCK_SIZE 0) ++ [d]) b (by simp; omega)]
    rfl

/-- With every cached page clean, the consistency invariant makes every
block below the frontier well-formed on disk. -/
theorem Inv_allClean_fileOK (st : St) (hInv : Inv st)
    (hcl : ∀ e ∈ st.cache, e.2.dirty = false)
    (b : Nat) (hb1 : 1 ≤ b) (hbn : b < st.next) : fileNodeOK st b := by
  cases hlk : lookupCache st.cache b with
  | none => exact hInv.2.2.2.2.2.2.2.2.2.1 b hbn hb1 hlk
  | some nd =>
    have hmem := lookupCache_mem _ _ _ hlk
    obtain ⟨hg, hcf⟩ := hInv.2.2.2.2.2.2.2.2.1 (b, nd) hmem
    have hdf := hcf (hcl (b, nd) hmem)
    unfold fileDecodes at hdf
    unfold fileNodeOK
    cases hgg : st.file.get? b with
    | none => rw [hgg] at hdf; exact absurd hdf id
    | some data =>
      rw [hgg] at hdf
      refine ⟨hdf.1, ?_⟩
      rw [hdf.2]
      exact ⟨hg.1, hg.2.1, hg.2.2.1, (wf64_strip nd).mpr hg.2.2.2⟩

/-- With every cached page clean, the merged view is just the decoded
file. -/
theorem view_file_of_clean (st : St) (hInv : Inv st)
    (hcl : ∀ e ∈ st.cache, e.2.dirty = false) (b : Nat) :
    view st b = (st.file.get? b).map readNode := by
  cases hlk : lookupCache st.cache b with
  | none => exact view_of_lookup_none st b hlk
  | some nd =>
    rw [view_of_lookup_some st b nd hlk]
    have hmem := lookupCache_mem _ _ _ hlk
    have hdf := (hInv.2.2.2.2.2.2.2.2.1 (b, nd) hmem).2 (hcl (b, nd) hmem)
    unfold fileDecodes at hdf
    cases hg : st.file.get? b with
    | none => rw [hg] at hdf; exact absurd hdf id
    | some data =>
      rw [hg] at hdf
      show some ({ nd with dirty := false } : Node) = some (readNode data)
      rw [hdf.2]

/-- `close` on a consistent state succeeds up to reopening: the reopened
tree has the same header fields and the same merged view of every node
block as the tree before the close. -/
theorem close_reopen_spec (st stC : St) (hInv : Inv st) (hC : close st = some stC) :
    ∃ stR, reopen stC.file = some stR ∧ Inv stR ∧ stR.root = st.root
      ∧ stR.next = st.next ∧ ∀ b, 1 ≤ b → view stR b = view st b := by
  unfold close at hC
  rw [Option.bind_eq_some] at hC
  obtain ⟨stF0, hF, hH⟩ := hC
  obtain ⟨stF0, hFa, stepF, cleanF⟩ := flushAll_spec st hInv
  rw [hFa] at hF
  cases hF
  obtain ⟨hInvF, hrootF, hnextF, hviewF⟩ := stepF
  unfold headerWrite at hH
  rw [hrootF, hnextF, if_pos (And.intro hInv.2.1 hInv.2.2.1)] at hH
  cases hH
  have hget0 : (writeBlock stF0.file 0 (headerBytes st.root st.next)).get? 0
      = some (headerBytes st.root st.next) := writeBlock_get_self stF0.file 0 _
  have hgetb : ∀ b, 1 ≤ b →
      (writeBlock stF0.file 0 (headerBytes st.root st.next)).get? b = stF0.file.get? b :=
    fun b hb => writeBlock_zero_get stF0.file _ b hb
  refine ⟨{ file := writeBlock stF0.file 0 (headerBytes st.root st.next), cache := [],
            order := [], root := st.root, next := st.next }, ?_, ?_, rfl, rfl, ?_⟩
  · unfold reopen
    show (match (writeBlock stF0.file 0 (headerBytes st.root st.next)).get? 0 with
      | none => none
      | some data =>
        if data.length = BLOCK_SIZE ∧ data.take 8 = MAGIC then
          some ({ file := writeBlock stF0.file 0 (headerBytes st.root st.next), cache := [],
                  order := [], root := readU64 data 8, next := readU64 data 16 } : St)
        else none) = _
    rw [hget0]
    show (if (headerBytes st.root st.next).length = BLOCK_SIZE ∧ (headerBytes st.root st.next).take 8 = MAGIC then
        some ({ file := writeBlock stF0.file 0 (headerBytes st.root st.next), cache := [],
                order := [], root := readU64 (headerBytes st.root st.next) 8,
                next := readU64 (headerBytes st.root st.next) 16 } : St)
      else none) = _
    rw [if_pos (And.intro (headerBytes_length st.root st.next) (headerBytes_take8 st.root st.next))]
    rw [headerBytes_root st.root st.next hInv.2.1, headerBytes_next st.root st.next hInv.2.2.1]
  · refine ⟨hInv.1, hInv.2.1, hInv.2.2.1, hInv.2.2.2.1, List.nodup_nil, List.nodup_nil,
      ?_, ?_, ?_, ?_, ?_⟩
    · intro x hx
      exact absurd hx (List.not_mem_nil x)
    · intro x hx
      simp at hx
    · intro e he
      exact absurd he (List.not_mem_nil e)
    · intro b hb hb1 hlk
      have hok : fileNodeOK stF0 b := by
        refine Inv_allClean_fileOK stF0 hInvF cleanF b hb1 ?_
        rw [hnextF]
        exact hb
      refine fileNodeOK_congr stF0 _ b ?_ ?_ hok
      · exact hgetb b hb1
      · show st.next = stF0.next
        rw [hnextF]
    · show (writeBlock stF0.file 0 (headerBytes st.root st.next)).length ≤ st.next
      rw [writeBlock_length]
      have h11F := hInvF.2.2.2.2.2.2.2.2.2.2
      have h1 := hInv.1
      rw [hnextF] at h11F
      omega
  · intro b hb
    have hv : view { file := writeBlock stF0.file 0 (headerBytes st.root st.next), cache := [], order := [], root := st.root, next := st.next } b = ((writeBlock stF0.file 0 (headerBytes st.root st.next)).get? b).map readNode :=
      view_of_lookup_none _ b rfl
    rw [hv, hgetb b hb, ← view_file_of_clean stF0 hInvF cleanF b]
    exact hviewF b hb

/-- C7: for every consistent tree state (the cache/file consistency
invariant `Inv` holds of every state the program builds by inserts),
closing the tree — flushing all dirty pages and writing the header —
and reopening the resulting file yields a tree on which `search`
returns the same result for every key, and `traverse` emits the same
sequence of pairs, as before the close. -/
theorem C7_close_reopen_preserves (st stC stR : St) (hInv : Inv st)
    (hC : close st = some stC) (hR : reopen stC.file = some stR) :
    (∀ fuel k, (search fuel stR k).map Prod.fst = (search fuel st k).map Prod.fst)
    ∧ ∀ fuel, (traverse fuel stR).map Prod.fst = (traverse fuel st).map Prod.fst := by
  obtain ⟨stR', hR', hInvR, hrootR, hnextR, hviewR⟩ := close_reopen_spec st stC hInv hC
  rw [hR'] at hR
  obtain rfl := Option.some.inj hR
  constructor
  · intro fuel k
    unfold search
    rw [hrootR]
    by_cases hr0 : st.root = 0
    · rw [if_pos hr0, if_pos hr0]
      rfl
    · rw [if_neg hr0, if_neg hr0]
      have hr1 : 1 ≤ st.root := by
        rcases hInv.2.2.2.1 with h | h
        · exact absurd h hr0
        · exact h.1
      rw [(searchNode_pure fuel _ st.root k hInvR hr1).1,
        (searchNode_pure fuel st st.root k hInv hr1).1]
      exact pureSearch_congr fuel _ (view st) st.root k hviewR hr1
  · intro fuel
    unfold traverse
    rw [hrootR]
    by_cases hr0 : st.root = 0
    · rw [if_pos hr0, if_pos hr0]
      rfl
    · rw [if_neg hr0, if_neg hr0]
      have hr1 : 1 ≤ st.root := by
        rcases hInv.2.2.2.1 with h | h
        · exact absurd h hr0
        · exact h.1
      rw [(travNode_pure fuel _ st.root hInvR hr1).1,
        (travNode_pure fuel st st.root hInv hr1).1]
      exact pureTrav_congr fuel _ (view st) hviewR st.root hr1

theorem C7_close_reopen_witness :
    Inv c7St ∧ close c7St = some c7Closed ∧ reopen c7Closed.file = some c7Reopened
      ∧ (search 3 c7Reopened 5).map Prod.fst = (search 3 c7St 5).map Prod.fst
      ∧ (traverse 3 c7Reopened).map Prod.fst = (traverse 3 c7St).map Prod.fst :=
  ⟨by decide, by rfl, by rfl,
   (C7_close_reopen_preserves c7St c7Closed c7Reopened (by decide) (by rfl) (by rfl)).1 3 5,
   (C7_close_reopen_preserves c7St c7Closed c7Reopened (by decide) (by rfl) (by rfl)).2 3⟩

/-! ### Allocation tightness (C6) -/

theorem getD_set_self (l : List Nat) (i v : Nat) (h : i < l.length) :
    (l.set i v).getD i 0 = v := by
  unfold List.getD
  rw [get?_set_self l i v h]
  rfl

theorem getD_set_ne (l : List Nat) (i v j : Nat) (h : j ≠ i) :
    (l.set i v).getD j 0 = l.getD j 0 := by
  unfold List.getD
  rw [get?_set_ne l i v j h]

theorem mem_of_set (l : List Nat) (i v a : Nat) (h : a ∈ l.set i v) :
    a ∈ l ∨ a = v :=
  List.mem_or_eq_of_mem_set h

theorem getD_mem_or_zero (l : List Nat) (i : Nat) :
    l.getD i 0 ∈ l ∨ l.getD i 0 = 0 := by
  unfold List.getD
  cases hg : l.get? i with
  | none => exact Or.inr rfl
  | some x =>
    left
    show x ∈ l
    exact List.get?_mem hg

theorem childSlots_mem_children (nd : Node) (c : Nat)
    (h : c ∈ childSlots nd) (hc : c ≠ 0) : c ∈ nd.children := by
  unfold childSlots at h
  rw [List.mem_map] at h
  obtain ⟨i, -, hi⟩ := h
  rcases getD_mem_or_zero nd.children i with hm | hz
  · rw [← hi]
    exact hm
  · rw [← hi] at hc
    exact absurd hz hc

theorem Reach_pos (vw : Nat → Option Node) (root c : Nat)
    (h : Reach vw root c) : 1 ≤ c := by
  induction h with
  | base h0 => exact Nat.one_le_iff_ne_zero.mpr h0
  | step b c nd hr hv hm hc ih => exact Nat.one_le_iff_ne_zero.mpr hc

theorem Reach_congr (vw1 vw2 : Nat → Option Node) (root c : Nat)
    (hv : ∀ b, 1 ≤ b → vw1 b = vw2 b)
    (h : Reach vw1 root c) : Reach vw2 root c := by
  induction h with
  | base h0 => exact Reach.base h0
  | step b c nd hr hvb hm hc ih =>
    exact Reach.step b c nd ih (by rw [← hv b (Reach_pos vw1 root b hr)]; exact hvb) hm hc

theorem Reach_lt (vw : Nat → Option Node) (root next c : Nat)
    (hroot : root < next)
    (hcb : ∀ b nd, 1 ≤ b → vw b = some nd → ∀ x ∈ nd.children, x < next)
    (h : Reach vw root c) : c < next := by
  induction h with
  | base h0 => exact hroot
  | step b c nd hr hvb hm hc ih =>
    exact hcb b nd (Reach_pos vw root b hr) hvb c (childSlots_mem_children nd c hm hc)

theorem RInv_of_StepOK (st st' : St) (hstep : StepOK st st') (hR : RInv st) :
    RInv st' := by
  obtain ⟨hInv', hroot, hnext, hview⟩ := hstep
  refine ⟨?_, ?_, ?_, ?_, ?_⟩
  · intro b hb1 hbn
    rw [hroot]
    refine Reach_congr (view st) (view st') st.root b (fun b' hb' => (hview b' hb').symm) ?_
    refine hR.1 b hb1 ?_
    rw [← hnext]
    exact hbn
  · intro b nd hb1 hv
    rw [hnext]
    rw [hview b hb1] at hv
    exact hR.2.1 b nd hb1 hv
  · intro b nd hb1 hv
    rw [hview b hb1] at hv
    exact hR.2.2.1 b nd hb1 hv
  · intro b nd hb1 hv
    rw [hview b hb1] at hv
    exact hR.2.2.2.1 b nd hb1 hv
  · obtain ⟨depth, hd0, hde⟩ := hR.2.2.2.2
    refine ⟨depth, by rw [hroot]; exact hd0, ?_⟩
    intro b nd hb1 hv c hc hc0
    rw [hview b hb1] at hv
    exact hde b nd hb1 hv c hc hc0

/-- `evictGo` never reads or writes the header fields. -/
theorem evictGo_next : ∀ f st n, evictGo f { st with next := n }
    = (evictGo f st).map fun s => { s with next := n } := by
  intro f
  induction f with
  | zero =>
    intro st n
    show (if 3 < st.cache.length then none else some ({ st with next := n } : St))
      = (if 3 < st.cache.length then none else some st).map fun s => { s with next := n }
    by_cases hc : 3 < st.cache.length
    · rw [if_pos hc, if_pos hc]
      rfl
    · rw [if_neg hc, if_neg hc]
      rfl
  | succ f ih =>
    intro st n
    show (if 3 < st.cache.length then
        (st.order.getLast?).bind fun victim =>
        (lookupCache st.cache victim).bind fun nd =>
        if nd.dirty then
          (nodeWrite st.file nd).bind fun fl =>
            evictGo f { st with order := st.order.dropLast, cache := eraseCache st.cache victim, file := fl, next := n }
        else evictGo f { st with order := st.order.dropLast, cache := eraseCache st.cache victim, next := n }
      else some { st with next := n })
      = (if 3 < st.cache.length then
        (st.order.getLast?).bind fun victim =>
        (lookupCache st.cache victim).bind fun nd =>
        if nd.dirty then
          (nodeWrite st.file nd).bind fun fl =>
            evictGo f { st with order := st.order.dropLast, cache := eraseCache st.cache victim, file := fl }
        else evictGo f { st with order := st.order.dropLast, cache := eraseCache st.cache victim }
      else some st).map fun s => { s with next := n }
    by_cases hc : 3 < st.cache.length
    · rw [if_pos hc, if_pos hc]
      cases hv : st.order.getLast? with
      | none => rfl
      | some v =>
        simp only [Option.some_bind]
        cases hnd : lookupCache st.cache v with
        | none => rfl
        | some nd =>
          simp only [Option.some_bind]
          by_cases hd : nd.dirty = true
          · rw [if_pos hd, if_pos hd]
            cases hw : nodeWrite st.file nd with
            | none => rfl
            | some fl =>
              simp only [Option.some_bind]
              exact ih { st with order := st.order.dropLast, cache := eraseCache st.cache v, file := fl } n
          · rw [if_neg hd, if_neg hd]
            exact ih { st with order := st.order.dropLast, cache := eraseCache st.cache v } n
    · rw [if_neg hc, if_neg hc]
      rfl

theorem fresh_wf64 (b p : Nat) (hb : b < 2 ^ 64) (hp : p < 2 ^ 64) :
    (Node.fresh b p).wf64 := by
  refine ⟨hb, hp, by show (0 : Nat) < 2 ^ 64; decide, by simp [Node.fresh], by simp [Node.fresh], by simp [Node.fresh],
    ?_, ?_, ?_⟩ <;>
  · intro x hx
    rw [List.eq_of_mem_replicate hx]
    decide

theorem fileNodeOK_next_mono (st st' : St) (b : Nat) (hf : st'.file = st.file)
    (hn : st.next ≤ st'.next) (h : fileNodeOK st b) : fileNodeOK st' b := by
  unfold fileNodeOK at h ⊢
  rw [hf]
  cases hg : st.file.get? b with
  | none => rw [hg] at h; exact h
  | some data =>
    rw [hg] at h
    refine ⟨h.1, h.2.1, h.2.2.1, ?_, h.2.2.2.2⟩
    have := h.2.2.2.1
    omega

/-- Allocation: bumping the frontier and calling `new_node` at the old
frontier succeeds on consistent states, admits the fresh node, and
changes the view only at the new block. -/
theorem newNode_spec (st : St) (pb : Nat) (hInv : Inv st)
    (hn64 : st.next + 1 < 2 ^ 64) (hpb : pb < 2 ^ 64) :
    ∃ st', newNode { st with next := st.next + 1 } st.next pb
        = some (Node.fresh st.next pb, st')
      ∧ Inv st' ∧ st'.root = st.root ∧ st'.next = st.next + 1
      ∧ (∀ b, 1 ≤ b → b ≠ st.next → view st' b = view st b)
      ∧ view st' st.next = some { Node.fresh st.next pb with dirty := false }
      ∧ lookupCache st'.cache st.next = some (Node.fresh st.next pb) := by
  obtain ⟨st0, hev, hstep0, hsub0⟩ : ∃ st0,
      (if 3 ≤ st.cache.length then evictIfNeeded { st with next := st.next + 1 }
        else some ({ st with next := st.next + 1 } : St)) = some { st0 with next := st.next + 1 }
      ∧ StepOK st st0 ∧ ∀ e ∈ st0.cache, e ∈ st.cache := by
    by_cases hcl : 3 ≤ st.cache.length
    · rw [if_pos hcl]
      obtain ⟨st0, h0⟩ := evictGo_total st.order.length st hInv (le_refl _)
      obtain ⟨hstep0, hsub0⟩ := evictGo_StepOK st.order.length st st0 hInv h0
      refine ⟨st0, ?_, hstep0, hsub0⟩
      show evictGo st.order.length { st with next := st.next + 1 } = _
      rw [evictGo_next st.order.length st (st.next + 1), h0]
      rfl
    · rw [if_neg hcl]
      exact ⟨st, rfl, StepOK_refl st hInv, fun e he => he⟩
  obtain ⟨hInv0, hroot0, hnext0, hview0⟩ := hstep0
  obtain ⟨g1, g2, g3, g4, g5, g6, g7, g8, g9, g10, g11⟩ := hInv0
  have hbnot : st.next ∉ st0.cache.map Prod.fst := by
    intro hmem
    rw [List.mem_map] at hmem
    obtain ⟨e, he, he1⟩ := hmem
    have := (g9 e he).1.2.2.1
    omega
  have hlk0 : lookupCache st0.cache st.next = none :=
    (lookupCache_eq_none _ _).mpr hbnot
  have hbnotord : st.next ∉ st0.order := fun hx => hbnot (g7 st.next hx)
  have hwfF : (Node.fresh st.next pb).wf64 := fresh_wf64 st.next pb (by omega) hpb
  have h1n : 1 ≤ st.next := hInv.1
  refine ⟨{ st0 with next := st.next + 1, cache := st0.cache ++ [(st.next, Node.fresh st.next pb)], order := st.next :: st0.order.erase st.next }, ?_, ?_, ?_, rfl, ?_, ?_, ?_⟩
  · unfold newNode
    rw [hev]
    rfl
  · refine ⟨by show 1 ≤ st.next + 1; omega, by rw [hroot0]; exact hInv.2.1, hn64, ?_, ?_, ?_, ?_, ?_, ?_, ?_, ?_⟩
    · rw [hroot0]
      rcases hInv.2.2.2.1 with h | h
      · exact Or.inl h
      · refine Or.inr ⟨h.1, ?_⟩
        show st.root < st.next + 1
        have := h.2
        omega
    · show ((st0.cache ++ [(st.next, Node.fresh st.next pb)]).map Prod.fst).Nodup
      rw [mapfst_append_one, List.nodup_append]
      exact ⟨g5, List.nodup_singleton _,
        fun x hx hx2 => hbnot (by rw [List.mem_singleton] at hx2; rw [← hx2]; exact hx)⟩
    · show (st.next :: st0.order.erase st.next).Nodup
      rw [List.nodup_cons]
      exact ⟨fun hx => (g6.mem_erase_iff.mp hx).1 rfl, g6.erase _⟩
    · intro x hx
      rw [List.mem_cons] at hx
      rw [mapfst_append_one, List.mem_append]
      rcases hx with hx | hx
      · exact Or.inr (by rw [hx]; simp)
      · exact Or.inl (g7 x (List.mem_of_mem_erase hx))
    · intro x hx
      rw [mapfst_append_one, List.mem_append] at hx
      rw [List.mem_cons]
      rcases hx with hx | hx
      · refine Or.inr (g6.mem_erase_iff.mpr ⟨?_, g8 x hx⟩)
        intro hxb
        rw [hxb] at hx
        exact hbnot hx
      · rw [List.mem_singleton] at hx
        exact Or.inl hx
    · intro e he
      rw [List.mem_append] at he
      rcases he with he | he
      · obtain ⟨hg, hcl⟩ := g9 e he
        refine ⟨⟨hg.1, hg.2.1, ?_, hg.2.2.2⟩, fun hdf => hcl hdf⟩
        show e.1 < st.next + 1
        have := hg.2.2.1
        omega
      · rw [List.mem_singleton] at he
        rw [he]
        refine ⟨⟨rfl, h1n, by show st.next < st.next + 1; omega, hwfF⟩, fun hdf => ?_⟩
        exact Bool.noConfusion hdf
    · intro b' hb' hb1' hlk'
      by_cases hbb : b' = st.next
      · rw [hbb] at hlk'
        replace hlk' : lookupCache (st0.cache ++ [(st.next, Node.fresh st.next pb)]) st.next = none := hlk'
        rw [lookupCache_append_self st0.cache _ _ hlk0] at hlk'
        exact Option.noConfusion hlk'
      · replace hlk' : lookupCache (st0.cache ++ [(st.next, Node.fresh st.next pb)]) b' = none := hlk'
        rw [lookupCache_append_ne st0.cache _ _ b' hbb] at hlk'
        have hb'2 : b' < st.next + 1 := hb'
        have hok := g10 b' (by omega) hb1' hlk'
        exact fileNodeOK_next_mono st0 _ b' rfl (by show st0.next ≤ st.next + 1; omega) hok
    · show st0.file.length ≤ st.next + 1
      omega
  · show st0.root = st.root
    exact hroot0
  · intro b hb1 hbne
    have hlke : lookupCache (st0.cache ++ [(st.next, Node.fresh st.next pb)]) b
        = lookupCache st0.cache b := lookupCache_append_ne st0.cache _ _ b hbne
    rw [← hview0 b hb1]
    cases hlk : lookupCache st0.cache b with
    | some m =>
      rw [view_of_lookup_some st0 b m hlk,
        view_of_lookup_some { st0 with next := st.next + 1, cache := st0.cache ++ [(st.next, Node.fresh st.next pb)], order := st.next :: st0.order.erase st.next } b m (hlke.trans hlk)]
    | none =>
      rw [view_of_lookup_none st0 b hlk,
        view_of_lookup_none { st0 with next := st.next + 1, cache := st0.cache ++ [(st.next, Node.fresh st.next pb)], order := st.next :: st0.order.erase st.next } b (hlke.trans hlk)]
  · exact view_of_lookup_some _ st.next _ (lookupCache_append_self st0.cache _ _ hlk0)
  · exact lookupCache_append_self st0.cache _ _ hlk0

/-- Attribute assignment through a resident reference: `poke` swaps the
cached entry and changes the view only at that block. -/
theorem poke_spec (st : St) (b : Nat) (old nd : Node)
    (hInv : Inv st) (hlk : lookupCache st.cache b = some old)
    (hbid : nd.block_id = b) (hwf : nd.wf64) (hd : nd.dirty = true) :
    ∃ st', poke st b nd = some st'
      ∧ Inv st' ∧ st'.root = st.root ∧ st'.next = st.next
      ∧ st'.file = st.file
      ∧ (∀ b', 1 ≤ b' → b' ≠ b → view st' b' = view st b')
      ∧ view st' b = some { nd with dirty := false }
      ∧ lookupCache st'.cache b = some nd := by
  obtain ⟨h1, h2, h3, h4, h5, h6, h7, h8, h9, h10, h11⟩ := hInv
  obtain ⟨hgO, -⟩ := h9 (b, old) (lookupCache_mem _ _ _ hlk)
  refine ⟨{ st with cache := replaceCache st.cache b nd }, ?_, ?_, rfl, rfl, rfl, ?_, ?_, ?_⟩
  · unfold poke
    rw [hlk]
  · refine ⟨h1, h2, h3, h4, ?_, h6, ?_, ?_, ?_, ?_, h11⟩
    · show ((replaceCache st.cache b nd).map Prod.fst).Nodup
      rw [mapfst_replaceCache]
      exact h5
    · intro x hx
      rw [mapfst_replaceCache]
      exact h7 x hx
    · intro x hx
      rw [mapfst_replaceCache] at hx
      exact h8 x hx
    · intro e he
      rcases mem_replaceCache st.cache b nd e he with he2 | ⟨he2, hne⟩
      · rw [he2]
        refine ⟨⟨hbid, hgO.2.1, hgO.2.2.1, hwf⟩, fun hdf => ?_⟩
        exact Bool.noConfusion (hd.symm.trans hdf)
      · obtain ⟨hg, hcl⟩ := h9 e he2
        exact ⟨hg, fun hdf => hcl hdf⟩
    · intro b' hb' hb1' hlk'
      by_cases hbb : b' = b
      · rw [hbb] at hlk'
        replace hlk' : lookupCache (replaceCache st.cache b nd) b = none := hlk'
        rw [lookupCache_replace_self st.cache b nd old hlk] at hlk'
        exact Option.noConfusion hlk'
      · replace hlk' : lookupCache (replaceCache st.cache b nd) b' = none := hlk'
        rw [lookupCache_replace_ne st.cache b nd b' hbb] at hlk'
        exact h10 b' hb' hb1' hlk'
  · intro b' hb1' hbb
    have hlke : lookupCache (replaceCache st.cache b nd) b' = lookupCache st.cache b' :=
      lookupCache_replace_ne st.cache b nd b' hbb
    cases hlk' : lookupCache st.cache b' with
    | some m =>
      rw [view_of_lookup_some st b' m hlk',
        view_of_lookup_some { st with cache := replaceCache st.cache b nd } b' m (hlke.trans hlk')]
    | none =>
      rw [view_of_lookup_none st b' hlk',
        view_of_lookup_none { st with cache := replaceCache st.cache b nd } b' (hlke.trans hlk')]
  · exact view_of_lookup_some _ b nd (lookupCache_replace_self st.cache b nd old hlk)
  · exact lookupCache_replace_self st.cache b nd old hlk

theorem foldl_preserve {α β : Type} (P : α → Prop) (f : α → β → α) (l : List β)
    (H : ∀ a b, P a → P (f a b)) : ∀ a, P a → P (l.foldl f a) := by
  induction l with
  | nil => intro a ha; exact ha
  | cons x t ih => intro a ha; exact ih (f a x) (H a x ha)

theorem rscan_le (nd : Node) (k : Nat) : ∀ n, rscan nd k n ≤ n := by
  intro n
  induction n with
  | zero => exact Nat.le_refl 0
  | succ n ih =>
    unfold rscan
    by_cases h : k < nd.keys.getD n 0
    · rw [if_pos h]
      omega
    · rw [if_neg h]

/-- The sibling-copy loop of `_split_child`: positions `0..n-1` receive
`src[t]..src[t+n-1]`; everything else is untouched. -/
theorem foldl_copy_getD (src l0 : List Nat) (t : Nat) :
    ∀ n, n ≤ l0.length → ∀ x,
      ((List.range n).foldl (fun cs j => cs.set j (src.getD (j + t) 0)) l0).getD x 0
        = if x < n then src.getD (x + t) 0 else l0.getD x 0 := by
  intro n
  induction n with
  | zero =>
    intro hn x
    rw [if_neg (by omega)]
    rfl
  | succ n ih =>
    intro hn x
    have hL : ((List.range n).foldl (fun cs j => cs.set j (src.getD (j + t) 0)) l0).length
        = l0.length :=
      foldl_preserve (fun a => a.length = l0.length) _ _
        (fun a j ha => by simp only [List.length_set]; exact ha) l0 rfl
    rw [List.range_succ, List.foldl_append]
    simp only [List.foldl_cons, List.foldl_nil]
    by_cases hx : x = n
    · rw [hx, getD_set_self _ _ _ (by rw [hL]; omega), if_pos (by omega)]
    · rw [getD_set_ne _ _ _ _ hx, ih (by omega) x]
      by_cases hx2 : x < n
      · rw [if_pos hx2, if_pos (by omega)]
      · rw [if_neg hx2, if_neg (by omega)]

/-- The slot-zeroing loops of `_split_child` leave positions below the
base untouched. -/
theorem foldl_zero_getD_lt (l0 : List Nat) (base : Nat) :
    ∀ n x, x < base →
      ((List.range n).foldl (fun cs j => cs.set (base + j) 0) l0).getD x 0 = l0.getD x 0 := by
  intro n
  induction n with
  | zero => intro x hx; rfl
  | succ n ih =>
    intro x hx
    rw [List.range_succ, List.foldl_append]
    simp only [List.foldl_cons, List.foldl_nil]
    rw [getD_set_ne _ _ _ _ (by omega)]
    exact ih x hx

/-- The right-shift loops of `_split_child`: after `n` iterations the
positions at or below `num + 1 - n` are untouched and position `j + 1`
holds the original value of position `j` for `j ≥ num + 1 - n`. -/
theorem foldl_shift_getD (l0 : List Nat) (num : Nat) (hlen : num + 2 ≤ l0.length) :
    ∀ n, n ≤ num + 1 →
      (∀ x, x ≤ num + 1 - n →
        ((List.range n).foldl (fun cs s => cs.set (num - s + 1) (cs.getD (num - s) 0)) l0).getD x 0
          = l0.getD x 0)
      ∧ (∀ j, num + 1 - n ≤ j → j ≤ num →
        ((List.range n).foldl (fun cs s => cs.set (num - s + 1) (cs.getD (num - s) 0)) l0).getD (j + 1) 0
          = l0.getD j 0) := by
  intro n
  induction n with
  | zero =>
    intro hn
    exact ⟨fun x hx => rfl, fun j hj1 hj2 => absurd hj1 (by omega)⟩
  | succ n ih =>
    intro hn
    obtain ⟨ih1, ih2⟩ := ih (by omega)
    have hL : ((List.range n).foldl (fun cs s => cs.set (num - s + 1) (cs.getD (num - s) 0)) l0).length
        = l0.length :=
      foldl_preserve (fun a => a.length = l0.length) _ _
        (fun a s ha => by simp only [List.length_set]; exact ha) l0 rfl
    constructor
    · intro x hx
      rw [List.range_succ, List.foldl_append]
      simp only [List.foldl_cons, List.foldl_nil]
      rw [getD_set_ne _ _ _ _ (by omega)]
      exact ih1 x (by omega)
    · intro j hj1 hj2
      rw [List.range_succ, List.foldl_append]
      simp only [List.foldl_cons, List.foldl_nil]
      by_cases hje : j = num - n
      · have hj1' : j + 1 = num - n + 1 := by omega
        rw [hj1', getD_set_self _ _ _ (by rw [hL]; omega)]
        rw [ih1 (num - n) (by omega)]
        rw [hje]
      · rw [getD_set_ne _ _ _ _ (by omega)]
        exact ih2 j (by omega) hj2

theorem view_good (st : St) (b : Nat) (nd : Node) (hInv : Inv st) (hb : 1 ≤ b)
    (h : view st b = some nd) : nd.block_id = b ∧ b < st.next ∧ nd.wf64 := by
  obtain ⟨h1, h2, h3, h4, h5, h6, h7, h8, h9, h10, h11⟩ := hInv
  cases hlk : lookupCache st.cache b with
  | some m =>
    rw [view_of_lookup_some st b m hlk] at h
    obtain ⟨hg, -⟩ := h9 (b, m) (lookupCache_mem _ _ _ hlk)
    cases h
    exact ⟨hg.1, hg.2.2.1, (wf64_strip m).mpr hg.2.2.2⟩
  | none =>
    rw [view_of_lookup_none st b hlk] at h
    rw [Option.map_eq_some'] at h
    obtain ⟨data, hdata, hread⟩ := h
    have hbn : b < st.next := by
      have : b < st.file.length := by
        by_contra hge
        rw [get?_eq_none_of_ge st.file b (by omega)] at hdata
        exact Option.noConfusion hdata
      omega
    have hok := h10 b hbn hb hlk
    unfold fileNodeOK at hok
    rw [hdata] at hok
    rw [← hread]
    exact ⟨hok.2.1, hbn, hok.2.2.2.2⟩

theorem mem_childSlots_iff (nd : Node) (c : Nat) :
    c ∈ childSlots nd ↔ ∃ x, x ≤ nd.num_keys ∧ nd.children.getD x 0 = c := by
  unfold childSlots
  rw [List.mem_map]
  constructor
  · intro ⟨x, hx, he⟩
    exact ⟨x, by rw [List.mem_range] at hx; omega, he⟩
  · intro ⟨x, hx, he⟩
    exact ⟨x, by rw [List.mem_range]; omega, he⟩

theorem childSlots_getD (nd : Node) (x : Nat) (hx : x ≤ nd.num_keys) :
    nd.children.getD x 0 ∈ childSlots nd :=
  (mem_childSlots_iff nd _).mpr ⟨x, hx, rfl⟩

/-- All the array-update loops of `_split_child` keep the array length
and keep every entry below `2^64` as long as the written values are. -/
theorem foldl_arr_ok {β : Type} (l0 : List Nat) (L : Nat) (js : List β)
    (pos : List Nat → β → Nat) (val : List Nat → β → Nat)
    (h0 : l0.length = L ∧ ∀ x ∈ l0, x < 2 ^ 64)
    (hval : ∀ a j, (a.length = L ∧ ∀ x ∈ a, x < 2 ^ 64) → val a j < 2 ^ 64) :
    (js.foldl (fun a j => a.set (pos a j) (val a j)) l0).length = L
      ∧ ∀ x ∈ js.foldl (fun a j => a.set (pos a j) (val a j)) l0, x < 2 ^ 64 :=
  foldl_preserve (fun a => a.length = L ∧ ∀ x ∈ a, x < 2 ^ 64) _ js
    (fun a j ha => ⟨by simp only [List.length_set]; exact ha.1,
      fun x hx => (mem_of_set _ _ _ x hx).elim (ha.2 x) (fun he => he ▸ hval a j ha)⟩) l0 h0

/-- Same, for membership: every entry of the updated array is an entry
of the original or one of the written values. -/
theorem foldl_arr_mem {β : Type} (l0 : List Nat) (js : List β)
    (pos : List Nat → β → Nat) (val : List Nat → β → Nat) (S : Nat → Prop)
    (hval : ∀ a j, (∀ x ∈ a, x ∈ l0 ∨ S x) → (val a j ∈ l0 ∨ S (val a j))) :
    ∀ x ∈ js.foldl (fun a j => a.set (pos a j) (val a j)) l0, x ∈ l0 ∨ S x :=
  foldl_preserve (fun a => ∀ x ∈ a, x ∈ l0 ∨ S x) _ js
    (fun a j ha x hx => (mem_of_set _ _ _ x hx).elim (ha x) (fun he => he ▸ hval a j ha))
    l0 (fun x hx => Or.inl hx)

/-- `_split_child` is the composition of a read, an allocation and
three write-backs of the three reshaped nodes. -/
theorem splitChild_eq (st : St) (pb i : Nat) :
    splitChild st pb i = (peek st pb).bind fun parent =>
      (cacheGet st (parent.children.getD i 0)).bind fun (oldC, st1) =>
      (newNode { st1 with next := st1.next + 1 } st1.next pb).bind fun (newC0, st3) =>
      (poke st3 (parent.children.getD i 0) (splitOld oldC)).bind fun st4 =>
      (poke st4 pb (splitPar parent i st1.next (splitOldMid oldC))).bind fun st5 =>
      poke st5 st1.next (splitNew oldC newC0) := rfl

theorem all_lt_set (l : List Nat) (i v : Nat) (hl : ∀ x ∈ l, x < 2 ^ 64)
    (hv : v < 2 ^ 64) : ∀ x ∈ l.set i v, x < 2 ^ 64 :=
  fun x hx => (mem_of_set l i v x hx).elim (hl x) (fun he => he ▸ hv)

theorem getD_lt_of_all (l : List Nat) (h : ∀ x ∈ l, x < 2 ^ 64) (j : Nat) :
    l.getD j 0 < 2 ^ 64 := by
  rcases getD_mem_or_zero l j with hm | hz
  · exact h _ hm
  · rw [hz]
    decide

theorem splitOld_num (oldC : Node) : (splitOld oldC).num_keys = T - 1 := rfl

theorem splitOld_bid (oldC : Node) : (splitOld oldC).block_id = oldC.block_id := by
  simp only [splitOld, splitOldMid]
  split <;> rfl

theorem splitOld_dirty (oldC : Node) : (splitOld oldC).dirty = true := rfl

theorem splitOld_children (oldC : Node) :
    (splitOld oldC).children = (splitOldMid oldC).children := rfl

theorem splitOldMid_children_low (oldC : Node) (x : Nat) (hx : x < T) :
    (splitOldMid oldC).children.getD x 0 = oldC.children.getD x 0 := by
  simp only [splitOldMid]
  split
  · rfl
  · exact foldl_zero_getD_lt _ T (MAX_CHILDREN - T) x hx

theorem splitOldMid_children_mem (oldC : Node) :
    ∀ x ∈ (splitOldMid oldC).children, x ∈ oldC.children ∨ x = 0 := by
  simp only [splitOldMid]
  split
  · intro x hx
    exact Or.inl hx
  · intro x hx
    exact foldl_arr_mem oldC.children (List.range (MAX_CHILDREN - T))
      (fun a j => T + j) (fun a j => 0) (fun y => y = 0) (fun a j _ => Or.inr rfl) x hx

theorem splitOldMid_keys_mem (oldC : Node) :
    ∀ x ∈ (splitOldMid oldC).keys, x ∈ oldC.keys ∨ x = 0 := by
  simp only [splitOldMid]
  split <;>
  · intro x hx
    exact foldl_arr_mem oldC.keys (List.range (MAX_KEYS - (T - 1)))
      (fun a j => T - 1 + j) (fun a j => 0) (fun y => y = 0) (fun a j _ => Or.inr rfl) x hx

theorem splitOldMid_values_mem (oldC : Node) :
    ∀ x ∈ (splitOldMid oldC).values, x ∈ oldC.values ∨ x = 0 := by
  simp only [splitOldMid]
  split <;>
  · intro x hx
    exact foldl_arr_mem oldC.values (List.range (MAX_KEYS - (T - 1)))
      (fun a j => T - 1 + j) (fun a j => 0) (fun y => y = 0) (fun a j _ => Or.inr rfl) x hx

theorem splitOld_wf (oldC : Node) (h : oldC.wf64) : (splitOld oldC).wf64 := by
  obtain ⟨hb, hp, hn, hkl, hvl, hcl, hkb, hvb, hcb⟩ := h
  have hklen : (splitOldMid oldC).keys.length = MAX_KEYS := by
    simp only [splitOldMid]
    split <;>
    · exact (foldl_arr_ok oldC.keys MAX_KEYS (List.range (MAX_KEYS - (T - 1)))
        (fun a j => T - 1 + j) (fun a j => 0) ⟨hkl, hkb⟩ (fun a j _ => by show (0 : Nat) < 2 ^ 64; decide)).1
  have hvlen : (splitOldMid oldC).values.length = MAX_KEYS := by
    simp only [splitOldMid]
    split <;>
    · exact (foldl_arr_ok oldC.values MAX_KEYS (List.range (MAX_KEYS - (T - 1)))
        (fun a j => T - 1 + j) (fun a j => 0) ⟨hvl, hvb⟩ (fun a j _ => by show (0 : Nat) < 2 ^ 64; decide)).1
  have hclen : (splitOldMid oldC).children.length = MAX_CHILDREN := by
    simp only [splitOldMid]
    split
    · exact hcl
    · exact (foldl_arr_ok oldC.children MAX_CHILDREN (List.range (MAX_CHILDREN - T))
        (fun a j => T + j) (fun a j => 0) ⟨hcl, hcb⟩ (fun a j _ => by show (0 : Nat) < 2 ^ 64; decide)).1
  refine ⟨?_, ?_, ?_, ?_, ?_, ?_, ?_, ?_, ?_⟩
  · rw [splitOld_bid]
    exact hb
  · show (splitOld oldC).parent_id < 2 ^ 64
    have : (splitOld oldC).parent_id = oldC.parent_id := by
      simp only [splitOld, splitOldMid]
      split <;> rfl
    rw [this]
    exact hp
  · rw [splitOld_num]
    decide
  · show ((splitOldMid oldC).keys.set (T - 1) 0).length = MAX_KEYS
    rw [List.length_set]
    exact hklen
  · show ((splitOldMid oldC).values.set (T - 1) 0).length = MAX_KEYS
    rw [List.length_set]
    exact hvlen
  · rw [splitOld_children]
    exact hclen
  · show ∀ x ∈ (splitOldMid oldC).keys.set (T - 1) 0, x < 2 ^ 64
    refine all_lt_set _ _ _ ?_ (by decide)
    intro x hx
    rcases splitOldMid_keys_mem oldC x hx with h | h
    · exact hkb x h
    · rw [h]; decide
  · show ∀ x ∈ (splitOldMid oldC).values.set (T - 1) 0, x < 2 ^ 64
    refine all_lt_set _ _ _ ?_ (by decide)
    intro x hx
    rcases splitOldMid_values_mem oldC x hx with h | h
    · exact hvb x h
    · rw [h]; decide
  · rw [splitOld_children]
    intro x hx
    rcases splitOldMid_children_mem oldC x hx with h | h
    · exact hcb x h
    · rw [h]; decide

theorem replicate_getD_zero (n i : Nat) : (List.replicate n (0 : Nat)).getD i 0 = 0 :=
  (getD_mem_or_zero _ i).elim (fun h => List.eq_of_mem_replicate h) id

theorem splitNew_num (oldC f : Node) : (splitNew oldC f).num_keys = MAX_KEYS - T := by
  simp only [splitNew]
  split <;> rfl

theorem splitNew_bid (oldC f : Node) : (splitNew oldC f).block_id = f.block_id := by
  simp only [splitNew]
  split <;> rfl

theorem splitNew_parent (oldC f : Node) : (splitNew oldC f).parent_id = f.parent_id := by
  simp only [splitNew]
  split <;> rfl

theorem splitNew_dirty (oldC f : Node) : (splitNew oldC f).dirty = true := rfl

theorem splitNew_children_leaf (oldC f : Node) (hL : oldC.isLeaf = true)
    (hch : f.children = List.replicate MAX_CHILDREN 0) (x : Nat) :
    (splitNew oldC f).children.getD x 0 = 0 := by
  simp only [splitNew]
  rw [if_pos hL]
  show f.children.getD x 0 = 0
  rw [hch]
  exact replicate_getD_zero _ _

theorem splitNew_children_int (oldC f : Node) (hL : ¬ oldC.isLeaf = true)
    (hch : f.children = List.replicate MAX_CHILDREN 0) (x : Nat) :
    (splitNew oldC f).children.getD x 0
      = if x < MAX_KEYS - T + 1 then oldC.children.getD (x + T) 0 else 0 := by
  simp only [splitNew]
  rw [if_neg hL]
  show ((List.range (MAX_KEYS - T + 1)).foldl
      (fun cs j => cs.set j (oldC.children.getD (j + T) 0)) f.children).getD x 0 = _
  rw [hch, foldl_copy_getD oldC.children _ T (MAX_KEYS - T + 1)
    (by rw [List.length_replicate]; decide) x]
  by_cases hx : x < MAX_KEYS - T + 1
  · rw [if_pos hx, if_pos hx]
  · rw [if_neg hx, if_neg hx]
    exact replicate_getD_zero _ _

theorem splitNew_children_mem (oldC f : Node)
    (hch : f.children = List.replicate MAX_CHILDREN 0) :
    ∀ x ∈ (splitNew oldC f).children, x ∈ oldC.children ∨ x = 0 := by
  simp only [splitNew]
  split
  · intro x hx
    right
    replace hx : x ∈ f.children := hx
    rw [hch] at hx
    exact List.eq_of_mem_replicate hx
  · intro x hx
    replace hx : x ∈ (List.range (MAX_KEYS - T + 1)).foldl
        (fun cs j => cs.set j (oldC.children.getD (j + T) 0)) f.children := hx
    have := foldl_arr_mem f.children (List.range (MAX_KEYS - T + 1))
      (fun a j => j) (fun a j => oldC.children.getD (j + T) 0)
      (fun y => y ∈ oldC.children ∨ y = 0)
      (fun a j _ => Or.inr (getD_mem_or_zero _ _)) x hx
    rcases this with h | h
    · right
      rw [hch] at h
      exact List.eq_of_mem_replicate h
    · exact h

theorem splitNew_wf (oldC f : Node) (ho : oldC.wf64) (hf : f.wf64) :
    (splitNew oldC f).wf64 := by
  obtain ⟨hob, hop, hon, hokl, hovl, hocl, hokb, hovb, hocb⟩ := ho
  obtain ⟨hfb, hfp, hfn, hfkl, hfvl, hfcl, hfkb, hfvb, hfcb⟩ := hf
  have hkeys : ((List.range (MAX_KEYS - T)).foldl
      (fun ks j => ks.set j (oldC.keys.getD (j + T) 0)) f.keys).length = MAX_KEYS
      ∧ ∀ x ∈ (List.range (MAX_KEYS - T)).foldl
        (fun ks j => ks.set j (oldC.keys.getD (j + T) 0)) f.keys, x < 2 ^ 64 :=
    foldl_arr_ok f.keys MAX_KEYS _ (fun a j => j) (fun a j => oldC.keys.getD (j + T) 0)
      ⟨hfkl, hfkb⟩ (fun a j _ => getD_lt_of_all _ hokb _)
  have hvals : ((List.range (MAX_KEYS - T)).foldl
      (fun vs j => vs.set j (oldC.values.getD (j + T) 0)) f.values).length = MAX_KEYS
      ∧ ∀ x ∈ (List.range (MAX_KEYS - T)).foldl
        (fun vs j => vs.set j (oldC.values.getD (j + T) 0)) f.values, x < 2 ^ 64 :=
    foldl_arr_ok f.values MAX_KEYS _ (fun a j => j) (fun a j => oldC.values.getD (j + T) 0)
      ⟨hfvl, hfvb⟩ (fun a j _ => getD_lt_of_all _ hovb _)
  simp only [splitNew]
  split
  · exact ⟨hfb, hfp, by show MAX_KEYS - T < 2 ^ 64; decide, hkeys.1, hvals.1, hfcl,
      hkeys.2, hvals.2, hfcb⟩
  · refine ⟨hfb, hfp, by show MAX_KEYS - T < 2 ^ 64; decide, hkeys.1, hvals.1, ?_,
      hkeys.2, hvals.2, ?_⟩
    · exact (foldl_arr_ok f.children MAX_CHILDREN _ (fun a j => j)
        (fun a j => oldC.children.getD (j + T) 0) ⟨hfcl, hfcb⟩
        (fun a j _ => getD_lt_of_all _ hocb _)).1
    · exact (foldl_arr_ok f.children MAX_CHILDREN _ (fun a j => j)
        (fun a j => oldC.children.getD (j + T) 0) ⟨hfcl, hfcb⟩
        (fun a j _ => getD_lt_of_all _ hocb _)).2

theorem splitPar_num (parent : Node) (i newId : Nat) (o3 : Node) :
    (splitPar parent i newId o3).num_keys = parent.num_keys + 1 := rfl

theorem splitPar_bid (parent : Node) (i newId : Nat) (o3 : Node) :
    (splitPar parent i newId o3).block_id = parent.block_id := rfl

theorem splitPar_dirty (parent : Node) (i newId : Nat) (o3 : Node) :
    (splitPar parent i newId o3).dirty = true := rfl

theorem splitPar_children_eq (parent : Node) (i newId : Nat) (o3 : Node) :
    (splitPar parent i newId o3).children
      = ((List.range (parent.num_keys - i)).foldl
          (fun cs s => cs.set (parent.num_keys - s + 1) (cs.getD (parent.num_keys - s) 0))
          parent.children).set (i + 1) newId := rfl

theorem splitPar_children_facts (parent : Node) (i newId : Nat) (o3 : Node)
    (hlen : parent.children.length = MAX_CHILDREN)
    (hnum : parent.num_keys < MAX_KEYS) (hi : i ≤ parent.num_keys) :
    (∀ x, x ≤ i → (splitPar parent i newId o3).children.getD x 0 = parent.children.getD x 0)
    ∧ (splitPar parent i newId o3).children.getD (i + 1) 0 = newId
    ∧ (∀ j, i + 1 ≤ j → j ≤ parent.num_keys →
        (splitPar parent i newId o3).children.getD (j + 1) 0 = parent.children.getD j 0) := by
  have h19 : MAX_KEYS = 19 := rfl
  have h20 : MAX_CHILDREN = 20 := rfl
  rw [h19] at hnum
  rw [h20] at hlen
  obtain ⟨hs1, hs2⟩ := foldl_shift_getD parent.children parent.num_keys (by omega)
    (parent.num_keys - i) (by omega)
  have hshlen : ((List.range (parent.num_keys - i)).foldl
      (fun cs s => cs.set (parent.num_keys - s + 1) (cs.getD (parent.num_keys - s) 0))
      parent.children).length = parent.children.length :=
    foldl_preserve (fun a => a.length = parent.children.length)
      (fun cs s => cs.set (parent.num_keys - s + 1) (cs.getD (parent.num_keys - s) 0))
      (List.range (parent.num_keys - i))
      (fun a s ha => by simp only [List.length_set]; exact ha) parent.children rfl
  refine ⟨?_, ?_, ?_⟩
  · intro x hx
    rw [splitPar_children_eq, getD_set_ne _ _ _ _ (by omega)]
    exact hs1 x (by omega)
  · rw [splitPar_children_eq, getD_set_self _ _ _ (by rw [hshlen, hlen]; omega)]
  · intro j hj1 hj2
    rw [splitPar_children_eq, getD_set_ne _ _ _ _ (by omega)]
    exact hs2 j (by omega) hj2

theorem splitPar_children_mem (parent : Node) (i newId : Nat) (o3 : Node) :
    ∀ x ∈ (splitPar parent i newId o3).children,
      x ∈ parent.children ∨ x = newId ∨ x = 0 := by
  intro x hx
  rw [splitPar_children_eq] at hx
  rcases mem_of_set _ _ _ _ hx with hx | hx
  · have := foldl_arr_mem parent.children (List.range (parent.num_keys - i))
      (fun a s => parent.num_keys - s + 1) (fun a s => a.getD (parent.num_keys - s) 0)
      (fun y => y = 0)
      (fun a s ha => by
        rcases getD_mem_or_zero a (parent.num_keys - s) with h | h
        · rcases ha _ h with h2 | h2
          · exact Or.inl h2
          · exact Or.inr h2
        · exact Or.inr h) x hx
    rcases this with h | h
    · exact Or.inl h
    · exact Or.inr (Or.inr h)
  · exact Or.inr (Or.inl hx)

theorem splitPar_keys_mem (parent : Node) (i newId : Nat) (o3 : Node) :
    ∀ x ∈ (splitPar parent i newId o3).keys,
      x ∈ parent.keys ∨ x = o3.keys.getD (T - 1) 0 ∨ x = 0 := by
  intro x hx
  replace hx : x ∈ ((List.range (parent.num_keys - i)).foldl
      (fun ks s => ks.set (parent.num_keys - 1 - s + 1) (ks.getD (parent.num_keys - 1 - s) 0))
      parent.keys).set i (o3.keys.getD (T - 1) 0) := hx
  rcases mem_of_set _ _ _ _ hx with hx | hx
  · have := foldl_arr_mem parent.keys (List.range (parent.num_keys - i))
      (fun a s => parent.num_keys - 1 - s + 1) (fun a s => a.getD (parent.num_keys - 1 - s) 0)
      (fun y => y = 0)
      (fun a s ha => by
        rcases getD_mem_or_zero a (parent.num_keys - 1 - s) with h | h
        · rcases ha _ h with h2 | h2
          · exact Or.inl h2
          · exact Or.inr h2
        · exact Or.inr h) x hx
    rcases this with h | h
    · exact Or.inl h
    · exact Or.inr (Or.inr h)
  · exact Or.inr (Or.inl hx)

theorem splitPar_values_mem (parent : Node) (i newId : Nat) (o3 : Node) :
    ∀ x ∈ (splitPar parent i newId o3).values,
      x ∈ parent.values ∨ x = o3.values.getD (T - 1) 0 ∨ x = 0 := by
  intro x hx
  replace hx : x ∈ ((List.range (parent.num_keys - i)).foldl
      (fun vs s => vs.set (parent.num_keys - 1 - s + 1) (vs.getD (parent.num_keys - 1 - s) 0))
      parent.values).set i (o3.values.getD (T - 1) 0) := hx
  rcases mem_of_set _ _ _ _ hx with hx | hx
  · have := foldl_arr_mem parent.values (List.range (parent.num_keys - i))
      (fun a s => parent.num_keys - 1 - s + 1) (fun a s => a.getD (parent.num_keys - 1 - s) 0)
      (fun y => y = 0)
      (fun a s ha => by
        rcases getD_mem_or_zero a (parent.num_keys - 1 - s) with h | h
        · rcases ha _ h with h2 | h2
          · exact Or.inl h2
          · exact Or.inr h2
        · exact Or.inr h) x hx
    rcases this with h | h
    · exact Or.inl h
    · exact Or.inr (Or.inr h)
  · exact Or.inr (Or.inl hx)

theorem splitPar_wf (parent : Node) (i newId : Nat) (o3 : Node)
    (h : parent.wf64) (hnid : newId < 2 ^ 64)
    (hk3 : ∀ x ∈ o3.keys, x < 2 ^ 64) (hv3 : ∀ x ∈ o3.values, x < 2 ^ 64)
    (hnum : parent.num_keys < MAX_KEYS) :
    (splitPar parent i newId o3).wf64 := by
  obtain ⟨hb, hp, hn, hkl, hvl, hcl, hkb, hvb, hcb⟩ := h
  have h19 : MAX_KEYS = 19 := rfl
  rw [h19] at hnum
  refine ⟨hb, hp, ?_, ?_, ?_, ?_, ?_, ?_, ?_⟩
  · rw [splitPar_num]
    omega
  · show (((List.range (parent.num_keys - i)).foldl
        (fun ks s => ks.set (parent.num_keys - 1 - s + 1) (ks.getD (parent.num_keys - 1 - s) 0))
        parent.keys).set i (o3.keys.getD (T - 1) 0)).length = MAX_KEYS
    rw [List.length_set]
    exact (foldl_arr_ok parent.keys MAX_KEYS (List.range (parent.num_keys - i))
      (fun a s => parent.num_keys - 1 - s + 1) (fun a s => a.getD (parent.num_keys - 1 - s) 0)
      ⟨hkl, hkb⟩ (fun a s ha => getD_lt_of_all _ ha.2 _)).1
  · show (((List.range (parent.num_keys - i)).foldl
        (fun vs s => vs.set (parent.num_keys - 1 - s + 1) (vs.getD (parent.num_keys - 1 - s) 0))
        parent.values).set i (o3.values.getD (T - 1) 0)).length = MAX_KEYS
    rw [List.length_set]
    exact (foldl_arr_ok parent.values MAX_KEYS (List.range (parent.num_keys - i))
      (fun a s => parent.num_keys - 1 - s + 1) (fun a s => a.getD (parent.num_keys - 1 - s) 0)
      ⟨hvl, hvb⟩ (fun a s ha => getD_lt_of_all _ ha.2 _)).1
  · rw [splitPar_children_eq, List.length_set]
    exact (foldl_arr_ok parent.children MAX_CHILDREN (List.range (parent.num_keys - i))
      (fun a s => parent.num_keys - s + 1) (fun a s => a.getD (parent.num_keys - s) 0)
      ⟨hcl, hcb⟩ (fun a s ha => getD_lt_of_all _ ha.2 _)).1
  · intro x hx
    rcases splitPar_keys_mem parent i newId o3 x hx with h | h | h
    · exact hkb x h
    · rw [h]
      exact getD_lt_of_all _ hk3 _
    · rw [h]
      decide
  · intro x hx
    rcases splitPar_values_mem parent i newId o3 x hx with h | h | h
    · exact hvb x h
    · rw [h]
      exact getD_lt_of_all _ hv3 _
    · rw [h]
      decide
  · intro x hx
    rcases splitPar_children_mem parent i newId o3 x hx with h | h | h
    · exact hcb x h
    · rw [h]
      exact hnid
    · rw [h]
      decide

theorem isLeaf_getD (nd : Node) (hL : nd.isLeaf = true) (j : Nat) (hj : j ≤ nd.num_keys) :
    nd.children.getD j 0 = 0 := by
  unfold Node.isLeaf at hL
  rw [List.all_eq_true] at hL
  have := hL j (List.mem_range.mpr (by omega))
  exact beq_iff_eq.mp this

theorem isLeaf_of_zero (nd : Node) (h : ∀ x ∈ nd.children, x = 0) : nd.isLeaf = true := by
  unfold Node.isLeaf
  rw [List.all_eq_true]
  intro j hj
  show (nd.children.getD j 0 == 0) = true
  rcases getD_mem_or_zero nd.children j with hm | hz
  · rw [h _ hm]
    rfl
  · rw [hz]
    rfl

theorem splitOld_slots_sub (oldC : Node) (hfull : oldC.num_keys = MAX_KEYS) :
    ∀ c, c ∈ childSlots (splitOld oldC) → c ∈ childSlots oldC := by
  intro c hc
  rw [mem_childSlots_iff] at hc ⊢
  obtain ⟨x, hx, he⟩ := hc
  rw [splitOld_num] at hx
  have hT : T = 10 := rfl
  have h19 : MAX_KEYS = 19 := rfl
  rw [splitOld_children, splitOldMid_children_low oldC x (by omega)] at he
  exact ⟨x, by rw [hfull]; omega, he⟩

theorem splitNew_slots_sub (oldC f : Node)
    (hch : f.children = List.replicate MAX_CHILDREN 0)
    (hfull : oldC.num_keys = MAX_KEYS) :
    ∀ c, c ≠ 0 → c ∈ childSlots (splitNew oldC f) → c ∈ childSlots oldC := by
  intro c hc0 hc
  rw [mem_childSlots_iff] at hc
  obtain ⟨x, hx, he⟩ := hc
  rw [splitNew_num] at hx
  have hT : T = 10 := rfl
  have h19 : MAX_KEYS = 19 := rfl
  by_cases hL : oldC.isLeaf = true
  · rw [splitNew_children_leaf oldC f hL hch x] at he
    exact absurd he.symm hc0
  · rw [splitNew_children_int oldC f hL hch x, if_pos (by omega)] at he
    rw [mem_childSlots_iff]
    exact ⟨x + T, by rw [hfull]; omega, he⟩

theorem split_slots_cover (oldC f : Node)
    (hch : f.children = List.replicate MAX_CHILDREN 0)
    (hfull : oldC.num_keys = MAX_KEYS) :
    ∀ c, c ≠ 0 → c ∈ childSlots oldC →
      c ∈ childSlots (splitOld oldC) ∨ c ∈ childSlots (splitNew oldC f) := by
  intro c hc0 hc
  rw [mem_childSlots_iff] at hc
  obtain ⟨j, hj, he⟩ := hc
  rw [hfull] at hj
  have hT : T = 10 := rfl
  have h19 : MAX_KEYS = 19 := rfl
  rw [h19] at hj
  by_cases hL : oldC.isLeaf = true
  · exfalso
    apply hc0
    rw [← he]
    exact isLeaf_getD oldC hL j (by rw [hfull, h19]; omega)
  · by_cases hj9 : j ≤ 9
    · left
      rw [mem_childSlots_iff]
      refine ⟨j, by rw [splitOld_num]; omega, ?_⟩
      rw [splitOld_children, splitOldMid_children_low oldC j (by omega)]
      exact he
    · right
      rw [mem_childSlots_iff]
      refine ⟨j - 10, by rw [splitNew_num]; omega, ?_⟩
      rw [splitNew_children_int oldC f hL hch (j - 10), if_pos (by omega)]
      rw [show j - 10 + T = j from by omega]
      exact he

theorem splitOld_proper (oldC : Node) (hfull : oldC.num_keys = MAX_KEYS)
    (hp : properNode oldC) : properNode (splitOld oldC) := by
  have hT : T = 10 := rfl
  have h19 : MAX_KEYS = 19 := rfl
  rcases hp with hp | hp
  · left
    intro x hx
    rw [splitOld_children] at hx
    rcases splitOldMid_children_mem oldC x hx with h | h
    · exact hp x h
    · exact h
  · right
    intro x hx
    rw [splitOld_num] at hx
    rw [splitOld_children, splitOldMid_children_low oldC x (by omega)]
    exact hp x (by rw [hfull, h19]; omega)

theorem splitNew_proper (oldC f : Node)
    (hch : f.children = List.replicate MAX_CHILDREN 0)
    (hfull : oldC.num_keys = MAX_KEYS)
    (hp : properNode oldC) : properNode (splitNew oldC f) := by
  have hT : T = 10 := rfl
  have h19 : MAX_KEYS = 19 := rfl
  by_cases hL : oldC.isLeaf = true
  · left
    intro x hx
    rcases splitNew_children_mem oldC f hch x hx with h | h
    · rcases hp with hp | hp
      · exact hp x h
      · exfalso
        have h0 : oldC.children.getD 0 0 = 0 := isLeaf_getD oldC hL 0 (by omega)
        exact hp 0 (by omega) h0
    · exact h
  · right
    intro x hx
    rw [splitNew_num] at hx
    rw [splitNew_children_int oldC f hL hch x, if_pos (by omega)]
    rcases hp with hp | hp
    · exact absurd (isLeaf_of_zero oldC hp) hL
    · exact hp (x + T) (by rw [hfull, h19]; omega)

theorem splitPar_slots_sub (parent : Node) (i newId : Nat) (o3 : Node)
    (hlen : parent.children.length = MAX_CHILDREN)
    (hnum : parent.num_keys < MAX_KEYS) (hi : i ≤ parent.num_keys) :
    ∀ c, c ∈ childSlots (splitPar parent i newId o3) →
      c ∈ childSlots parent ∨ c = newId := by
  obtain ⟨hf1, hf2, hf3⟩ := splitPar_children_facts parent i newId o3 hlen hnum hi
  intro c hc
  rw [mem_childSlots_iff] at hc
  obtain ⟨x, hx, he⟩ := hc
  rw [splitPar_num] at hx
  by_cases hxi : x ≤ i
  · rw [hf1 x hxi] at he
    exact Or.inl ((mem_childSlots_iff parent c).mpr ⟨x, by omega, he⟩)
  · by_cases hxi1 : x = i + 1
    · rw [hxi1, hf2] at he
      exact Or.inr he.symm
    · have hx2 : i + 1 ≤ x - 1 ∧ x - 1 ≤ parent.num_keys := by omega
      have := hf3 (x - 1) hx2.1 hx2.2
      rw [show x - 1 + 1 = x from by omega] at this
      rw [this] at he
      exact Or.inl ((mem_childSlots_iff parent c).mpr ⟨x - 1, by omega, he⟩)

theorem splitPar_slots_sup (parent : Node) (i newId : Nat) (o3 : Node)
    (hlen : parent.children.length = MAX_CHILDREN)
    (hnum : parent.num_keys < MAX_KEYS) (hi : i ≤ parent.num_keys) :
    ∀ c, c ∈ childSlots parent → c ∈ childSlots (splitPar parent i newId o3) := by
  obtain ⟨hf1, hf2, hf3⟩ := splitPar_children_facts parent i newId o3 hlen hnum hi
  intro c hc
  rw [mem_childSlots_iff] at hc ⊢
  obtain ⟨j, hj, he⟩ := hc
  by_cases hji : j ≤ i
  · exact ⟨j, by rw [splitPar_num]; omega, by rw [hf1 j hji]; exact he⟩
  · exact ⟨j + 1, by rw [splitPar_num]; omega, by rw [hf3 j (by omega) hj]; exact he⟩

theorem splitPar_slot_new (parent : Node) (i newId : Nat) (o3 : Node)
    (hlen : parent.children.length = MAX_CHILDREN)
    (hnum : parent.num_keys < MAX_KEYS) (hi : i ≤ parent.num_keys) :
    newId ∈ childSlots (splitPar parent i newId o3) := by
  obtain ⟨hf1, hf2, hf3⟩ := splitPar_children_facts parent i newId o3 hlen hnum hi
  rw [mem_childSlots_iff]
  exact ⟨i + 1, by rw [splitPar_num]; omega, hf2⟩

theorem splitPar_proper (parent : Node) (i newId : Nat) (o3 : Node)
    (hlen : parent.children.length = MAX_CHILDREN)
    (hnum : parent.num_keys < MAX_KEYS) (hi : i ≤ parent.num_keys)
    (hpr : ∀ j, j ≤ parent.num_keys → parent.children.getD j 0 ≠ 0)
    (hnid : newId ≠ 0) :
    properNode (splitPar parent i newId o3) := by
  obtain ⟨hf1, hf2, hf3⟩ := splitPar_children_facts parent i newId o3 hlen hnum hi
  right
  intro x hx
  rw [splitPar_num] at hx
  by_cases hxi : x ≤ i
  · rw [hf1 x hxi]
    exact hpr x (by omega)
  · by_cases hxi1 : x = i + 1
    · rw [hxi1, hf2]
      exact hnid
    · have hx2 : i + 1 ≤ x - 1 ∧ x - 1 ≤ parent.num_keys := by omega
      have := hf3 (x - 1) hx2.1 hx2.2
      rw [show x - 1 + 1 = x from by omega] at this
      rw [this]
      exact hpr (x - 1) (by omega)

/-- Full view-level characterization of a successful `_split_child` on
a consistent state: the frontier moves up by one, only the parent, the
split child and the fresh sibling change, and their stored forms are
the three reshaped nodes. -/
theorem splitChild_spec (st st' : St) (pb i : Nat) (parentC oldV : Node)
    (hInv : Inv st)
    (hn64 : st.next + 1 < 2 ^ 64)
    (hpk : peek st pb = some parentC)
    (hnum : parentC.num_keys < MAX_KEYS)
    (hi : i ≤ parentC.num_keys)
    (hold0 : parentC.children.getD i 0 ≠ 0)
    (hov : view st (parentC.children.getD i 0) = some oldV)
    (hfull : oldV.num_keys = MAX_KEYS)
    (hsp : splitChild st pb i = some st') :
    ∃ oldC,
      ({ oldC with dirty := false } : Node) = oldV
      ∧ Inv st' ∧ st'.root = st.root ∧ st'.next = st.next + 1
      ∧ (∀ b, 1 ≤ b → b ≠ pb → b ≠ parentC.children.getD i 0 → b ≠ st.next →
          view st' b = view st b)
      ∧ view st' pb
          = some { splitPar parentC i st.next (splitOldMid oldC) with dirty := false }
      ∧ view st' (parentC.children.getD i 0)
          = some { splitOld oldC with dirty := false }
      ∧ view st' st.next
          = some { splitNew oldC (Node.fresh st.next pb) with dirty := false }
      ∧ pb ≠ parentC.children.getD i 0
      ∧ parentC.children.getD i 0 < st.next
      ∧ pb < st.next := by
  have hlkp : lookupCache st.cache pb = some parentC := hpk
  obtain ⟨hgp, -⟩ := hInv.2.2.2.2.2.2.2.2.1 (pb, parentC) (lookupCache_mem _ _ _ hlkp)
  have hpb1 : 1 ≤ pb := hgp.2.1
  have hpbn : pb < st.next := hgp.2.2.1
  have hwfp : parentC.wf64 := hgp.2.2.2
  have hold1 : 1 ≤ parentC.children.getD i 0 := Nat.one_le_iff_ne_zero.mpr hold0
  have hgood := view_good st _ oldV hInv hold1 hov
  have holdn : parentC.children.getD i 0 < st.next := hgood.2.1
  have hpbold : pb ≠ parentC.children.getD i 0 := by
    intro he
    have hvp : view st pb = some { parentC with dirty := false } :=
      view_of_lookup_some st pb parentC hlkp
    rw [he, hov] at hvp
    have := Option.some.inj hvp
    have hnk : oldV.num_keys = parentC.num_keys := by rw [this]
    rw [hfull] at hnk
    omega
  obtain ⟨oldC, st1, hget, hstep1, hOc⟩ :=
    cacheGet_view st (parentC.children.getD i 0) oldV hInv hold1 hov
  obtain ⟨hInv1, hroot1, hnext1, hview1⟩ := hstep1
  obtain ⟨stA, hNN, hInvA, hrootA, hnextA, hviewA, hviewNA, hlkNA⟩ :=
    newNode_spec st1 pb hInv1 (by rw [hnext1]; exact hn64)
      (by have := hInv.2.2.1; omega)
  have hwfC : oldC.wf64 := (wf64_strip oldC).mp (by rw [hOc]; exact hgood.2.2)
  have hcbid : oldC.block_id = parentC.children.getD i 0 := by
    have hb2 : ({ oldC with dirty := false } : Node).block_id
        = parentC.children.getD i 0 := by
      rw [hOc]
      exact hgood.1
    exact hb2
  rw [splitChild_eq, hpk] at hsp
  simp only [Option.some_bind] at hsp
  rw [hget] at hsp
  simp only [Option.some_bind] at hsp
  rw [hNN] at hsp
  simp only [Option.some_bind] at hsp
  rw [Option.bind_eq_some] at hsp
  obtain ⟨st4, hp4, hsp⟩ := hsp
  rw [Option.bind_eq_some] at hsp
  obtain ⟨st5, hp5, hsp⟩ := hsp
  -- first poke: write back the shrunk old child
  obtain ⟨o4, hlk4⟩ : ∃ o, lookupCache stA.cache (parentC.children.getD i 0) = some o := by
    unfold poke at hp4
    cases h : lookupCache stA.cache (parentC.children.getD i 0) with
    | none => rw [h] at hp4; exact Option.noConfusion hp4
    | some o => exact ⟨o, rfl⟩
  obtain ⟨st4', hp4', hInv4, hroot4, hnext4, hfile4, hview4, hview4b, hlk4b⟩ :=
    poke_spec stA (parentC.children.getD i 0) o4 (splitOld oldC) hInvA hlk4
      (by rw [splitOld_bid]; exact hcbid) (splitOld_wf oldC hwfC) (splitOld_dirty oldC)
  obtain rfl := Option.some.inj (hp4'.symm.trans hp4)
  -- second poke: write back the grown parent
  obtain ⟨o5, hlk5⟩ : ∃ o, lookupCache st4'.cache pb = some o := by
    unfold poke at hp5
    cases h : lookupCache st4'.cache pb with
    | none => rw [h] at hp5; exact Option.noConfusion hp5
    | some o => exact ⟨o, rfl⟩
  have hwfP5 : (splitPar parentC i st1.next (splitOldMid oldC)).wf64 := by
    refine splitPar_wf parentC i st1.next (splitOldMid oldC) hwfp ?_ ?_ ?_ hnum
    · rw [hnext1]
      have := hInv.2.2.1
      omega
    · intro x hx
      rcases splitOldMid_keys_mem oldC x hx with h | h
      · exact hwfC.2.2.2.2.2.2.1 x h
      · rw [h]; decide
    · intro x hx
      rcases splitOldMid_values_mem oldC x hx with h | h
      · exact hwfC.2.2.2.2.2.2.2.1 x h
      · rw [h]; decide
  obtain ⟨st5', hp5', hInv5, hroot5, hnext5, hfile5, hview5, hview5b, hlk5b⟩ :=
    poke_spec st4' pb o5 (splitPar parentC i st1.next (splitOldMid oldC)) hInv4 hlk5
      (by rw [splitPar_bid]; exact hgp.1) hwfP5 (splitPar_dirty parentC i st1.next _)
  obtain rfl := Option.some.inj (hp5'.symm.trans hp5)
  -- third poke: write back the fresh sibling
  obtain ⟨o6, hlk6⟩ : ∃ o, lookupCache st5'.cache st1.next = some o := by
    unfold poke at hsp
    cases h : lookupCache st5'.cache st1.next with
    | none => rw [h] at hsp; exact Option.noConfusion hsp
    | some o => exact ⟨o, rfl⟩
  have hwfN3 : (splitNew oldC (Node.fresh st1.next pb)).wf64 := by
    refine splitNew_wf oldC _ hwfC (fresh_wf64 st1.next pb ?_ ?_)
    · rw [hnext1]
      have := hInv.2.2.1
      omega
    · have := hInv.2.2.1
      omega
  obtain ⟨st6', hp6', hInv6, hroot6, hnext6, hfile6, hview6, hview6b, hlk6b⟩ :=
    poke_spec st5' st1.next o6 (splitNew oldC (Node.fresh st1.next pb)) hInv5 hlk6
      (by rw [splitNew_bid]; rfl) hwfN3 (splitNew_dirty oldC _)
  obtain rfl := Option.some.inj (hp6'.symm.trans hsp)
  -- assemble
  have holdnew : parentC.children.getD i 0 ≠ st1.next := by
    rw [hnext1]
    omega
  have hpbnew : pb ≠ st1.next := by
    rw [hnext1]
    omega
  have hnewpos : 1 ≤ st1.next := by
    rw [hnext1]
    have := hInv.1
    omega
  refine ⟨oldC, hOc, hInv6, ?_, ?_, ?_, ?_, ?_, ?_, hpbold, holdn, hpbn⟩
  · rw [hroot6, hroot5, hroot4, hrootA, hroot1]
  · rw [hnext6, hnext5, hnext4, hnextA, hnext1]
  · intro b hb1 hbp hbo hbn
    rw [hview6 b hb1 (by rw [hnext1]; exact hbn),
      hview5 b hb1 hbp, hview4 b hb1 hbo,
      hviewA b hb1 (by rw [hnext1]; exact hbn), hview1 b hb1]
  · rw [hview6 pb hpb1 hpbnew, hview5b, hnext1]
  · rw [hview6 _ hold1 holdnew, hview5 _ hold1 hpbold.symm, hview4b]
  · have h1n : 1 ≤ st.next := hInv.1
    rw [show st.next = st1.next from hnext1.symm, hview6b]

theorem childSlots_strip (nd : Node) :
    childSlots ({ nd with dirty := false } : Node) = childSlots nd := rfl

theorem properNode_strip (nd : Node) :
    properNode ({ nd with dirty := false } : Node) ↔ properNode nd := Iff.rfl

theorem view_next_none (st : St) (hInv : Inv st) : view st st.next = none := by
  obtain ⟨h1, h2, h3, h4, h5, h6, h7, h8, h9, h10, h11⟩ := hInv
  have hlk : lookupCache st.cache st.next = none := by
    cases hlk : lookupCache st.cache st.next with
    | none => rfl
    | some m =>
      have := (h9 (st.next, m) (lookupCache_mem _ _ _ hlk)).1.2.2.1
      omega
  rw [view_of_lookup_none st st.next hlk,
    get?_eq_none_of_ge st.file st.next (by omega)]
  rfl

theorem view_defined (st : St) (b : Nat) (hInv : Inv st) (hb : 1 ≤ b)
    (hbn : b < st.next) : ∃ nd, view st b = some nd := by
  cases hlk : lookupCache st.cache b with
  | some m => exact ⟨_, view_of_lookup_some st b m hlk⟩
  | none =>
    have hok := hInv.2.2.2.2.2.2.2.2.2.1 b hbn hb hlk
    unfold fileNodeOK at hok
    cases hg : st.file.get? b with
    | none => rw [hg] at hok; exact absurd hok id
    | some data =>
      refine ⟨readNode data, ?_⟩
      rw [view_of_lookup_none st b hlk, hg]
      rfl

theorem Reach_root_ne (vw : Nat → Option Node) (root c : Nat)
    (h : Reach vw root c) : root ≠ 0 := by
  induction h with
  | base h0 => exact h0
  | step b c nd hr hv hm hc ih => exact ih

/-- Edge-monotone view changes preserve reachability. -/
theorem Reach_mono (vw vw' : Nat → Option Node) (root : Nat)
    (h : ∀ b nd, 1 ≤ b → vw b = some nd → ∃ nd', vw' b = some nd'
        ∧ ∀ c, c ≠ 0 → c ∈ childSlots nd → c ∈ childSlots nd') :
    ∀ c, Reach vw root c → Reach vw' root c := by
  intro c h0
  induction h0 with
  | base h0 => exact Reach.base h0
  | step b c nd hr hv hm hc ih =>
    obtain ⟨nd', hv', hsl⟩ := h b nd (Reach_pos _ _ _ hr) hv
    exact Reach.step b c nd' ih hv' (hsl c hc hm) hc

/-- The split preserves allocation tightness and simulates every old
reachability derivation. -/
theorem split_RInv (s s' : St) (pb i oldId newId : Nat) (parentC oldV oldC : Node)
    (hInv : Inv s) (hR : RInv s)
    (hOc : ({ oldC with dirty := false } : Node) = oldV)
    (hvp : view s pb = some { parentC with dirty := false })
    (hvo : view s oldId = some oldV)
    (holdid : oldId = parentC.children.getD i 0)
    (hnewId : newId = s.next)
    (hpb1 : 1 ≤ pb) (hpbn : pb < s.next)
    (hold1 : 1 ≤ oldId) (holdn : oldId < s.next)
    (hpbold : pb ≠ oldId)
    (hnum : parentC.num_keys < MAX_KEYS) (hi : i ≤ parentC.num_keys)
    (hold0 : oldId ≠ 0)
    (hfull : oldV.num_keys = MAX_KEYS)
    (hInv' : Inv s') (hroot' : s'.root = s.root) (hnext' : s'.next = s.next + 1)
    (hview' : ∀ b, 1 ≤ b → b ≠ pb → b ≠ oldId → b ≠ newId → view s' b = view s b)
    (hvP : view s' pb = some { splitPar parentC i newId (splitOldMid oldC) with dirty := false })
    (hvO : view s' oldId = some { splitOld oldC with dirty := false })
    (hvN : view s' newId = some { splitNew oldC (Node.fresh newId pb) with dirty := false }) :
    RInv s' ∧ (∀ c, Reach (view s) s.root c → Reach (view s') s.root c) := by
  obtain ⟨hreach, hcb, hprop, hnk, depth, hd0, hde⟩ := hR
  have hwfp : parentC.wf64 := by
    have := (view_good s pb _ hInv hpb1 hvp).2.2
    exact (wf64_strip parentC).mp this
  have hplen : parentC.children.length = MAX_CHILDREN := hwfp.2.2.2.2.2.1
  have holdfull : oldC.num_keys = MAX_KEYS := by
    have : ({ oldC with dirty := false } : Node).num_keys = MAX_KEYS := by
      rw [hOc]
      exact hfull
    exact this
  have hpprop : properNode parentC := (properNode_strip parentC).mp (hprop pb _ hpb1 hvp)
  have hoprop : properNode oldC := by
    rw [← properNode_strip oldC, hOc]
    exact hprop oldId _ hold1 hvo
  have hppropR : ∀ j, j ≤ parentC.num_keys → parentC.children.getD j 0 ≠ 0 := by
    rcases hpprop with h | h
    · exfalso
      refine hold0 ?_
      rw [holdid]
      rcases getD_mem_or_zero parentC.children i with hm | hz
      · exact h _ hm
      · exact hz
    · exact h
  have hnew0 : newId ≠ 0 := by
    rw [hnewId]
    have := hInv.1
    omega
  have hfreshch : (Node.fresh newId pb).children = List.replicate MAX_CHILDREN 0 := rfl
  -- slots of the viewed parent in `s`
  have hslotp : childSlots ({ parentC with dirty := false } : Node) = childSlots parentC := rfl
  have hdold : depth oldId = depth pb + 1 := by
    refine hde pb _ hpb1 hvp oldId ?_ hold0
    rw [holdid]
    exact childSlots_getD ({ parentC with dirty := false } : Node) i hi
  -- L1: low-depth blocks keep their old derivations
  have hL1 : ∀ c, Reach (view s) s.root c → depth c ≤ depth pb →
      Reach (view s') s.root c := by
    intro c hc
    induction hc with
    | base h0 => exact fun _ => Reach.base h0
    | step b c nd hr hvb hm hc0 ih =>
      intro hdc
      have hdce : depth c = depth b + 1 := hde b nd (Reach_pos _ _ _ hr) hvb c hm hc0
      have hbp : b ≠ pb := by
        intro he
        rw [he] at hdce
        omega
      have hbo : b ≠ oldId := by
        intro he
        rw [he, hdold] at hdce
        omega
      have hbn : b ≠ newId := by
        intro he
        rw [he, hnewId, view_next_none s hInv] at hvb
        exact Option.noConfusion hvb
      have hvb' : view s' b = view s b := hview' b (Reach_pos _ _ _ hr) hbp hbo hbn
      exact Reach.step b c nd (ih (by omega)) (by rw [hvb']; exact hvb) hm hc0
  have hreachP' : Reach (view s') s.root pb :=
    hL1 pb (hreach pb hpb1 hpbn) (le_refl _)
  have hreachN' : Reach (view s') s.root newId := by
    refine Reach.step pb newId _ hreachP' hvP ?_ hnew0
    show newId ∈ childSlots ({ splitPar parentC i newId (splitOldMid oldC) with dirty := false } : Node)
    rw [childSlots_strip]
    exact splitPar_slot_new parentC i newId _ hplen hnum hi
  -- L2: full simulation
  have hL2 : ∀ c, Reach (view s) s.root c → Reach (view s') s.root c := by
    intro c hc
    induction hc with
    | base h0 => exact Reach.base h0
    | step b c nd hr hvb hm hc0 ih =>
      by_cases hbp : b = pb
      · rw [hbp] at hvb
        have hnd : nd = ({ parentC with dirty := false } : Node) :=
          Option.some.inj (hvb.symm.trans hvp)
        rw [hnd] at hm
        rw [hslotp] at hm
        refine Reach.step pb c _ hreachP' hvP ?_ hc0
        show c ∈ childSlots ({ splitPar parentC i newId (splitOldMid oldC) with dirty := false } : Node)
        rw [childSlots_strip]
        exact splitPar_slots_sup parentC i newId _ hplen hnum hi c hm
      · by_cases hbo : b = oldId
        · rw [hbo] at hvb hr
          have hnd : nd = oldV := Option.some.inj (hvb.symm.trans hvo)
          rw [hnd] at hm
          have hmC : c ∈ childSlots oldC := by
            rw [← hOc] at hm
            exact hm
          rcases split_slots_cover oldC (Node.fresh newId pb) hfreshch holdfull c hc0 hmC
            with h | h
          · rw [hbo] at ih
            refine Reach.step oldId c _ ih hvO ?_ hc0
            show c ∈ childSlots ({ splitOld oldC with dirty := false } : Node)
            rw [childSlots_strip]
            exact h
          · refine Reach.step newId c _ hreachN' hvN ?_ hc0
            show c ∈ childSlots ({ splitNew oldC (Node.fresh newId pb) with dirty := false } : Node)
            rw [childSlots_strip]
            exact h
        · have hbn : b ≠ newId := by
            intro he
            rw [he, hnewId, view_next_none s hInv] at hvb
            exact Option.noConfusion hvb
          have hvb' : view s' b = view s b := hview' b (Reach_pos _ _ _ hr) hbp hbo hbn
          exact Reach.step b c nd ih (by rw [hvb']; exact hvb) hm hc0
  refine ⟨⟨?_, ?_, ?_, ?_, ?_⟩, hL2⟩
  · -- reach-all
    intro b hb1 hbn
    rw [hroot']
    rw [hnext'] at hbn
    by_cases hbnew : b = newId
    · rw [hbnew]
      exact hreachN'
    · refine hL2 b (hreach b hb1 ?_)
      rw [hnewId] at hbnew
      omega
  · -- children bound
    intro b nd hb1 hv
    rw [hnext']
    by_cases hbp : b = pb
    · rw [hbp, hvP] at hv
      obtain rfl := Option.some.inj hv.symm
      intro x hx
      have hx2 : x ∈ (splitPar parentC i newId (splitOldMid oldC)).children := hx
      rcases splitPar_children_mem parentC i newId _ x hx2 with h | h | h
      · have := hcb pb _ hpb1 hvp x h
        omega
      · rw [h, hnewId]
        omega
      · rw [h]
        omega
    · by_cases hbo : b = oldId
      · rw [hbo, hvO] at hv
        obtain rfl := Option.some.inj hv.symm
        intro x hx
        have hx2 : x ∈ (splitOld oldC).children := hx
        rw [splitOld_children] at hx2
        rcases splitOldMid_children_mem oldC x hx2 with h | h
        · have hxo : x ∈ oldV.children := by
            rw [← hOc]
            exact h
          have := hcb oldId _ hold1 hvo x hxo
          omega
        · rw [h]
          omega
      · by_cases hbnew : b = newId
        · rw [hbnew, hvN] at hv
          obtain rfl := Option.some.inj hv.symm
          intro x hx
          have hx2 : x ∈ (splitNew oldC (Node.fresh newId pb)).children := hx
          rcases splitNew_children_mem oldC _ hfreshch x hx2 with h | h
          · have hxo : x ∈ oldV.children := by
              rw [← hOc]
              exact h
            have := hcb oldId _ hold1 hvo x hxo
            omega
          · rw [h]
            omega
        · rw [hview' b hb1 hbp hbo hbnew] at hv
          have := hcb b nd hb1 hv
          intro x hx
          have := this x hx
          omega
  · -- properness
    intro b nd hb1 hv
    by_cases hbp : b = pb
    · rw [hbp, hvP] at hv
      obtain rfl := Option.some.inj hv.symm
      rw [properNode_strip]
      exact splitPar_proper parentC i newId _ hplen hnum hi hppropR hnew0
    · by_cases hbo : b = oldId
      · rw [hbo, hvO] at hv
        obtain rfl := Option.some.inj hv.symm
        rw [properNode_strip]
        exact splitOld_proper oldC holdfull hoprop
      · by_cases hbnew : b = newId
        · rw [hbnew, hvN] at hv
          obtain rfl := Option.some.inj hv.symm
          rw [properNode_strip]
          exact splitNew_proper oldC _ hfreshch holdfull hoprop
        · rw [hview' b hb1 hbp hbo hbnew] at hv
          exact hprop b nd hb1 hv
  · -- num_keys bound
    intro b nd hb1 hv
    by_cases hbp : b = pb
    · rw [hbp, hvP] at hv
      obtain rfl := Option.some.inj hv.symm
      show (splitPar parentC i newId (splitOldMid oldC)).num_keys ≤ MAX_KEYS
      rw [splitPar_num]
      omega
    · by_cases hbo : b = oldId
      · rw [hbo, hvO] at hv
        obtain rfl := Option.some.inj hv.symm
        show (splitOld oldC).num_keys ≤ MAX_KEYS
        rw [splitOld_num]
        decide
      · by_cases hbnew : b = newId
        · rw [hbnew, hvN] at hv
          obtain rfl := Option.some.inj hv.symm
          show (splitNew oldC (Node.fresh newId pb)).num_keys ≤ MAX_KEYS
          rw [splitNew_num]
          decide
        · rw [hview' b hb1 hbp hbo hbnew] at hv
          exact hnk b nd hb1 hv
  · -- depth function
    refine ⟨fun c => if c = newId then depth pb + 1 else depth c, ?_, ?_⟩
    · rw [hroot']
      show (if s.root = newId then depth pb + 1 else depth s.root) = 0
      rw [if_neg ?_]
      · exact hd0
      · intro he
        have hroot0 : s.root ≠ 0 := Reach_root_ne _ _ _ (hreach pb hpb1 hpbn)
        have : s.root < s.next := by
          rcases hInv.2.2.2.1 with h | h
          · exact absurd h hroot0
          · exact h.2
        rw [he, hnewId] at this
        omega
    · intro b nd hb1 hv c hm hc0
      show (if c = newId then depth pb + 1 else depth c)
        = (if b = newId then depth pb + 1 else depth b) + 1
      by_cases hbp : b = pb
      · rw [hbp, hvP] at hv
        obtain rfl := Option.some.inj hv.symm
        rw [childSlots_strip] at hm
        rw [hbp, if_neg (show ¬ pb = newId by rw [hnewId]; omega)]
        rcases splitPar_slots_sub parentC i newId _ hplen hnum hi c hm with h | h
        · have hmp : c ∈ childSlots ({ parentC with dirty := false } : Node) := h
          have hcn : c < s.next :=
            hcb pb _ hpb1 hvp c (childSlots_mem_children _ c hmp hc0)
          rw [if_neg (show ¬ c = newId by rw [hnewId]; omega)]
          exact hde pb _ hpb1 hvp c hmp hc0
        · rw [h, if_pos rfl]
      · by_cases hbo : b = oldId
        · rw [hbo, hvO] at hv
          obtain rfl := Option.some.inj hv.symm
          rw [childSlots_strip] at hm
          rw [hbo, if_neg (show ¬ oldId = newId by rw [hnewId]; omega)]
          have hmo : c ∈ childSlots oldV := by
            rw [← hOc]
            exact splitOld_slots_sub oldC holdfull c hm
          have hcn : c < s.next :=
            hcb oldId _ hold1 hvo c (childSlots_mem_children _ c hmo hc0)
          rw [if_neg (show ¬ c = newId by rw [hnewId]; omega)]
          exact hde oldId _ hold1 hvo c hmo hc0
        · by_cases hbnew : b = newId
          · rw [hbnew, hvN] at hv
            obtain rfl := Option.some.inj hv.symm
            rw [childSlots_strip] at hm
            rw [hbnew, if_pos rfl]
            have hmo : c ∈ childSlots oldV := by
              rw [← hOc]
              exact splitNew_slots_sub oldC _ hfreshch holdfull c hc0 hm
            have hcn : c < s.next :=
              hcb oldId _ hold1 hvo c (childSlots_mem_children _ c hmo hc0)
            rw [if_neg (show ¬ c = newId by rw [hnewId]; omega)]
            have h1 := hde oldId _ hold1 hvo c hmo hc0
            omega
          · rw [hview' b hb1 hbp hbo hbnew] at hv
            have hcn : c < s.next := hcb b nd hb1 hv c (childSlots_mem_children _ c hm hc0)
            rw [if_neg (show ¬ c = newId by rw [hnewId]; omega), if_neg hbnew]
            exact hde b nd hb1 hv c hm hc0

theorem insPair_length (p : Nat × Nat) (l : List (Nat × Nat)) :
    (insPair p l).length = l.length + 1 := by
  induction l with
  | nil => rfl
  | cons q t ih =>
    unfold insPair
    by_cases h : p.1 < q.1
    · simp [h]
    · simp [h, ih]

theorem insPair_mem (x p : Nat × Nat) (l : List (Nat × Nat)) :
    x ∈ insPair p l → x = p ∨ x ∈ l := by
  induction l with
  | nil =>
    intro h
    unfold insPair at h
    rw [List.mem_singleton] at h
    exact Or.inl h
  | cons q t ih =>
    intro h
    unfold insPair at h
    by_cases hc : p.1 < q.1
    · rw [if_pos hc, List.mem_cons] at h
      rcases h with h | h
      · exact Or.inl h
      · exact Or.inr h
    · rw [if_neg hc, List.mem_cons] at h
      rcases h with h | h
      · exact Or.inr (by simp [h])
      · rcases ih h with h | h
        · exact Or.inl h
        · exact Or.inr (List.mem_cons_of_mem q h)

theorem insPair_sorted (p : Nat × Nat) (l : List (Nat × Nat))
    (hs : sortedKeys l) : sortedKeys (insPair p l) := by
  induction l with
  | nil => simp [insPair, sortedKeys]
  | cons q t ih =>
    unfold insPair
    rw [sortedKeys, List.pairwise_cons] at hs
    obtain ⟨hq, ht⟩ := hs
    by_cases hc : p.1 < q.1
    · rw [if_pos hc, sortedKeys, List.pairwise_cons]
      refine ⟨?_, ?_⟩
      · intro x hx
        rw [List.mem_cons] at hx
        rcases hx with hx | hx
        · rw [hx]; omega
        · exact le_trans (le_of_lt hc) (hq x hx)
      · rw [List.pairwise_cons]; exact ⟨hq, ht⟩
    · rw [if_neg hc, sortedKeys, List.pairwise_cons]
      refine ⟨?_, ih ht⟩
      intro x hx
      rcases insPair_mem x p t hx with hx | hx
      · rw [hx]; omega
      · exact hq x hx

theorem insPair_append_last (p : Nat × Nat) (l : List (Nat × Nat))
    (h : ∀ q ∈ l, q.1 ≤ p.1) : insPair p l = l ++ [p] := by
  induction l with
  | nil => rfl
  | cons q t ih =>
    unfold insPair
    have hq : q.1 ≤ p.1 := h q (by simp)
    rw [if_neg (by omega)]
    simp only [List.cons_append, List.cons.injEq, true_and]
    exact ih fun r hr => h r (List.mem_cons_of_mem q hr)

theorem insPair_lt_last (p a : Nat × Nat) (l : List (Nat × Nat))
    (h : p.1 < a.1) : insPair p (l ++ [a]) = insPair p l ++ [a] := by
  induction l with
  | nil => simp [insPair, h]
  | cons q t ih =>
    unfold insPair
    by_cases hc : p.1 < q.1
    · simp [hc]
    · simp [hc, ih]

theorem firstLookup_cons (k : Nat) (q : Nat × Nat) (t : List (Nat × Nat)) :
    firstLookup k (q :: t)
      = if k > q.1 then firstLookup k t
        else if k = q.1 then some q.2 else none := by
  obtain ⟨a, b⟩ := q
  rfl

theorem firstLookup_insPair_ne (k : Nat) (p : Nat × Nat) (l : List (Nat × Nat))
    (h : k ≠ p.1) : firstLookup k (insPair p l) = firstLookup k l := by
  induction l with
  | nil =>
    show firstLookup k [p] = firstLookup k []
    rw [firstLookup_cons]
    by_cases hgt : k > p.1
    · rw [if_pos hgt]
    · rw [if_neg hgt, if_neg h]; rfl
  | cons q t ih =>
    unfold insPair
    by_cases hc : p.1 < q.1
    · rw [if_pos hc, firstLookup_cons]
      by_cases hgt : k > p.1
      · rw [if_pos hgt]
      · rw [if_neg hgt, if_neg h, firstLookup_cons,
          if_neg (by omega : ¬ k > q.1), if_neg (by omega : ¬ k = q.1)]
    · rw [if_neg hc, firstLookup_cons, firstLookup_cons]
      by_cases hgt : k > q.1
      · rw [if_pos hgt, if_pos hgt, ih]
      · rw [if_neg hgt, if_neg hgt]

theorem firstLookup_insPair_eq (p : Nat × Nat) (l : List (Nat × Nat)) :
    firstLookup p.1 (insPair p l)
      = some ((firstLookup p.1 l).getD p.2) := by
  induction l with
  | nil =>
    show firstLookup p.1 [p] = some ((firstLookup p.1 []).getD p.2)
    rw [firstLookup_cons, if_neg (by omega : ¬ p.1 > p.1), if_pos rfl]
    rfl
  | cons q t ih =>
    unfold insPair
    by_cases hc : p.1 < q.1
    · rw [if_pos hc, firstLookup_cons, if_neg (by omega : ¬ p.1 > p.1), if_pos rfl,
        firstLookup_cons, if_neg (by omega : ¬ p.1 > q.1),
        if_neg (by omega : ¬ p.1 = q.1)]
      rfl
    · rw [if_neg hc, firstLookup_cons, firstLookup_cons]
      by_cases hgt : p.1 > q.1
      · rw [if_pos hgt, if_pos hgt, ih]
      · have heq : p.1 = q.1 := by omega
        rw [if_neg hgt, if_neg hgt, if_pos heq]
        rfl

theorem find?_append_one (f : Nat × Nat → Bool) (p : Nat × Nat) :
    ∀ l : List (Nat × Nat),
      (l ++ [p]).find? f
        = match l.find? f with
          | some x => some x
          | none => if f p then some p else none := by
  intro l
  induction l with
  | nil =>
    simp only [List.nil_append, List.find?]
    cases hf : f p <;> simp [hf]
  | cons q t ih =>
    simp only [List.cons_append, List.find?]
    cases hf : f q <;> simp [hf, ih]

theorem firstAssoc_append_last (k : Nat) (p : Nat × Nat) (l : List (Nat × Nat)) :
    firstAssoc k (l ++ [p])
      = match firstAssoc k l with
        | some v => some v
        | none => if k = p.1 then some p.2 else none := by
  unfold firstAssoc
  rw [find?_append_one]
  cases hf : List.find? (fun q => q.1 == k) l with
  | some x => simp
  | none =>
    by_cases h : k = p.1
    · simp [h]
    · have : (p.1 == k) = false := by
        rw [beq_eq_false_iff_ne]
        omega
      simp [this, h]

theorem firstLookup_sortedInserts (k : Nat) (ins : List (Nat × Nat)) :
    firstLookup k (sortedInserts ins) = firstAssoc k ins := by
  induction ins using List.reverseRecOn with
  | nil => rfl
  | append_singleton t p ih =>
    have hfold : sortedInserts (t ++ [p]) = insPair p (sortedInserts t) := by
      simp [sortedInserts, List.foldl_append]
    rw [hfold, firstAssoc_append_last]
    by_cases h : k = p.1
    · subst h
      rw [firstLookup_insPair_eq, ih]
      cases hfa : firstAssoc p.1 t <;> simp [hfa]
    · rw [firstLookup_insPair_ne k p _ h, ih]
      cases hfa : firstAssoc k t <;> simp [hfa, h]

theorem sortedInserts_sorted (ins : List (Nat × Nat)) :
    sortedKeys (sortedInserts ins) := by
  induction ins using List.reverseRecOn with
  | nil => simp [sortedInserts, sortedKeys]
  | append_singleton t p ih =>
    have hfold : sortedInserts (t ++ [p]) = insPair p (sortedInserts t) := by
      simp [sortedInserts, List.foldl_append]
    rw [hfold]
    exact insPair_sorted p _ ih

theorem sortedInserts_length (ins : List (Nat × Nat)) :
    (sortedInserts ins).length = ins.length := by
  induction ins using List.reverseRecOn with
  | nil => rfl
  | append_singleton t p ih =>
    have hfold : sortedInserts (t ++ [p]) = insPair p (sortedInserts t) := by
      simp [sortedInserts, List.foldl_append]
    rw [hfold, insPair_length, ih]
    simp

/-! ### Array-level lemmas for the leaf insert and leaf search -/

theorem getD_replicate_zero (n : Nat) : ∀ i, (List.replicate n (0 : Nat)).getD i 0 = 0 := by
  induction n with
  | zero => intro i; rfl
  | succ n ih =>
    intro i
    cases i with
    | zero => rfl
    | succ i => exact ih i

theorem set_append_off (x : Nat) : ∀ (l m : List Nat) (i : Nat),
    (l ++ m).set (l.length + i) x = l ++ m.set i x := by
  intro l
  induction l with
  | nil => intro m i; simp
  | cons c t ih =>
    intro m i
    have harith : (c :: t).length + i = (t.length + i) + 1 := by
      simp [List.length_cons]; omega
    rw [List.cons_append, harith, List.set_cons_succ, ih, List.cons_append]

theorem set_zero_ne_nil (tk : List Nat) (h : tk ≠ []) (y : Nat) :
    tk.set 0 y = y :: tk.tail := by
  cases tk with
  | nil => exact absurd rfl h
  | cons a t => rfl

theorem leafPlace_succ (k v : Nat) (ks vs : List Nat) (n : Nat) :
    leafPlace k v ks vs (n + 1)
      = if k < ks.getD n 0 then
          leafPlace k v (ks.set (n + 1) (ks.getD n 0)) (vs.set (n + 1) (vs.getD n 0)) n
        else (ks.set (n + 1) k, vs.set (n + 1) v) := by
  have hloop : leafLoop k ks vs (n + 1)
      = if k < ks.getD n 0 then
          leafLoop k (ks.set (n + 1) (ks.getD n 0)) (vs.set (n + 1) (vs.getD n 0)) n
        else (ks, vs, n + 1) := rfl
  unfold leafPlace
  rw [hloop]
  by_cases h : k < ks.getD n 0
  · rw [if_pos h, if_pos h]
  · rw [if_neg h, if_neg h]

theorem leafPlace_spec (k v : Nat) :
    ∀ (L : List (Nat × Nat)), sortedKeys L →
    ∀ (tk tv : List Nat), tk ≠ [] → tv ≠ [] →
      leafPlace k v (L.map Prod.fst ++ tk) (L.map Prod.snd ++ tv) L.length
        = ((insPair (k, v) L).map Prod.fst ++ tk.tail,
           (insPair (k, v) L).map Prod.snd ++ tv.tail) := by
  intro L
  induction L using List.reverseRecOn with
  | nil =>
    intro _ tk tv htk htv
    show (tk.set 0 k, tv.set 0 v) = (k :: tk.tail, v :: tv.tail)
    rw [set_zero_ne_nil tk htk, set_zero_ne_nil tv htv]
  | append_singleton L q ihL =>
    obtain ⟨a, b⟩ := q
    intro hs tk tv htk htv
    have hsL : sortedKeys L := (List.pairwise_append.mp hs).1
    have hLa : ∀ p ∈ L, p.1 ≤ a := by
      intro p hp
      exact ((List.pairwise_append.mp hs).2.2 p hp (a, b) (by simp) : p.1 ≤ a)
    have hks : (L ++ [(a, b)]).map Prod.fst ++ tk = L.map Prod.fst ++ (a :: tk) := by
      simp
    have hvs : (L ++ [(a, b)]).map Prod.snd ++ tv = L.map Prod.snd ++ (b :: tv) := by
      simp
    have hlen : (L ++ [(a, b)]).length = L.length + 1 := by simp
    have hgetk : (L.map Prod.fst ++ (a :: tk)).getD L.length 0 = a := by
      rw [List.getD_append_right _ _ _ _ (by simp)]
      simp
    have hgetv : (L.map Prod.snd ++ (b :: tv)).getD L.length 0 = b := by
      rw [List.getD_append_right _ _ _ _ (by simp)]
      simp
    have hsetk : ∀ y : Nat, (L.map Prod.fst ++ (a :: tk)).set (L.length + 1) y
        = L.map Prod.fst ++ (a :: y :: tk.tail) := by
      intro y
      have h1 : L.length + 1 = (L.map Prod.fst).length + 1 := by simp
      rw [h1, set_append_off, List.set_cons_succ, set_zero_ne_nil tk htk]
    have hsetv : ∀ y : Nat, (L.map Prod.snd ++ (b :: tv)).set (L.length + 1) y
        = L.map Prod.snd ++ (b :: y :: tv.tail) := by
      intro y
      have h1 : L.length + 1 = (L.map Prod.snd).length + 1 := by simp
      rw [h1, set_append_off, List.set_cons_succ, set_zero_ne_nil tv htv]
    rw [hks, hvs, hlen, leafPlace_succ, hgetk, hgetv]
    by_cases hka : k < a
    · rw [if_pos hka, hsetk a, hsetv b,
        ihL hsL (a :: a :: tk.tail) (b :: b :: tv.tail) (by simp) (by simp),
        insPair_lt_last (k, v) (a, b) L hka]
      simp
    · rw [if_neg hka, hsetk k, hsetv v,
        insPair_append_last (k, v) (L ++ [(a, b)])
          (by
            intro p hp
            rw [List.mem_append] at hp
            rcases hp with hp | hp
            · exact le_trans (hLa p hp) (by omega)
            · rw [List.mem_singleton] at hp
              rw [hp]
              show a ≤ k
              omega)]
      simp

theorem lscanAux_shift (ks : List Nat) (x k : Nat) :
    ∀ c i, lscanAux (x :: ks) k c (i + 1) = lscanAux ks k c i + 1 := by
  intro c
  induction c with
  | zero => intro i; rfl
  | succ c ih =>
    intro i
    show (if k > (x :: ks).getD (i + 1) 0 then lscanAux (x :: ks) k c (i + 2) else i + 1)
      = (if k > ks.getD i 0 then lscanAux ks k c (i + 1) else i) + 1
    have hg : (x :: ks).getD (i + 1) 0 = ks.getD i 0 := rfl
    rw [hg]
    by_cases h : k > ks.getD i 0
    · rw [if_pos h, if_pos h, ih]
    · rw [if_neg h, if_neg h]

theorem leafScan_firstLookup (k : Nat) :
    ∀ (L : List (Nat × Nat)) (tk tv : List Nat),
      (if lscanAux (L.map Prod.fst ++ tk) k L.length 0 < L.length
          ∧ k = (L.map Prod.fst ++ tk).getD
                  (lscanAux (L.map Prod.fst ++ tk) k L.length 0) 0
       then some ((L.map Prod.snd ++ tv).getD
                  (lscanAux (L.map Prod.fst ++ tk) k L.length 0) 0)
       else none)
      = firstLookup k L := by
  intro L
  induction L with
  | nil =>
    intro tk tv
    rw [if_neg]
    · rfl
    · intro hc
      exact absurd hc.1 (by simp [lscanAux])
  | cons q t ih =>
    obtain ⟨a, b⟩ := q
    intro tk tv
    rw [firstLookup_cons]
    simp only [List.map_cons, List.cons_append, List.length_cons]
    have hstep : lscanAux (a :: (t.map Prod.fst ++ tk)) k (t.length + 1) 0
        = if k > a then lscanAux (t.map Prod.fst ++ tk) k t.length 0 + 1 else 0 := by
      show (if k > (a :: (t.map Prod.fst ++ tk)).getD 0 0
            then lscanAux (a :: (t.map Prod.fst ++ tk)) k t.length 1 else 0) = _
      have hg : (a :: (t.map Prod.fst ++ tk)).getD 0 0 = a := rfl
      rw [hg]
      by_cases h : k > a
      · rw [if_pos h, if_pos h]
        exact lscanAux_shift _ a k t.length 0
      · rw [if_neg h, if_neg h]
    by_cases hka : k > a
    · rw [if_pos hka] at hstep
      rw [hstep, if_pos hka]
      have e2 : (a :: (t.map Prod.fst ++ tk)).getD
          (lscanAux (t.map Prod.fst ++ tk) k t.length 0 + 1) 0
          = (t.map Prod.fst ++ tk).getD (lscanAux (t.map Prod.fst ++ tk) k t.length 0) 0 :=
        rfl
      have e3 : (b :: (t.map Prod.snd ++ tv)).getD
          (lscanAux (t.map Prod.fst ++ tk) k t.length 0 + 1) 0
          = (t.map Prod.snd ++ tv).getD (lscanAux (t.map Prod.fst ++ tk) k t.length 0) 0 :=
        rfl
      simp only [e2, e3, Nat.succ_lt_succ_iff]
      exact ih tk tv
    · rw [if_neg hka] at hstep
      rw [hstep, if_neg hka]
      have hg : (a :: (t.map Prod.fst ++ tk)).getD 0 0 = a := rfl
      have hgv : (b :: (t.map Prod.snd ++ tv)).getD 0 0 = b := rfl
      rw [hg, hgv]
      by_cases hke : k = a
      · rw [if_pos ⟨by omega, hke⟩, if_pos hke]
      · rw [if_neg (by intro hc; exact hke hc.2), if_neg hke]

/-! ### The single-leaf regime: system-level lemmas -/

theorem leafNode_isLeaf (L : List (Nat × Nat)) : (leafNode L).isLeaf = true := by
  unfold Node.isLeaf
  rw [List.all_eq_true]
  intro i _
  simp only [beq_iff_eq]
  exact getD_replicate_zero _ _

theorem leafNode_keys (L : List (Nat × Nat)) :
    (leafNode L).keys = L.map Prod.fst ++ List.replicate (MAX_KEYS - L.length) 0 := by
  show pad19 (L.map Prod.fst) = _
  unfold pad19
  rw [List.length_map]

theorem leafNode_values (L : List (Nat × Nat)) :
    (leafNode L).values = L.map Prod.snd ++ List.replicate (MAX_KEYS - L.length) 0 := by
  show pad19 (L.map Prod.snd) = _
  unfold pad19
  rw [List.length_map]

theorem touch_leafState (L : List (Nat × Nat)) :
    touch (leafState L) 1 = leafState L := rfl

theorem insert_createSt (k v : Nat) (fuel : Nat) :
    insert fuel createSt k v = some (leafState [(k, v)]) := rfl

theorem insertNonfull_leafState (L : List (Nat × Nat)) (hs : sortedKeys L)
    (hlen : L.length ≤ 18) (k v : Nat) (f : Nat) :
    insertNonfull (f + 1) (leafState L) 1 k v
      = some (leafState (insPair (k, v) L)) := by
  have htail : List.replicate (MAX_KEYS - L.length) (0 : Nat) ≠ [] := by
    have : MAX_KEYS - L.length ≠ 0 := by
      show 2 * T - 1 - L.length ≠ 0
      unfold T
      omega
    simp [this]
  have htl : (List.replicate (MAX_KEYS - L.length) (0 : Nat)).tail
      = List.replicate (MAX_KEYS - (L.length + 1)) 0 := by
    have : MAX_KEYS - L.length = (MAX_KEYS - (L.length + 1)) + 1 := by
      show 2 * T - 1 - L.length = (2 * T - 1 - (L.length + 1)) + 1
      unfold T
      omega
    rw [this]
    rfl
  unfold insertNonfull
  rw [show peek (leafState L) 1 = some (leafNode L) from rfl]
  simp only [Option.some_bind]
  rw [if_pos (leafNode_isLeaf L)]
  rw [show (leafNode L).num_keys = L.length from rfl, leafNode_keys, leafNode_values]
  rw [leafPlace_spec k v L hs _ _ htail htail]
  simp only
  rw [show ∀ nd, poke (leafState L) 1 nd
        = some { leafState L with cache := [(1, nd)] } from fun nd => rfl]
  congr 1
  show St.mk _ _ _ _ _ = St.mk _ _ _ _ _
  congr 1
  show [(1, _)] = [(1, _)]
  congr 2
  show Node.mk _ _ _ _ _ _ _ = Node.mk _ _ _ _ _ _ _
  rw [htl]
  congr 1
  · show L.length + 1 = (insPair (k, v) L).length
    rw [insPair_length]
  · show (insPair (k, v) L).map Prod.fst ++ _
      = (insPair (k, v) L).map Prod.fst ++ List.replicate (MAX_KEYS - ((insPair (k, v) L).map Prod.fst).length) 0
    rw [List.length_map, insPair_length]
  · show (insPair (k, v) L).map Prod.snd ++ _
      = (insPair (k, v) L).map Prod.snd ++ List.replicate (MAX_KEYS - ((insPair (k, v) L).map Prod.snd).length) 0
    rw [List.length_map, insPair_length]

theorem insert_leafState (L : List (Nat × Nat)) (hs : sortedKeys L)
    (hlen : L.length ≤ 18) (k v : Nat) :
    insert 2 (leafState L) k v = some (leafState (insPair (k, v) L)) := by
  unfold insert
  rw [if_neg (by simp [leafState] : ¬ (leafState L).root = 0)]
  rw [show cacheGet (leafState L) (leafState L).root
        = some (leafNode L, touch (leafState L) 1) from rfl]
  simp only [Option.some_bind]
  rw [if_neg (by
    show ¬ (leafNode L).num_keys = MAX_KEYS
    show ¬ L.length = 2 * T - 1
    unfold T
    omega)]
  rw [touch_leafState]
  exact insertNonfull_leafState L hs hlen k v 1

theorem stateAfter_append_one (t : List (Nat × Nat)) (p : Nat × Nat) :
    stateAfter (t ++ [p])
      = (stateAfter t).bind fun st => insert st.next st p.1 p.2 := by
  unfold stateAfter
  rw [List.foldlM_append]
  cases List.foldlM (fun st (p : Nat × Nat) => insert st.next st p.1 p.2) createSt t with
  | none => rfl
  | some st => simp [List.foldlM_cons, List.foldlM_nil]

theorem stateAfter_leaf (ins : List (Nat × Nat)) :
    ins ≠ [] → ins.length ≤ 19 →
    stateAfter ins = some (leafState (sortedInserts ins)) := by
  induction ins using List.reverseRecOn with
  | nil => intro hne _; exact absurd rfl hne
  | append_singleton t p ih =>
    intro _ hlen
    by_cases ht : t = []
    · rw [ht]
      show stateAfter [p] = _
      rw [show sortedInserts ([] ++ [p]) = [(p.1, p.2)] from rfl]
      show insert createSt.next createSt p.1 p.2 >>= pure = _
      rw [insert_createSt p.1 p.2 createSt.next]
      rfl
    · have hlt : t.length ≤ 19 := by
        rw [List.length_append] at hlen
        simp at hlen
        omega
      rw [stateAfter_append_one, ih ht hlt]
      simp only [Option.some_bind]
      rw [show (leafState (sortedInserts t)).next = 2 from rfl]
      rw [insert_leafState (sortedInserts t) (sortedInserts_sorted t)
        (by rw [sortedInserts_length]; rw [List.length_append] at hlen; simp at hlen; omega)
        p.1 p.2]
      rw [show sortedInserts (t ++ [p]) = insPair p (sortedInserts t) by
        simp [sortedInserts, List.foldl_append]]

theorem search_leafState (L : List (Nat × Nat)) (k : Nat) :
    search 1 (leafState L) k = some (firstLookup k L, leafState L) := by
  unfold search
  rw [if_neg (by simp [leafState] : ¬ (leafState L).root = 0)]
  unfold searchNode
  rw [show cacheGet (leafState L) (leafState L).root
        = some (leafNode L, touch (leafState L) 1) from rfl]
  simp only [Option.some_bind]
  rw [touch_leafState]
  have hscan := leafScan_firstLookup k L
    (List.replicate (MAX_KEYS - L.length) 0) (List.replicate (MAX_KEYS - L.length) 0)
  rw [show lscan (leafNode L) k
        = lscanAux ((leafNode L).keys) k (leafNode L).num_keys 0 from rfl]
  rw [leafNode_keys, leafNode_values,
    show (leafNode L).num_keys = L.length from rfl]
  by_cases hc : lscanAux (L.map Prod.fst ++ List.replicate (MAX_KEYS - L.length) 0)
        k L.length 0 < L.length
      ∧ k = (L.map Prod.fst ++ List.replicate (MAX_KEYS - L.length) 0).getD
          (lscanAux (L.map Prod.fst ++ List.replicate (MAX_KEYS - L.length) 0)
            k L.length 0) 0
  · rw [if_pos hc]
    rw [if_pos hc] at hscan
    rw [hscan]
  · rw [if_neg hc]
    rw [if_neg hc] at hscan
    rw [if_pos (leafNode_isLeaf L), hscan]

/-- Claim C1, counterexample: inserting key 5 twice (values 50 then 60)
and searching 5 returns the FIRST value 50, not the most recent 60 — the
duplicate is placed after its namesake in the leaf and the search scan
stops at the first equal key. -/
theorem C1_counterexample :
    ((stateAfter [(5, 50), (5, 60)]).bind fun st => (search 1 st 5).map Prod.fst)
      = some (some 50) := by decide

/-- Claim C1 as amended: as long as at most 19 inserts have been
performed on a fresh tree (so the root has not yet split), `search k`
returns the value of the FIRST insert whose key is `k` — first-write
wins for duplicate keys, and for pairwise-distinct keys the inserted
value — and absent when `k` was never inserted.  (Beyond 19 inserts the
statement fails: the 20th insert splits the root and `split_child`
destroys the promoted pair, making even distinct inserted keys
unsearchable.) -/
theorem C1_amended_first_write_wins (ins : List (Nat × Nat)) (hne : ins ≠ [])
    (hlen : ins.length ≤ 19) (k : Nat) :
    ((stateAfter ins).bind fun st => (search 1 st k).map Prod.fst)
      = some (firstAssoc k ins) := by
  rw [stateAfter_leaf ins hne hlen]
  simp only [Option.some_bind]
  rw [search_leafState, firstLookup_sortedInserts]
  rfl

/-- Concrete instance of `C1_amended_first_write_wins`: two duplicate
inserts of key 5; the first value 50 is returned. -/
theorem C1_amended_witness :
    ((stateAfter [(5, 50), (5, 60)]).bind fun st => (search 1 st 5).map Prod.fst)
        = some (firstAssoc 5 [(5, 50), (5, 60)])
    ∧ firstAssoc 5 [(5, 50), (5, 60)] = some 50 :=
  ⟨C1_amended_first_write_wins [(5, 50), (5, 60)] (by decide) (by decide) 5,
   by decide⟩

/-- Claim C3, counterexample: after the 30 inserts of `ins30` (the 30th
splits a full leaf while three pages are already resident) the cache
holds FOUR decoded pages, exceeding the claimed capacity of three:
`_evict_if_needed` returns early when the count is exactly 3, and the
new page is admitted on top. -/
theorem C3_counterexample :
    ((stateAfter ins30).map fun st => st.cache.length) = some 4 := by decide

/-- Claim C3 as amended: the page cache holds at most FOUR resident
decoded pages.  `_evict_if_needed` only evicts while more than three
pages are resident (returning immediately at exactly three), so an
admission on a three-page cache yields four; every admission first
brings residency down to at most three (LRU order, dirty pages written
back), so four is never exceeded across any sequence of cache
operations. -/
theorem C3_amended_capacity_four (st : St) (ops : List CacheOp) (st' : St)
    (h : runCacheOps st ops = some st') (h0 : st.cache.length ≤ 4) :
    st'.cache.length ≤ 4 := by
  induction ops generalizing st with
  | nil => cases h; exact h0
  | cons op t ih =>
    simp only [runCacheOps, List.foldlM_cons, Option.bind_eq_bind,
      Option.bind_eq_some] at h
    obtain ⟨st1, ho, h⟩ := h
    exact ih st1 h (runCacheOp_length_le st op st1 ho h0)

/-- Concrete instance of `C3_amended_capacity_four`: one allocation on a
fresh cache. -/
theorem C3_amended_capacity_witness : c3WitnessSt.cache.length ≤ 4 :=
  C3_amended_capacity_four createSt [CacheOp.new 1 0] c3WitnessSt
    (by decide) (by decide)

/-- Claim C8, counterexample: searching a key absent from the index
prints exactly `Error: key not found` but the process exits with status
0 — the miss branch of `cmd_search` has no `sys.exit`. -/
theorem C8_counterexample :
    ((stateAfter [(5, 50)]).bind fun st => cmdSearch 3 st 7)
      = some (["Error: key not found"], 0) := by decide

/-- Claim C8 as amended: on a search miss (and a close that succeeds)
`cmd_search` prints exactly the literal line `Error: key not found` to
standard output and the process exits with status ZERO. -/
theorem C8_amended_miss_prints_error (fuel k : Nat) (st st1 stC : St)
    (hmiss : search fuel st k = some (none, st1))
    (hclose : close st1 = some stC) :
    cmdSearch fuel st k = some (["Error: key not found"], 0) := by
  unfold cmdSearch
  rw [hmiss]
  simp [hclose]

/-- Concrete instance of `C8_amended_miss_prints_error`: a one-pair tree
searched for the absent key 7. -/
theorem C8_amended_miss_witness :
    cmdSearch 3 (leafState [(5, 50)]) 7 = some (["Error: key not found"], 0) := by
  have h : (close c8MissSt).isSome = true := by decide
  obtain ⟨stC, hstC⟩ := Option.isSome_iff_exists.mp h
  exact C8_amended_miss_prints_error 3 7 (leafState [(5, 50)]) c8MissSt stC
    (by decide) hstC

/-- Claim C9, counterexample: the row `-1,5` has two fields that are
valid signed decimals but a negative key, so the claim says it is
skipped; `cmd_load` nevertheless calls `insert(-1, 5)` for it — the
`except ValueError` guard never fires on in-range-syntax negatives. -/
theorem C9_counterexample :
    claimAccept ["-1", "5"] = none ∧ loadCalls [["-1", "5"]] = [(-1, 5)] := by decide

/-- Claim C9 as amended: bulk load skips exactly the rows with fewer
than two fields or whose first two fields do not parse as Python
integers; `insert` is called for every other row in file order,
including rows whose key or value is negative or at least `2^64` (those
are NOT skipped; they later crash the process when the page holding them
is serialized). -/
theorem C9_amended_load_filter (rows : List (List String)) :
    loadCalls rows = rows.filterMap codeAccept := by
  induction rows with
  | nil => rfl
  | cons row rest ih =>
    simp only [loadCalls, codeAccept, List.filterMap_cons]
    by_cases h : row.length < 2
    · simp [h, ih]
    · simp only [if_neg h]
      cases hk : pyInt (row.getD 0 "") <;> cases hv : pyInt (row.getD 1 "") <;>
        simp [ih]

/-- Claim C10: when the descent of `_search_node` reaches a non-leaf
node whose key scan misses and whose selected child slot `children[i]`
is zero, the search returns absent (`None`) instead of failing or
reading block 0 as a node. -/
theorem C10_zero_child_returns_absent (st : St) (b k : Nat) (nd : Node) (st1 : St)
    (hget : cacheGet st b = some (nd, st1))
    (hleaf : nd.isLeaf = false)
    (hmiss : ¬(lscan nd k < nd.num_keys ∧ k = nd.keys.getD (lscan nd k) 0))
    (hzero : nd.children.getD (lscan nd k) 0 = 0) (fuel : Nat) :
    searchNode (fuel + 1) st b k = some (none, st1) := by
  unfold searchNode
  rw [hget]
  simp only [Option.bind_some, Option.some_bind]
  rw [if_neg hmiss, if_neg (by simp [hleaf]), if_pos hzero]

/-- Concrete instance of `C10_zero_child_returns_absent`: an internal
node whose slot for key 9 is zero. -/
theorem C10_zero_child_witness :
    searchNode 1 c10St 3 9 = some (none, touch c10St 3) :=
  C10_zero_child_returns_absent c10St 3 9 c10Node (touch c10St 3)
    (by decide) (by decide) (by decide) (by decide) 0

/-! ### Structural header-field lemmas for the insert path (C6)

None of the cache operations reads or writes `root`, and only the two
`next_block` bumps in `insert`/`_split_child` write `next`; these
lemmas record that without assuming any consistency of the state. -/

/-- `_evict_if_needed` leaves the header fields alone. -/
theorem evictGo_fields (f : Nat) :
    ∀ st st', evictGo f st = some st' → st'.root = st.root ∧ st'.next = st.next := by
  induction f with
  | zero =>
    intro st st' h
    unfold evictGo at h
    split at h
    · exact Option.noConfusion h
    · cases h
      exact ⟨rfl, rfl⟩
  | succ f ih =>
    intro st st' h
    unfold evictGo at h
    split at h
    · rw [Option.bind_eq_some] at h
      obtain ⟨v, -, h⟩ := h
      rw [Option.bind_eq_some] at h
      obtain ⟨nd, -, h⟩ := h
      split at h
      · rw [Option.bind_eq_some] at h
        obtain ⟨fl, -, h⟩ := h
        obtain ⟨hr, hn⟩ := ih _ _ h
        exact ⟨hr, hn⟩
      · obtain ⟨hr, hn⟩ := ih _ _ h
        exact ⟨hr, hn⟩
    · cases h
      exact ⟨rfl, rfl⟩

/-- `NodeCache.get` leaves the header fields alone. -/
theorem cacheGet_fields (st : St) (b : Nat) (nd : Node) (st' : St)
    (h : cacheGet st b = some (nd, st')) :
    st'.root = st.root ∧ st'.next = st.next := by
  unfold cacheGet at h
  split at h
  · cases h
    exact ⟨rfl, rfl⟩
  · rw [Option.bind_eq_some] at h
    obtain ⟨st1, h1, h⟩ := h
    have hf1 : st1.root = st.root ∧ st1.next = st.next := by
      by_cases hc : 3 ≤ st.cache.length
      · rw [if_pos hc] at h1
        exact evictGo_fields _ _ _ h1
      · rw [if_neg hc] at h1
        cases h1
        exact ⟨rfl, rfl⟩
    rw [Option.bind_eq_some] at h
    obtain ⟨data, -, h⟩ := h
    split at h
    · simp only at h
      cases h
      exact hf1
    · exact Option.noConfusion h

/-- `NodeCache.new_node` leaves the header fields alone. -/
theorem newNode_fields (st : St) (b p : Nat) (nd : Node) (st' : St)
    (h : newNode st b p = some (nd, st')) :
    st'.root = st.root ∧ st'.next = st.next := by
  unfold newNode at h
  rw [Option.map_eq_some'] at h
  obtain ⟨st1, h1, h⟩ := h
  have hf1 : st1.root = st.root ∧ st1.next = st.next := by
    by_cases hc : 3 ≤ st.cache.length
    · rw [if_pos hc] at h1
      exact evictGo_fields _ _ _ h1
    · rw [if_neg hc] at h1
      cases h1
      exact ⟨rfl, rfl⟩
  cases h
  exact hf1

/-- Attribute assignment through a reference only swaps a cache entry. -/
theorem poke_fields (st : St) (b : Nat) (nd : Node) (st' : St)
    (h : poke st b nd = some st') :
    st'.root = st.root ∧ st'.next = st.next := by
  unfold poke at h
  split at h
  · cases h
    exact ⟨rfl, rfl⟩
  · exact Option.noConfusion h

/-- `_split_child` allocates exactly one block and leaves the root alone. -/
theorem splitChild_fields (st : St) (pb i : Nat) (st' : St)
    (h : splitChild st pb i = some st') :
    st'.root = st.root ∧ st'.next = st.next + 1 := by
  rw [splitChild_eq, Option.bind_eq_some] at h
  obtain ⟨parent, -, h⟩ := h
  simp only at h
  rw [Option.bind_eq_some] at h
  obtain ⟨⟨oldC, st1⟩, h1, h⟩ := h
  obtain ⟨hr1, hn1⟩ := cacheGet_fields st _ oldC st1 h1
  simp only at h
  rw [Option.bind_eq_some] at h
  obtain ⟨⟨newC0, st3⟩, h3, h⟩ := h
  obtain ⟨hr3, hn3⟩ := newNode_fields _ _ _ newC0 st3 h3
  simp only at h
  rw [Option.bind_eq_some] at h
  obtain ⟨st4, h4, h⟩ := h
  obtain ⟨hr4, hn4⟩ := poke_fields _ _ _ _ h4
  rw [Option.bind_eq_some] at h
  obtain ⟨st5, h5, h6⟩ := h
  obtain ⟨hr5, hn5⟩ := poke_fields _ _ _ _ h5
  obtain ⟨hr6, hn6⟩ := poke_fields _ _ _ _ h6
  have hr3' : st3.root = st1.root := hr3
  have hn3' : st3.next = st1.next + 1 := hn3
  constructor
  · rw [hr6, hr5, hr4, hr3', hr1]
  · omega

/-- `_insert_nonfull` never decreases `next_block` (block indices are
never reused) and never moves the root pointer. -/
theorem insertNonfull_mono : ∀ f st b k v st',
    insertNonfull f st b k v = some st' →
    st'.root = st.root ∧ st.next ≤ st'.next := by
  intro f
  induction f with
  | zero =>
    intro st b k v st' h
    exact Option.noConfusion h
  | succ f ih =>
    intro st b k v st' h
    unfold insertNonfull at h
    cases hpk : peek st b with
    | none =>
      rw [hpk] at h
      simp only [Option.none_bind] at h
      exact Option.noConfusion h
    | some nd =>
      rw [hpk] at h
      simp only [Option.some_bind] at h
      by_cases hleaf : nd.isLeaf = true
      · rw [if_pos hleaf] at h
        obtain ⟨hr, hn⟩ := poke_fields st b _ st' h
        exact ⟨hr, le_of_eq hn.symm⟩
      · rw [if_neg hleaf] at h
        rw [Option.bind_eq_some] at h
        obtain ⟨⟨child, st1⟩, hget, h⟩ := h
        obtain ⟨hr1, hn1⟩ := cacheGet_fields st _ child st1 hget
        simp only at h
        by_cases hfull : child.num_keys = MAX_KEYS
        · rw [if_pos hfull] at h
          rw [Option.bind_eq_some] at h
          obtain ⟨st2, hsc, h⟩ := h
          obtain ⟨hr2, hn2⟩ := splitChild_fields st1 b _ st2 hsc
          rw [Option.bind_eq_some] at h
          obtain ⟨nd2, hpk2, h⟩ := h
          rw [Option.bind_eq_some] at h
          obtain ⟨⟨c2, st3⟩, hget2, h⟩ := h
          obtain ⟨hr3, hn3⟩ := cacheGet_fields st2 _ c2 st3 hget2
          obtain ⟨hr4, hn4⟩ := ih st3 _ k v st' h
          constructor
          · rw [hr4, hr3, hr2, hr1]
          · omega
        · rw [if_neg hfull] at h
          obtain ⟨hr4, hn4⟩ := ih st1 _ k v st' h
          constructor
          · rw [hr4, hr1]
          · omega

/-! ### The leaf-insert branch: array shape and the preserved invariant -/

/-- The leaf shift loop keeps both array lengths and writes only values
already present (or the padding zero). -/
theorem leafLoop_shape (k : Nat) : ∀ n ks vs,
    (leafLoop k ks vs n).1.length = ks.length
    ∧ (leafLoop k ks vs n).2.1.length = vs.length
    ∧ (∀ x ∈ (leafLoop k ks vs n).1, x ∈ ks ∨ x = 0)
    ∧ (∀ x ∈ (leafLoop k ks vs n).2.1, x ∈ vs ∨ x = 0) := by
  intro n
  induction n with
  | zero =>
    intro ks vs
    exact ⟨rfl, rfl, fun x hx => Or.inl hx, fun x hx => Or.inl hx⟩
  | succ n ih =>
    intro ks vs
    simp only [leafLoop]
    by_cases hlt : k < ks.getD n 0
    · rw [if_pos hlt]
      obtain ⟨h1, h2, h3, h4⟩ := ih (ks.set (n + 1) (ks.getD n 0)) (vs.set (n + 1) (vs.getD n 0))
      refine ⟨by rw [h1, List.length_set], by rw [h2, List.length_set], ?_, ?_⟩
      · intro x hx
        rcases h3 x hx with hm | hz
        · rcases mem_of_set _ _ _ _ hm with hm2 | he
          · exact Or.inl hm2
          · rcases getD_mem_or_zero ks n with hm3 | hz3
            · exact Or.inl (he ▸ hm3)
            · exact Or.inr (he.trans hz3)
        · exact Or.inr hz
      · intro x hx
        rcases h4 x hx with hm | hz
        · rcases mem_of_set _ _ _ _ hm with hm2 | he
          · exact Or.inl hm2
          · rcases getD_mem_or_zero vs n with hm3 | hz3
            · exact Or.inl (he ▸ hm3)
            · exact Or.inr (he.trans hz3)
        · exact Or.inr hz
    · rw [if_neg hlt]
      exact ⟨rfl, rfl, fun x hx => Or.inl hx, fun x hx => Or.inl hx⟩

/-- The whole leaf placement keeps the lengths and introduces only the
new key/value beyond the existing entries and zero. -/
theorem leafPlace_shape (k v : Nat) (ks vs : List Nat) (n : Nat) :
    (leafPlace k v ks vs n).1.length = ks.length
    ∧ (leafPlace k v ks vs n).2.length = vs.length
    ∧ (∀ x ∈ (leafPlace k v ks vs n).1, x ∈ ks ∨ x = 0 ∨ x = k)
    ∧ (∀ x ∈ (leafPlace k v ks vs n).2, x ∈ vs ∨ x = 0 ∨ x = v) := by
  obtain ⟨h1, h2, h3, h4⟩ := leafLoop_shape k n ks vs
  refine ⟨?_, ?_, ?_, ?_⟩
  · show ((leafLoop k ks vs n).1.set (leafLoop k ks vs n).2.2 k).length = ks.length
    rw [List.length_set, h1]
  · show ((leafLoop k ks vs n).2.1.set (leafLoop k ks vs n).2.2 v).length = vs.length
    rw [List.length_set, h2]
  · intro x hx
    rcases mem_of_set _ _ _ _ hx with hm | he
    · rcases h3 x hm with hm2 | hz
      · exact Or.inl hm2
      · exact Or.inr (Or.inl hz)
    · exact Or.inr (Or.inr he)
  · intro x hx
    rcases mem_of_set _ _ _ _ hx with hm | he
    · rcases h4 x hm with hm2 | hz
      · exact Or.inl hm2
      · exact Or.inr (Or.inl hz)
    · exact Or.inr (Or.inr he)

/-- In a node with no live child pointers every structural slot is zero. -/
theorem childSlots_all_zero (nd : Node) (h : ∀ x ∈ nd.children, x = 0) :
    ∀ c, c ∈ childSlots nd → c = 0 := by
  intro c hc
  by_contra hc0
  exact hc0 (h c (childSlots_mem_children nd c hc hc0))

/-- A proper node that tests as a leaf has no live child pointer at all. -/
theorem isLeaf_children_zero (nd : Node) (hp : properNode nd)
    (hl : nd.isLeaf = true) : ∀ x ∈ nd.children, x = 0 := by
  rcases hp with h | h
  · exact h
  · exact absurd (isLeaf_getD nd hl 0 (Nat.zero_le _)) (h 0 (Nat.zero_le _))

/-- A proper node that tests as internal has a live pointer in every
structural slot. -/
theorem not_isLeaf_slots (nd : Node) (hp : properNode nd)
    (hl : nd.isLeaf = false) : ∀ j, j ≤ nd.num_keys → nd.children.getD j 0 ≠ 0 := by
  rcases hp with h | h
  · rw [isLeaf_of_zero nd h] at hl
    exact Bool.noConfusion hl
  · exact h

/-- Writing back a leaf page (no live child pointers before or after)
preserves allocation tightness: no reachability derivation ever steps
through a leaf. -/
theorem leaf_poke_RInv (st st' : St) (b : Nat) (ndV nd' : Node)
    (hR : RInv st) (hn1 : 1 ≤ st.next)
    (hb1 : 1 ≤ b)
    (hv : view st b = some ndV)
    (hzero : ∀ x ∈ ndV.children, x = 0)
    (hroot' : st'.root = st.root) (hnext' : st'.next = st.next)
    (hview' : ∀ b', 1 ≤ b' → b' ≠ b → view st' b' = view st b')
    (hvb' : view st' b = some nd')
    (hch : nd'.children = ndV.children)
    (hnk : nd'.num_keys ≤ MAX_KEYS) :
    RInv st' := by
  obtain ⟨hreach, hcb, hprop, hnkO, depth, hd0, hde⟩ := hR
  have hzero' : ∀ x ∈ nd'.children, x = 0 := by
    rw [hch]
    exact hzero
  have hsim : ∀ c, Reach (view st) st.root c → Reach (view st') st.root c := by
    intro c hc
    induction hc with
    | base h0 => exact Reach.base h0
    | step b0 c nd0 hr hv0 hm hc0 ih =>
      by_cases hbb : b0 = b
      · exfalso
        rw [hbb, hv] at hv0
        obtain rfl := Option.some.inj hv0.symm
        exact hc0 (childSlots_all_zero _ hzero c hm)
      · refine Reach.step b0 c nd0 ih ?_ hm hc0
        rw [hview' b0 (Reach_pos _ _ _ hr) hbb]
        exact hv0
  refine ⟨?_, ?_, ?_, ?_, ?_⟩
  · intro b0 h1 hlt
    rw [hroot']
    rw [hnext'] at hlt
    exact hsim b0 (hreach b0 h1 hlt)
  · intro b0 nd0 h1 hv0
    rw [hnext']
    by_cases hbb : b0 = b
    · rw [hbb, hvb'] at hv0
      obtain rfl := Option.some.inj hv0.symm
      intro x hx
      rw [hzero' x hx]
      omega
    · rw [hview' b0 h1 hbb] at hv0
      exact hcb b0 nd0 h1 hv0
  · intro b0 nd0 h1 hv0
    by_cases hbb : b0 = b
    · rw [hbb, hvb'] at hv0
      obtain rfl := Option.some.inj hv0.symm
      exact Or.inl hzero'
    · rw [hview' b0 h1 hbb] at hv0
      exact hprop b0 nd0 h1 hv0
  · intro b0 nd0 h1 hv0
    by_cases hbb : b0 = b
    · rw [hbb, hvb'] at hv0
      obtain rfl := Option.some.inj hv0.symm
      exact hnk
    · rw [hview' b0 h1 hbb] at hv0
      exact hnkO b0 nd0 h1 hv0
  · refine ⟨depth, by rw [hroot']; exact hd0, ?_⟩
    intro b0 nd0 h1 hv0 c hm hc0
    by_cases hbb : b0 = b
    · exfalso
      rw [hbb, hvb'] at hv0
      obtain rfl := Option.some.inj hv0.symm
      exact hc0 (childSlots_all_zero _ hzero' c hm)
    · rw [hview' b0 h1 hbb] at hv0
      exact hde b0 nd0 h1 hv0 c hm hc0

/-- `_insert_nonfull` on a consistent, allocation-tight state whose
target node is viewed and non-full keeps the state consistent and
allocation-tight, never moves the root, and never reuses a block index.
The bound on the final `next_block` makes every intermediate allocation
fit its 8-byte field. -/
theorem insertNonfull_spec : ∀ f st b k v st' ndV,
    Inv st → RInv st → 1 ≤ b →
    view st b = some ndV → ndV.num_keys < MAX_KEYS →
    k < 2 ^ 64 → v < 2 ^ 64 → st'.next < 2 ^ 64 →
    insertNonfull f st b k v = some st' →
    Inv st' ∧ RInv st' ∧ st'.root = st.root ∧ st.next ≤ st'.next := by
  intro f
  induction f with
  | zero =>
    intro st b k v st' ndV _ _ _ _ _ _ _ _ h
    exact Option.noConfusion h
  | succ f ih =>
    intro st b k v st' ndV hInv hR hb1 hvv hnf hk hv64 hfin h
    unfold insertNonfull at h
    cases hpk : peek st b with
    | none =>
      rw [hpk] at h
      simp only [Option.none_bind] at h
      exact Option.noConfusion h
    | some nd =>
      rw [hpk] at h
      simp only [Option.some_bind] at h
      have hvb : view st b = some ({ nd with dirty := false } : Node) :=
        view_of_lookup_some st b nd hpk
      have hstrip : ({ nd with dirty := false } : Node) = ndV :=
        Option.some.inj (hvb.symm.trans hvv)
      have hnum_eq : nd.num_keys = ndV.num_keys := by
        have hX := congrArg Node.num_keys hstrip
        exact hX
      have hch_eq : nd.children = ndV.children := by
        have hX := congrArg Node.children hstrip
        exact hX
      obtain ⟨hgood, -⟩ := hInv.2.2.2.2.2.2.2.2.1 (b, nd) (lookupCache_mem _ _ _ hpk)
      by_cases hleaf : nd.isLeaf = true
      · -- leaf branch: shift-and-place, then write back through the reference
        rw [if_pos hleaf] at h
        have h' : poke st b { nd with
            num_keys := nd.num_keys + 1,
            keys := (leafPlace k v nd.keys nd.values nd.num_keys).1,
            values := (leafPlace k v nd.keys nd.values nd.num_keys).2,
            dirty := true } = some st' := h
        have hlpk := leafPlace_shape k v nd.keys nd.values nd.num_keys
        have hwfN : ({ nd with
            num_keys := nd.num_keys + 1,
            keys := (leafPlace k v nd.keys nd.values nd.num_keys).1,
            values := (leafPlace k v nd.keys nd.values nd.num_keys).2,
            dirty := true } : Node).wf64 := by
          obtain ⟨w1, w2, w3, w4, w5, w6, w7, w8, w9⟩ := hgood.2.2.2
          refine ⟨w1, w2, ?_, ?_, ?_, w6, ?_, ?_, w9⟩
          · show nd.num_keys + 1 < 2 ^ 64
            have : (19 : Nat) < 2 ^ 64 := by decide
            have h19 : ndV.num_keys < 19 := hnf
            omega
          · show (leafPlace k v nd.keys nd.values nd.num_keys).1.length = MAX_KEYS
            rw [hlpk.1, w4]
          · show (leafPlace k v nd.keys nd.values nd.num_keys).2.length = MAX_KEYS
            rw [hlpk.2.1, w5]
          · intro x hx
            rcases hlpk.2.2.1 x hx with hm | hz | hk2
            · exact w7 x hm
            · rw [hz]
              decide
            · rw [hk2]
              exact hk
          · intro x hx
            rcases hlpk.2.2.2 x hx with hm | hz | hv2
            · exact w8 x hm
            · rw [hz]
              decide
            · rw [hv2]
              exact hv64
        obtain ⟨stP, hpe, hIP, hroP, hnP, hfP, hvwP, hvbP, -⟩ :=
          poke_spec st b nd { nd with
            num_keys := nd.num_keys + 1,
            keys := (leafPlace k v nd.keys nd.values nd.num_keys).1,
            values := (leafPlace k v nd.keys nd.values nd.num_keys).2,
            dirty := true } hInv hpk hgood.1 hwfN rfl
        obtain rfl := Option.some.inj (hpe.symm.trans h')
        refine ⟨hIP, ?_, hroP, le_of_eq hnP.symm⟩
        have hpropV : properNode ndV := hR.2.2.1 b ndV hb1 hvv
        have hlV : ndV.isLeaf = true := by
          rw [← hstrip]
          exact hleaf
        refine leaf_poke_RInv st stP b ndV _ hR hInv.1 hb1 hvv
          (isLeaf_children_zero ndV hpropV hlV) hroP hnP hvwP hvbP ?_ ?_
        · show nd.children = ndV.children
          exact hch_eq
        · show nd.num_keys + 1 ≤ MAX_KEYS
          have h19 : ndV.num_keys < MAX_KEYS := hnf
          omega
      · -- internal branch: descend, splitting the chosen child if full
        rw [if_neg hleaf] at h
        have hlf : nd.isLeaf = false := by
          cases hx : nd.isLeaf with
          | false => rfl
          | true => exact absurd hx hleaf
        have hiLe : rscan nd k nd.num_keys ≤ ndV.num_keys := by
          rw [← hnum_eq]
          exact rscan_le nd k nd.num_keys
        have hpropV : properNode ndV := hR.2.2.1 b ndV hb1 hvv
        have hlfV : ndV.isLeaf = false := by
          rw [← hstrip]
          exact hlf
        have hcid0 : ndV.children.getD (rscan nd k nd.num_keys) 0 ≠ 0 :=
          not_isLeaf_slots ndV hpropV hlfV _ hiLe
        have hcid_nd : nd.children.getD (rscan nd k nd.num_keys) 0
            = ndV.children.getD (rscan nd k nd.num_keys) 0 := by
          rw [hch_eq]
        have hcid1 : 1 ≤ ndV.children.getD (rscan nd k nd.num_keys) 0 :=
          Nat.one_le_iff_ne_zero.mpr hcid0
        have hcidlt : ndV.children.getD (rscan nd k nd.num_keys) 0 < st.next := by
          refine hR.2.1 b ndV hb1 hvv _ ?_
          rcases getD_mem_or_zero ndV.children (rscan nd k nd.num_keys) with hm | hz
          · exact hm
          · exact absurd hz hcid0
        obtain ⟨childV, hvc⟩ := view_defined st _ hInv hcid1 hcidlt
        obtain ⟨child, st1, hget, hstep1, hstrip1⟩ :=
          cacheGet_view st (nd.children.getD (rscan nd k nd.num_keys) 0) childV hInv
            (by rw [hcid_nd]; exact hcid1) (by rw [hcid_nd]; exact hvc)
        rw [hget] at h
        simp only [Option.some_bind] at h
        obtain ⟨hInv1, hroot1, hnext1, hview1⟩ := hstep1
        have hR1 : RInv st1 := RInv_of_StepOK st st1 ⟨hInv1, hroot1, hnext1, hview1⟩ hR
        have hnum_c : child.num_keys = childV.num_keys := by
          have hX := congrArg Node.num_keys hstrip1
          exact hX
        have hv1 : view st1 (ndV.children.getD (rscan nd k nd.num_keys) 0) = some childV := by
          rw [hview1 _ hcid1]
          exact hvc
        by_cases hfull : child.num_keys = MAX_KEYS
        · -- the chosen child is full: split it, then descend left or right
          rw [if_pos hfull] at h
          rw [Option.bind_eq_some] at h
          obtain ⟨st2, hsc, h⟩ := h
          have hsc' := hsc
          rw [Option.bind_eq_some] at h
          obtain ⟨nd2, hpk2, h⟩ := h
          rw [Option.bind_eq_some] at h
          obtain ⟨⟨c2, st3⟩, hget2, hrec⟩ := h
          obtain ⟨hro3, hmo3⟩ := insertNonfull_mono f st3 _ k v st' hrec
          obtain ⟨hr2f, hn2f⟩ := cacheGet_fields st2 _ c2 st3 hget2
          obtain ⟨hrsc, hnsc⟩ := splitChild_fields st1 b _ st2 hsc'
          have hn64 : st1.next + 1 < 2 ^ 64 := by omega
          -- identify the resident parent reference used by `_split_child`
          rw [splitChild_eq] at hsc
          cases hpk1 : peek st1 b with
          | none =>
            rw [hpk1] at hsc
            simp only [Option.none_bind] at hsc
            exact Option.noConfusion hsc
          | some parentC =>
          have hvp1 : view st1 b = some ({ parentC with dirty := false } : Node) :=
            view_of_lookup_some st1 b parentC hpk1
          have hvb1 : view st1 b = some ndV := by
            rw [hview1 b hb1]
            exact hvv
          have hstripP : ({ parentC with dirty := false } : Node) = ndV :=
            Option.some.inj (hvp1.symm.trans hvb1)
          have hPnum : parentC.num_keys = ndV.num_keys := by
            have hX := congrArg Node.num_keys hstripP
            exact hX
          have hPch : parentC.children = ndV.children := by
            have hX := congrArg Node.children hstripP
            exact hX
          obtain ⟨oldC, hOc, hInv2, hroot2, hnext2, hview2, hvP, hvO, hvN,
              hpbold, holdn2, hpbn2⟩ :=
            splitChild_spec st1 st2 b (rscan nd k nd.num_keys) parentC childV hInv1 hn64 hpk1
              (by rw [hPnum]; exact hnf)
              (by rw [hPnum]; exact hiLe)
              (by rw [hPch]; exact hcid0)
              (by rw [hPch]; exact hv1)
              (by rw [← hnum_c]; exact hfull)
              hsc'
          obtain ⟨hR2, hsim2⟩ :=
            split_RInv st1 st2 b (rscan nd k nd.num_keys)
              (parentC.children.getD (rscan nd k nd.num_keys) 0) st1.next parentC childV oldC
              hInv1 hR1 hOc hvp1 (by rw [hPch]; exact hv1) rfl rfl
              hb1 hpbn2
              (by rw [hPch]; exact hcid1) holdn2 hpbold
              (by rw [hPnum]; exact hnf) (by rw [hPnum]; exact hiLe)
              (by rw [hPch]; exact hcid0)
              (by rw [← hnum_c]; exact hfull)
              hInv2 hroot2 hnext2 hview2 hvP hvO hvN
          -- the reference `_split_child` left for the parent
          have hvb2 : view st2 b = some ({ nd2 with dirty := false } : Node) :=
            view_of_lookup_some st2 b nd2 hpk2
          have hstrip2 : ({ nd2 with dirty := false } : Node)
              = ({ splitPar parentC (rscan nd k nd.num_keys) st1.next (splitOldMid oldC)
                    with dirty := false } : Node) :=
            Option.some.inj (hvb2.symm.trans hvP)
          have hch2 : nd2.children
              = (splitPar parentC (rscan nd k nd.num_keys) st1.next (splitOldMid oldC)).children := by
            have hX := congrArg Node.children hstrip2
            exact hX
          have hwfP : parentC.wf64 :=
            (wf64_strip parentC).mp (by rw [hstripP]; exact (view_good st1 b _ hInv1 hb1 hvb1).2.2)
          obtain ⟨hf1, hf2, -⟩ :=
            splitPar_children_facts parentC (rscan nd k nd.num_keys) st1.next
              (splitOldMid oldC) hwfP.2.2.2.2.2.1
              (by rw [hPnum]; exact hnf) (by rw [hPnum]; exact hiLe)
          have hgdI : nd2.children.getD (rscan nd k nd.num_keys) 0
              = ndV.children.getD (rscan nd k nd.num_keys) 0 := by
            rw [hch2, hf1 _ (le_refl _), hPch]
          have hgdI1 : nd2.children.getD (rscan nd k nd.num_keys + 1) 0 = st1.next := by
            rw [hch2]
            exact hf2
          -- shared continuation: recurse into either half of the split
          have hcont : ∀ cid c2x st3x, 1 ≤ cid → cid < st2.next →
              (∀ m, view st2 cid = some m → m.num_keys < MAX_KEYS) →
              cacheGet st2 cid = some (c2x, st3x) →
              insertNonfull f st3x cid k v = some st' →
              Inv st' ∧ RInv st' ∧ st'.root = st2.root ∧ st2.next ≤ st'.next := by
            intro cid c2x st3x h1c hltc hmc hgetx hrecx
            obtain ⟨m2, hvm2⟩ := view_defined st2 cid hInv2 h1c hltc
            obtain ⟨c2y, st3y, hgy, hstepy, -⟩ := cacheGet_view st2 cid m2 hInv2 h1c hvm2
            rw [hgetx] at hgy
            cases Option.some.inj hgy
            obtain ⟨hInv3, hroot3, hnext3, hview3⟩ := hstepy
            have hR3 : RInv st3x :=
              RInv_of_StepOK st2 st3x ⟨hInv3, hroot3, hnext3, hview3⟩ hR2
            have hv3 : view st3x cid = some m2 := by
              rw [hview3 cid h1c]
              exact hvm2
            obtain ⟨hI', hR', hro', hmo'⟩ :=
              ih st3x cid k v st' m2 hInv3 hR3 h1c hv3 (hmc m2 hvm2) hk hv64 hfin hrecx
            refine ⟨hI', hR', by rw [hro', hroot3], ?_⟩
            rw [← hnext3]
            exact hmo'
          by_cases hgt : k > nd2.keys.getD (rscan nd k nd.num_keys) 0
          · rw [if_pos hgt, hgdI1] at hget2 hrec
            obtain ⟨hI', hR', hro', hmo'⟩ := hcont st1.next c2 st3 hInv1.1 (by omega)
              (by
                intro m hm
                rw [hvN] at hm
                obtain rfl := Option.some.inj hm.symm
                show (splitNew oldC (Node.fresh st1.next b)).num_keys < MAX_KEYS
                rw [splitNew_num]
                decide)
              hget2 hrec
            refine ⟨hI', hR', by rw [hro', hroot2, hroot1], ?_⟩
            omega
          · rw [if_neg hgt, hgdI] at hget2 hrec
            obtain ⟨hI', hR', hro', hmo'⟩ := hcont
              (ndV.children.getD (rscan nd k nd.num_keys) 0) c2 st3 hcid1
              (by omega)
              (by
                intro m hm
                rw [hPch] at hvO
                rw [hvO] at hm
                obtain rfl := Option.some.inj hm.symm
                show (splitOld oldC).num_keys < MAX_KEYS
                rw [splitOld_num]
                decide)
              hget2 hrec
            refine ⟨hI', hR', by rw [hro', hroot2, hroot1], ?_⟩
            omega
        · -- the chosen child has room: plain recursive descent
          rw [if_neg hfull] at h
          have h' : insertNonfull f st1 (nd.children.getD (rscan nd k nd.num_keys) 0) k v
              = some st' := h
          rw [hcid_nd] at h'
          have hnf1 : childV.num_keys < MAX_KEYS := by
            have hle := hR.2.2.2.1 _ childV hcid1 hvc
            omega
          obtain ⟨hI', hR', hro', hmo'⟩ :=
            ih st1 (ndV.children.getD (rscan nd k nd.num_keys) 0) k v st' childV
              hInv1 hR1 hcid1 hv1 hnf1 hk hv64 hfin h'
          refine ⟨hI', hR', by rw [hro', hroot1], ?_⟩
          omega

/-- Hanging the old root under a freshly allocated root block (the
preamble of `insert`'s root-split branch) keeps the state allocation-
tight: the new root is the only new block, its single live slot points
at the old root, and the old root page changed only its `parent_id`. -/
theorem newRoot_RInv (st1 st6 : St) (rootV NRv OV : Node)
    (hInv1 : Inv st1) (hR1 : RInv st1)
    (hroot1 : 1 ≤ st1.root)
    (hv1 : view st1 st1.root = some rootV)
    (hroot6 : st6.root = st1.next)
    (hnext6 : st6.next = st1.next + 1)
    (hview6 : ∀ b, 1 ≤ b → b ≠ st1.root → b ≠ st1.next → view st6 b = view st1 b)
    (hvN : view st6 st1.next = some NRv)
    (hNRnum : NRv.num_keys = 0)
    (hNR0 : NRv.children.getD 0 0 = st1.root)
    (hNRmem : ∀ x ∈ NRv.children, x = st1.root ∨ x = 0)
    (hvO : view st6 st1.root = some OV)
    (hOch : OV.children = rootV.children)
    (hOnum : OV.num_keys = rootV.num_keys) :
    RInv st6 := by
  obtain ⟨hreach, hcb, hprop, hnkO, d1, hd0, hde⟩ := hR1
  have hn1 : 1 ≤ st1.next := hInv1.1
  have hrlt : st1.root < st1.next := by
    rcases hInv1.2.2.2.1 with hz | hlt
    · omega
    · exact hlt.2
  have hslO : childSlots OV = childSlots rootV := by
    unfold childSlots
    rw [hOch, hOnum]
  have hpropO : properNode OV := by
    rcases hprop st1.root rootV hroot1 hv1 with hL | hRt
    · refine Or.inl ?_
      rw [hOch]
      exact hL
    · refine Or.inr ?_
      intro i hi
      rw [hOch]
      refine hRt i ?_
      rw [← hOnum]
      exact hi
  have hslN : ∀ c, c ∈ childSlots NRv → c = st1.root := by
    intro c hc
    rw [mem_childSlots_iff] at hc
    obtain ⟨x, hx, he⟩ := hc
    rw [hNRnum] at hx
    have hx0 : x = 0 := by omega
    rw [hx0] at he
    rw [← he]
    exact hNR0
  have hsim : ∀ c, Reach (view st1) st1.root c → Reach (view st6) st1.next c := by
    intro c hc
    induction hc with
    | base h0 =>
      refine Reach.step st1.next st1.root NRv (Reach.base (by omega)) hvN ?_ h0
      rw [← hNR0]
      exact childSlots_getD NRv 0 (Nat.zero_le _)
    | step b c nd0 hr hv0 hm hc0 ih =>
      by_cases hbr : b = st1.root
      · rw [hbr, hv1] at hv0
        obtain rfl := Option.some.inj hv0.symm
        rw [hbr] at ih
        refine Reach.step st1.root c OV ih hvO ?_ hc0
        rw [hslO]
        exact hm
      · by_cases hbn : b = st1.next
        · rw [hbn, view_next_none st1 hInv1] at hv0
          exact Option.noConfusion hv0
        · refine Reach.step b c nd0 ih ?_ hm hc0
          rw [hview6 b (Reach_pos _ _ _ hr) hbr hbn]
          exact hv0
  refine ⟨?_, ?_, ?_, ?_, ?_⟩
  · intro b h1 hlt
    rw [hroot6]
    rw [hnext6] at hlt
    by_cases hbn : b = st1.next
    · rw [hbn]
      exact Reach.base (by omega)
    · exact hsim b (hreach b h1 (by omega))
  · intro b nd h1 hv
    rw [hnext6]
    by_cases hbn : b = st1.next
    · rw [hbn, hvN] at hv
      obtain rfl := Option.some.inj hv.symm
      intro x hx
      rcases hNRmem x hx with he | he
      · omega
      · omega
    · by_cases hbr : b = st1.root
      · rw [hbr, hvO] at hv
        obtain rfl := Option.some.inj hv.symm
        intro x hx
        rw [hOch] at hx
        have := hcb st1.root rootV hroot1 hv1 x hx
        omega
      · rw [hview6 b h1 hbr hbn] at hv
        have := hcb b nd h1 hv
        intro x hx
        have := this x hx
        omega
  · intro b nd h1 hv
    by_cases hbn : b = st1.next
    · rw [hbn, hvN] at hv
      obtain rfl := Option.some.inj hv.symm
      refine Or.inr ?_
      intro i hi
      rw [hNRnum] at hi
      have hi0 : i = 0 := by omega
      rw [hi0, hNR0]
      omega
    · by_cases hbr : b = st1.root
      · rw [hbr, hvO] at hv
        obtain rfl := Option.some.inj hv.symm
        exact hpropO
      · rw [hview6 b h1 hbr hbn] at hv
        exact hprop b nd h1 hv
  · intro b nd h1 hv
    by_cases hbn : b = st1.next
    · rw [hbn, hvN] at hv
      obtain rfl := Option.some.inj hv.symm
      rw [hNRnum]
      exact Nat.zero_le _
    · by_cases hbr : b = st1.root
      · rw [hbr, hvO] at hv
        obtain rfl := Option.some.inj hv.symm
        rw [hOnum]
        exact hnkO st1.root rootV hroot1 hv1
      · rw [hview6 b h1 hbr hbn] at hv
        exact hnkO b nd h1 hv
  · refine ⟨fun c => if c = st1.next then 0 else d1 c + 1, ?_, ?_⟩
    · rw [hroot6]
      show (if st1.next = st1.next then 0 else d1 st1.next + 1) = 0
      rw [if_pos rfl]
    · intro b nd h1 hv c hm hc0
      show (if c = st1.next then 0 else d1 c + 1)
        = (if b = st1.next then 0 else d1 b + 1) + 1
      by_cases hbn : b = st1.next
      · rw [hbn, hvN] at hv
        obtain rfl := Option.some.inj hv.symm
        have hcr : c = st1.root := hslN c hm
        rw [hbn, if_pos rfl, hcr, if_neg (by omega), hd0]
      · by_cases hbr : b = st1.root
        · rw [hbr, hvO] at hv
          obtain rfl := Option.some.inj hv.symm
          rw [hslO] at hm
          have hedge := hde st1.root rootV hroot1 hv1 c hm hc0
          have hclt : c < st1.next :=
            hcb st1.root rootV hroot1 hv1 c (childSlots_mem_children rootV c hm hc0)
          rw [hbr, if_neg (by omega), if_neg (by omega)]
          omega
        · rw [hview6 b h1 hbr hbn] at hv
          have hedge := hde b nd h1 hv c hm hc0
          have hclt : c < st1.next :=
            hcb b nd h1 hv c (childSlots_mem_children nd c hm hc0)
          rw [if_neg (by omega), if_neg hbn]
          omega

/-- A freshly created index (header only, nothing allocated) is
allocation-tight: no block is viewed at all. -/
theorem RInv_createSt : RInv createSt := by
  have hview0 : ∀ b, 1 ≤ b → view createSt b = none := by
    intro b hb
    have hlk : lookupCache createSt.cache b = none := rfl
    rw [view_of_lookup_none createSt b hlk,
      get?_eq_none_of_ge createSt.file b
        (by have h1 : createSt.file.length = 1 := rfl; omega)]
    rfl
  refine ⟨?_, ?_, ?_, ?_, fun _ => 0, rfl, ?_⟩
  · intro b h1 hlt
    have h1n : createSt.next = 1 := rfl
    omega
  · intro b nd h1 hv
    rw [hview0 b h1] at hv
    exact Option.noConfusion hv
  · intro b nd h1 hv
    rw [hview0 b h1] at hv
    exact Option.noConfusion hv
  · intro b nd h1 hv
    rw [hview0 b h1] at hv
    exact Option.noConfusion hv
  · intro b nd h1 hv
    rw [hview0 b h1] at hv
    exact Option.noConfusion hv

/-- Claim C6: after every completed insert on a consistent,
allocation-tight tree, the header's `next_block` equals one plus the
maximum block index reachable from the root via child pointers (the
reachable blocks are exactly the allocated interval `[1, next_block)`),
and block indices are never reused (`next_block` never decreases, so no
freed index is ever handed out again).  The bounds on the key, the
value and the final `next_block` say the run stays inside the 8-byte
fields the file format can store. -/
theorem C6_next_block_tracks_allocation (fuel : Nat) (st st' : St) (k v : Nat)
    (hInv : Inv st) (hR : RInv st)
    (hk : k < 2 ^ 64) (hv64 : v < 2 ^ 64) (hfin : st'.next < 2 ^ 64)
    (hins : insert fuel st k v = some st') :
    Inv st' ∧ RInv st' ∧ st.next ≤ st'.next
    ∧ (∀ b, Reach (view st') st'.root b ↔ 1 ≤ b ∧ b < st'.next)
    ∧ Reach (view st') st'.root (st'.next - 1)
    ∧ (∀ b, Reach (view st') st'.root b → b ≤ st'.next - 1) := by
  have hmain : Inv st' ∧ RInv st' ∧ st.next ≤ st'.next ∧ st'.root ≠ 0 := by
    unfold insert at hins
    by_cases hzr : st.root = 0
    · -- first insert ever: allocate the root block and place the pair
      rw [if_pos hzr] at hins
      have hnoReach : ∀ c, ¬ Reach (view st) st.root c := by
        intro c hc
        exact Reach_root_ne _ _ _ hc hzr
      have hn1 : st.next = 1 := by
        by_contra hne
        have h2 : 2 ≤ st.next := by
          have := hInv.1
          omega
        exact hnoReach 1 (hR.1 1 (le_refl 1) (by omega))
      have hce : st.cache = [] := by
        cases hc : st.cache with
        | nil => rfl
        | cons e t =>
          exfalso
          have hm := hInv.2.2.2.2.2.2.2.2.1 e (by rw [hc]; exact List.mem_cons_self e t)
          have h1e := hm.1.2.1
          have h2e := hm.1.2.2.1
          omega
      have hoe : st.order = [] := by
        cases ho : st.order with
        | nil => rfl
        | cons x t =>
          exfalso
          have hmm := hInv.2.2.2.2.2.2.1 x (by rw [ho]; exact List.mem_cons_self x t)
          rw [hce] at hmm
          simp at hmm
      have hfl : st.file.length ≤ 1 := by
        have := hInv.2.2.2.2.2.2.2.2.2.2
        omega
      obtain ⟨F, C, O, R, N⟩ := st
      have hce2 : C = [] := hce
      have hoe2 : O = [] := hoe
      have hzr2 : R = 0 := hzr
      have hn12 : N = 1 := hn1
      subst hce2 hoe2 hzr2 hn12
      have hfl2 : F.length ≤ 1 := hfl
      have hTT : some (firstInsertSt F k v) = some st' := hins
      obtain rfl := Option.some.inj hTT
      refine ⟨?_, ?_, ?_, ?_⟩
      · -- Inv of the one-leaf state
        refine ⟨by show (1 : Nat) ≤ 2; decide, by show (1 : Nat) < 2 ^ 64; decide,
          by show (2 : Nat) < 2 ^ 64; decide,
          Or.inr ⟨by show (1 : Nat) ≤ 1; decide, by show (1 : Nat) < 2; decide⟩,
          ?_, ?_, ?_, ?_, ?_, ?_, ?_⟩
        · show ([1] : List Nat).Nodup
          exact List.nodup_singleton 1
        · show ([1] : List Nat).Nodup
          exact List.nodup_singleton 1
        · exact fun b hb => hb
        · exact fun b hb => hb
        · intro e he
          have he2 : e ∈ [(1, firstInsertNode k v)] := he
          rw [List.mem_singleton] at he2
          subst he2
          refine ⟨⟨rfl, by show (1 : Nat) ≤ 1; decide, by show (1 : Nat) < 2; decide, ?_⟩,
            fun hdf => Bool.noConfusion hdf⟩
          refine ⟨by show (1 : Nat) < 2 ^ 64; decide, by show (0 : Nat) < 2 ^ 64; decide,
            by show (1 : Nat) < 2 ^ 64; decide, ?_, ?_, ?_, ?_, ?_, ?_⟩
          · show ((List.replicate MAX_KEYS 0).set 0 k).length = MAX_KEYS
            rw [List.length_set, List.length_replicate]
          · show ((List.replicate MAX_KEYS 0).set 0 v).length = MAX_KEYS
            rw [List.length_set, List.length_replicate]
          · show (List.replicate MAX_CHILDREN 0).length = MAX_CHILDREN
            rw [List.length_replicate]
          · intro x hx
            rcases mem_of_set _ _ _ _ hx with hm | he3
            · rw [List.eq_of_mem_replicate hm]
              decide
            · rw [he3]
              exact hk
          · intro x hx
            rcases mem_of_set _ _ _ _ hx with hm | he3
            · rw [List.eq_of_mem_replicate hm]
              decide
            · rw [he3]
              exact hv64
          · intro x hx
            rw [List.eq_of_mem_replicate hx]
            decide
        · intro b hb h1b hlk
          have hb2 : b < 2 := hb
          have hb1 : b = 1 := by omega
          subst hb1
          have hlk2 : lookupCache [(1, firstInsertNode k v)] 1 = none := hlk
          rw [show lookupCache [(1, firstInsertNode k v)] 1
              = some (firstInsertNode k v) from rfl] at hlk2
          exact Option.noConfusion hlk2
        · show F.length ≤ 2
          omega
      · -- RInv of the one-leaf state
        have hvhit : ∀ m, view (firstInsertSt F k v) 1 = some m →
            m.children = List.replicate MAX_CHILDREN 0 ∧ m.num_keys = 1 := by
          intro m hm
          have hm2 : some ({ firstInsertNode k v with dirty := false } : Node)
              = some m := hm
          obtain rfl := Option.some.inj hm2
          exact ⟨rfl, rfl⟩
        have hvmiss : ∀ b, 1 ≤ b → b ≠ 1 → view (firstInsertSt F k v) b = none := by
          intro b h1 hne
          have hlkN : lookupCache [(1, firstInsertNode k v)] b = none := by
            refine (lookupCache_eq_none _ _).mpr ?_
            intro hx
            exact hne (List.mem_singleton.mp hx)
          rw [view_of_lookup_none (firstInsertSt F k v) b hlkN]
          show (F.get? b).map readNode = none
          rw [get?_eq_none_of_ge F b (by omega)]
          rfl
        refine ⟨?_, ?_, ?_, ?_, fun _ => 0, rfl, ?_⟩
        · intro b h1 hlt
          have hb2 : b < 2 := hlt
          have hb1 : b = 1 := by omega
          subst hb1
          exact Reach.base (by show (1 : Nat) ≠ 0; decide)
        · intro b nd h1 hv
          by_cases hb1 : b = 1
          · subst hb1
            obtain ⟨hch, -⟩ := hvhit nd hv
            intro x hx
            rw [hch] at hx
            rw [List.eq_of_mem_replicate hx]
            show (0 : Nat) < 2
            decide
          · rw [hvmiss b h1 hb1] at hv
            exact Option.noConfusion hv
        · intro b nd h1 hv
          by_cases hb1 : b = 1
          · subst hb1
            obtain ⟨hch, -⟩ := hvhit nd hv
            refine Or.inl ?_
            rw [hch]
            intro x hx
            exact List.eq_of_mem_replicate hx
          · rw [hvmiss b h1 hb1] at hv
            exact Option.noConfusion hv
        · intro b nd h1 hv
          by_cases hb1 : b = 1
          · subst hb1
            obtain ⟨-, hnk⟩ := hvhit nd hv
            rw [hnk]
            show (1 : Nat) ≤ MAX_KEYS
            decide
          · rw [hvmiss b h1 hb1] at hv
            exact Option.noConfusion hv
        · intro b nd h1 hv c hm hc0
          by_cases hb1 : b = 1
          · subst hb1
            obtain ⟨hch, -⟩ := hvhit nd hv
            exact absurd (childSlots_all_zero nd
              (by rw [hch]; intro x hx; exact List.eq_of_mem_replicate hx) c hm) hc0
          · rw [hvmiss b h1 hb1] at hv
            exact Option.noConfusion hv
      · show (1 : Nat) ≤ 2
        decide
      · show (1 : Nat) ≠ 0
        decide
    · -- the tree already has a root
      rw [if_neg hzr] at hins
      have hr1 : 1 ≤ st.root := Nat.one_le_iff_ne_zero.mpr hzr
      have hrlt : st.root < st.next := by
        rcases hInv.2.2.2.1 with hz | hlt
        · exact absurd hz hzr
        · exact hlt.2
      obtain ⟨rootV, hvroot⟩ := view_defined st st.root hInv hr1 hrlt
      obtain ⟨rootC, st1, hgetR, hstep1, hstripR⟩ :=
        cacheGet_view st st.root rootV hInv hr1 hvroot
      rw [hgetR] at hins
      simp only [Option.some_bind] at hins
      obtain ⟨hInv1, hrootEq1, hnextEq1, hview1⟩ := hstep1
      have hR1 : RInv st1 := RInv_of_StepOK st st1 ⟨hInv1, hrootEq1, hnextEq1, hview1⟩ hR
      have hrnum : rootC.num_keys = rootV.num_keys := by
        have hX := congrArg Node.num_keys hstripR
        exact hX
      by_cases hfull : rootC.num_keys = MAX_KEYS
      · -- full root: allocate a new root, hang the old one under it, split
        rw [if_pos hfull] at hins
        rw [Option.bind_eq_some] at hins
        obtain ⟨⟨newRoot, st3⟩, hNN, hins⟩ := hins
        simp only at hins
        rw [Option.bind_eq_some] at hins
        obtain ⟨st4, hP1, hins⟩ := hins
        rw [Option.bind_eq_some] at hins
        obtain ⟨st5, hP2, hins⟩ := hins
        rw [Option.bind_eq_some] at hins
        obtain ⟨st7, hSC, hins⟩ := hins
        obtain ⟨hro7, hmo7⟩ := insertNonfull_mono fuel st7 _ k v st' hins
        obtain ⟨hrSC, hnSC⟩ := splitChild_fields _ _ _ _ hSC
        obtain ⟨hrP2, hnP2⟩ := poke_fields _ _ _ _ hP2
        obtain ⟨hrP1, hnP1⟩ := poke_fields _ _ _ _ hP1
        obtain ⟨hrNN, hnNN⟩ := newNode_fields _ _ _ _ _ hNN
        have hnNN' : st3.next = st1.next + 1 := hnNN
        have hn7 : st7.next = st5.next + 1 := hnSC
        have hb2 : st1.next + 2 < 2 ^ 64 := by omega
        obtain ⟨stA, hNNs, hInvA, hrootA, hnextA, hviewA, hvNA, hlkA⟩ :=
          newNode_spec st1 0 hInv1 (by omega) (by decide)
        have hNN2 : some (Node.fresh st1.next 0, stA) = some (newRoot, st3) :=
          hNNs.symm.trans hNN
        cases Option.some.inj hNN2
        have hrvb : rootC.block_id = st.root := by
          have hX : rootC.block_id = rootV.block_id := by
            have hY := congrArg Node.block_id hstripR
            exact hY
          rw [hX]
          exact (view_good st st.root rootV hInv hr1 hvroot).1
        have hwfRV : rootV.wf64 := (view_good st st.root rootV hInv hr1 hvroot).2.2
        have hwfRC : rootC.wf64 := (wf64_strip rootC).mp (by rw [hstripR]; exact hwfRV)
        have hwfNR2 : (newRootNode st1.next rootC.block_id).wf64 := by
          refine ⟨?_, by show (0 : Nat) < 2 ^ 64; decide, by show (0 : Nat) < 2 ^ 64; decide,
            ?_, ?_, ?_, ?_, ?_, ?_⟩
          · show st1.next < 2 ^ 64
            exact hInv1.2.2.1
          · show (List.replicate MAX_KEYS 0).length = MAX_KEYS
            rw [List.length_replicate]
          · show (List.replicate MAX_KEYS 0).length = MAX_KEYS
            rw [List.length_replicate]
          · show ((List.replicate MAX_CHILDREN 0).set 0 rootC.block_id).length = MAX_CHILDREN
            rw [List.length_set, List.length_replicate]
          · intro x hx
            rw [List.eq_of_mem_replicate hx]
            decide
          · intro x hx
            rw [List.eq_of_mem_replicate hx]
            decide
          · intro x hx
            rcases mem_of_set _ _ _ _ hx with hm | he2
            · rw [List.eq_of_mem_replicate hm]
              decide
            · rw [he2, hrvb]
              exact hInv.2.1
        obtain ⟨stB, hPB, hInvB, hrootB, hnextB, hfileB, hviewB, hvbB, hlkB⟩ :=
          poke_spec st3 st1.next (Node.fresh st1.next 0)
            (newRootNode st1.next rootC.block_id) hInvA hlkA rfl hwfNR2 rfl
        have hPB2 : some stB = some st4 := hPB.symm.trans hP1
        cases Option.some.inj hPB2
        cases hlk4 : lookupCache st4.cache st.root with
        | none =>
          exfalso
          unfold poke at hP2
          rw [hlk4] at hP2
          exact Option.noConfusion hP2
        | some old0 =>
        have hwfNO : (rehungRoot rootC st1.next).wf64 := by
          obtain ⟨w1, w2, w3, w4, w5, w6, w7, w8, w9⟩ := hwfRC
          exact ⟨w1, hInv1.2.2.1, w3, w4, w5, w6, w7, w8, w9⟩
        obtain ⟨stC, hPC, hInvC, hrootC, hnextC, hfileC, hviewC, hvbC, hlkC⟩ :=
          poke_spec st4 st.root old0 (rehungRoot rootC st1.next) hInvB hlk4 hrvb hwfNO rfl
        have hPC2 : some stC = some st5 := hPC.symm.trans hP2
        cases Option.some.inj hPC2
        have hne_rn : st.root ≠ st1.next := by omega
        have hnC1 : st5.next = st1.next + 1 := by omega
        have hvC_new : view st5 st1.next
            = some ({ newRootNode st1.next rootC.block_id with dirty := false } : Node) := by
          rw [hviewC st1.next hInv1.1 (by omega)]
          exact hvbB
        have hvC_else : ∀ b, 1 ≤ b → b ≠ st.root → b ≠ st1.next →
            view st5 b = view st1 b := by
          intro b h1 hbr hbn
          rw [hviewC b h1 hbr, hviewB b h1 hbn, hviewA b h1 hbn]
        have hInv6 : Inv ({ st5 with root := st1.next } : St) := by
          obtain ⟨i1, i2, i3, i4, i5, i6, i7, i8, i9, i10, i11⟩ := hInvC
          refine ⟨i1, ?_, i3, ?_, i5, i6, i7, i8, i9, i10, i11⟩
          · show st1.next < 2 ^ 64
            exact hInv1.2.2.1
          · refine Or.inr ⟨hInv1.1, ?_⟩
            show st1.next < st5.next
            omega
        have hv1R : view st1 st1.root = some rootV := by
          rw [hrootEq1, hview1 st.root hr1]
          exact hvroot
        have hRCch : rootC.children = rootV.children := by
          have hX := congrArg Node.children hstripR
          exact hX
        have hR6 : RInv ({ st5 with root := st1.next } : St) := by
          refine newRoot_RInv st1 ({ st5 with root := st1.next } : St) rootV
            ({ newRootNode st1.next rootC.block_id with dirty := false } : Node)
            ({ rehungRoot rootC st1.next with dirty := false } : Node)
            hInv1 hR1 (by rw [hrootEq1]; exact hr1) hv1R rfl
            (by show st5.next = st1.next + 1; omega)
            ?_ ?_ rfl ?_ ?_ ?_ ?_ ?_
          · intro b h1 hbr hbn
            show view st5 b = view st1 b
            refine hvC_else b h1 ?_ hbn
            rw [← hrootEq1]
            exact hbr
          · show view st5 st1.next = _
            exact hvC_new
          · show ((List.replicate MAX_CHILDREN 0).set 0 rootC.block_id).getD 0 0 = st1.root
            rw [getD_set_self _ _ _ (by rw [List.length_replicate]; decide), hrvb, hrootEq1]
          · intro x hx
            rcases mem_of_set _ _ _ _ hx with hm | he2
            · exact Or.inr (List.eq_of_mem_replicate hm)
            · refine Or.inl ?_
              rw [he2, hrvb, hrootEq1]
          · show view st5 st1.root = _
            rw [hrootEq1]
            exact hvbC
          · show rootC.children = rootV.children
            exact hRCch
          · show rootC.num_keys = rootV.num_keys
            exact hrnum
        have hpk6 : peek ({ st5 with root := st1.next } : St) st1.next
            = some (newRootNode st1.next rootC.block_id) := by
          show lookupCache st5.cache st1.next = _
          have hPC3 : some ({ st4 with cache := replaceCache st4.cache st.root (rehungRoot rootC st1.next) } : St) = some st5 := by
            rw [← hPC]
            unfold poke
            rw [hlk4]
          have hcC : st5.cache
              = replaceCache st4.cache st.root (rehungRoot rootC st1.next) := by
            have hY := congrArg St.cache (Option.some.inj hPC3)
            exact hY.symm
          rw [hcC, lookupCache_replace_ne _ _ _ _ (by omega)]
          exact hlkB
        have haux : (newRootNode st1.next rootC.block_id).children.getD 0 0 = st.root := by
          show ((List.replicate MAX_CHILDREN 0).set 0 rootC.block_id).getD 0 0 = st.root
          rw [getD_set_self _ _ _ (by rw [List.length_replicate]; decide), hrvb]
        obtain ⟨oldC2, hOc2, hInv7, hroot7x, hnext7x, hview7, hvP7, hvO7, hvN7,
            hpbo7, holdn7, hpbn7⟩ :=
          splitChild_spec ({ st5 with root := st1.next } : St) st7 st1.next 0
            (newRootNode st1.next rootC.block_id)
            ({ rehungRoot rootC st1.next with dirty := false } : Node)
            hInv6 (by show st5.next + 1 < 2 ^ 64; omega) hpk6
            (by show (0 : Nat) < MAX_KEYS; decide)
            (Nat.zero_le _)
            (by rw [haux]; exact hzr)
            (by rw [haux]; show view st5 st.root = _; exact hvbC)
            hfull
            hSC
        obtain ⟨hR7, -⟩ :=
          split_RInv ({ st5 with root := st1.next } : St) st7 st1.next 0
            ((newRootNode st1.next rootC.block_id).children.getD 0 0)
            ({ st5 with root := st1.next } : St).next
            (newRootNode st1.next rootC.block_id)
            ({ rehungRoot rootC st1.next with dirty := false } : Node)
            oldC2
            hInv6 hR6 hOc2
            hvC_new
            (by rw [haux]; show view st5 st.root = _; exact hvbC)
            rfl rfl
            hInv1.1
            (by show st1.next < st5.next; omega)
            (by rw [haux]; exact hr1)
            holdn7 hpbo7
            (by show (0 : Nat) < MAX_KEYS; decide)
            (Nat.zero_le _)
            (by rw [haux]; exact hzr)
            hfull
            hInv7 hroot7x hnext7x hview7 hvP7 hvO7 hvN7
        obtain ⟨hI', hR', hro', hmo'⟩ :=
          insertNonfull_spec fuel st7 st1.next k v st' _ hInv7 hR7 hInv1.1 hvP7
            (by
              show (splitPar (newRootNode st1.next rootC.block_id) 0 ({ st5 with root := st1.next } : St).next (splitOldMid oldC2)).num_keys < MAX_KEYS
              rw [splitPar_num]
              show (0 : Nat) + 1 < MAX_KEYS
              decide)
            hk hv64 hfin hins
        have hro7' : st7.root = st1.next := hroot7x
        refine ⟨hI', hR', ?_, ?_⟩
        · rw [← hnextEq1]
          omega
        · rw [hro', hro7']
          have := hInv1.1
          omega
      · -- non-full root: plain non-full descent from the root
        rw [if_neg hfull] at hins
        have hv1 : view st1 st.root = some rootV := by
          rw [hview1 st.root hr1]
          exact hvroot
        have hnfV : rootV.num_keys < MAX_KEYS := by
          have hle := hR.2.2.2.1 st.root rootV hr1 hvroot
          omega
        obtain ⟨hI', hR', hro', hmo'⟩ :=
          insertNonfull_spec fuel st1 st.root k v st' rootV hInv1 hR1 hr1 hv1 hnfV
            hk hv64 hfin hins
        refine ⟨hI', hR', ?_, ?_⟩
        · rw [← hnextEq1]
          exact hmo'
        · rw [hro', hrootEq1]
          exact hzr
  obtain ⟨hI', hR', hmo, hr0⟩ := hmain
  have hrlt' : st'.root < st'.next := by
    rcases hI'.2.2.2.1 with hzz | hlt
    · exact absurd hzz hr0
    · exact hlt.2
  have h1r : 1 ≤ st'.root := Nat.one_le_iff_ne_zero.mpr hr0
  have hiff : ∀ b, Reach (view st') st'.root b ↔ 1 ≤ b ∧ b < st'.next := by
    intro b
    constructor
    · intro hrb
      refine ⟨Reach_pos _ _ _ hrb, ?_⟩
      exact Reach_lt (view st') st'.root st'.next b hrlt'
        (fun b0 nd0 h1 hv0 => hR'.2.1 b0 nd0 h1 hv0) hrb
    · intro hb
      exact hR'.1 b hb.1 hb.2
  refine ⟨hI', hR', hmo, hiff, ?_, ?_⟩
  · exact hR'.1 (st'.next - 1) (by omega) (by omega)
  · intro b hb
    have := (hiff b).mp hb
    omega

/-- Concrete instance of `C6_next_block_tracks_allocation`: the very
first insert on a fresh index allocates block 1 as the root leaf, and
`next_block = 2` is one plus the maximum (indeed only) reachable block. -/
theorem C6_witness :
    insert 1 createSt 5 50 = some (leafState [(5, 50)])
    ∧ (Inv (leafState [(5, 50)]) ∧ RInv (leafState [(5, 50)])
       ∧ createSt.next ≤ (leafState [(5, 50)]).next
       ∧ (∀ b, Reach (view (leafState [(5, 50)])) (leafState [(5, 50)]).root b
            ↔ 1 ≤ b ∧ b < (leafState [(5, 50)]).next)
       ∧ Reach (view (leafState [(5, 50)])) (leafState [(5, 50)]).root
           ((leafState [(5, 50)]).next - 1)
       ∧ (∀ b, Reach (view (leafState [(5, 50)])) (leafState [(5, 50)]).root b
            → b ≤ (leafState [(5, 50)]).next - 1)) :=
  ⟨rfl, C6_next_block_tracks_allocation 1 createSt (leafState [(5, 50)]) 5 50
    (by decide) RInv_createSt (by decide) (by decide) (by decide) rfl⟩

end Project3
